import Mathlib

/-!
# Verification of the `superdo` Sudoku solver (`src/main.rs`)

Shallow embedding of the solver's data model and operations, followed by
theorems settling the specification claims.

Modelling conventions:
* `u32` values become `ℕ`; the values occurring in this program are always
  in `0..9`, so no overflow arithmetic is needed.
* `HashSet<u32>` candidate sets become `Finset ℕ`.  Iteration over a Rust
  `HashSet`/`HashMap` has an unspecified order; where the solver's behaviour
  is insensitive to that order we determinise it by iterating in ascending
  numeric order (`Finset.sort`), and where a claim is *about* the order
  (the guess order of `resolve`) we parameterise by an arbitrary
  admissible enumeration instead.
* `Vec<Vec<SudokuPos>>` (always 9×9) becomes `Fin 9 → Fin 9 → SudokuPos`.
* The `loop`/`while` constructs become fuel-indexed recursions returning
  `Option`; fuel exhaustion (`none`) models divergence, and we prove the
  fuel used by the program's boards is sufficient.
-/

namespace Superdo

/-- A single grid position (`SudokuPos` in the source): a fixed value
(`val ≠ 0`) or an unknown (`val = 0`) together with its candidate set. -/
structure SudokuPos where
  val : ℕ
  digits : Finset ℕ
deriving DecidableEq

instance : Inhabited SudokuPos := ⟨⟨0, ∅⟩⟩

/-- `SudokuPos::new_with`: value 0 gets candidates `{1,…,9}` (Rust
`(1..10).collect()`), a nonzero value gets an empty candidate set. -/
def SudokuPos.new_with (v : ℕ) : SudokuPos :=
  if v = 0 then ⟨0, Finset.Icc 1 9⟩ else ⟨v, ∅⟩

/-- The 9×9 board (`SudokuBoard`), as a function from coordinates to
positions. -/
abbrev Board := Fin 9 → Fin 9 → SudokuPos

namespace SudokuBoard

/-- `(r', c')` lies in the row, column or 3×3 box of `(r, c)` — the 27
(overlapping) peer positions cleaned by `SudokuBoard::set`. -/
def inUnit (r c r' c' : Fin 9) : Prop :=
  r' = r ∨ c' = c ∨ ((r' : ℕ) / 3 = (r : ℕ) / 3 ∧ (c' : ℕ) / 3 = (c : ℕ) / 3)

instance (r c r' c' : Fin 9) : Decidable (inUnit r c r' c') := by
  unfold inUnit; infer_instance

/-- `SudokuBoard::set`: write `val` into `(row, col)`; when `val ≠ 0` also
clear the target's candidates and remove `val` from the candidate set of
every position in the same row, column and 3×3 box.  When `val = 0` only
the value field of the target is written. -/
def set (b : Board) (v : ℕ) (r c : Fin 9) : Board := fun r' c' =>
  if v = 0 then
    if r' = r ∧ c' = c then { b r' c' with val := 0 } else b r' c'
  else
    if r' = r ∧ c' = c then ⟨v, ∅⟩
    else if inUnit r c r' c' then
      { b r' c' with digits := (b r' c').digits.erase v }
    else b r' c'

/-- `SudokuBoard::exhausted`: some position has value 0 and an empty
candidate set. -/
def exhausted (b : Board) : Bool :=
  (List.finRange 9).any fun r => (List.finRange 9).any fun c =>
    decide ((b r c).val = 0 ∧ (b r c).digits = ∅)

/-- The 81 cells in row-major order — the iteration order of the nested
`for row in 0..9 { for col in 0..9 { … } }` loops of `solve`. -/
def cells : List (Fin 9 × Fin 9) :=
  (List.finRange 9).flatMap fun r => (List.finRange 9).map fun c => (r, c)

/-- Row statistics of `solve`: the count a candidate digit `d` of `(r, c)`
reaches in `row_digit_stats` — its own contribution of 1 plus one for each
other cell of row `r` whose candidate set contains `d`. -/
def rowCount (b : Board) (r c : Fin 9) (d : ℕ) : ℕ :=
  1 + (List.finRange 9).countP fun i => decide (i ≠ c ∧ d ∈ (b r i).digits)

/-- Column statistics of `solve` (`col_digit_stats`). -/
def colCount (b : Board) (r c : Fin 9) (d : ℕ) : ℕ :=
  1 + (List.finRange 9).countP fun i => decide (i ≠ r ∧ d ∈ (b i c).digits)

/-- Index of the `a`-th row (or column) of the 3×3 box containing `i`
(`(i / 3) * 3 + a` in the source). -/
def boxIdx (i : Fin 9) (a : Fin 3) : Fin 9 :=
  ⟨(i : ℕ) / 3 * 3 + a, by have := i.isLt; have := a.isLt; omega⟩

/-- The 9 cells of the 3×3 box containing `(r, c)`, in the order the
nested `for a in 0..3 { for b in 0..3 }` loops visit them. -/
def boxCells (r c : Fin 9) : List (Fin 9 × Fin 9) :=
  (List.finRange 3).flatMap fun a =>
    (List.finRange 3).map fun b => (boxIdx r a, boxIdx c b)

/-- Box statistics of `solve` (`grid_digit_stats`): unlike the row and
column statistics, the source only counts *unassigned* (`val == 0`) other
cells of the box. -/
def boxCount (bd : Board) (r c : Fin 9) (d : ℕ) : ℕ :=
  1 + (boxCells r c).countP fun p =>
    decide (p ≠ (r, c) ∧ (bd p.1 p.2).val = 0 ∧ d ∈ (bd p.1 p.2).digits)

/-- Ascending enumeration of a finite set of naturals — the
determinisation we use for Rust's unspecified `HashMap`/`HashSet`
iteration order (chosen over `Finset.sort` so that concrete witnesses can
be evaluated by the kernel). -/
def ascList (s : Finset ℕ) : List ℕ :=
  (List.range (s.sup id + 1)).filter fun d => decide (d ∈ s)

/-- `count_and_set`'s digit choice for the row rule: the first candidate
digit of `(r, c)` whose row count stayed at 1.  (The source iterates a
`HashMap` in unspecified order; we determinise to ascending digit order.) -/
def forcedRowDigit (b : Board) (r c : Fin 9) : Option ℕ :=
  (ascList (b r c).digits).find? fun d => rowCount b r c d == 1

/-- `count_and_set`'s digit choice for the column rule. -/
def forcedColDigit (b : Board) (r c : Fin 9) : Option ℕ :=
  (ascList (b r c).digits).find? fun d => colCount b r c d == 1

/-- `count_and_set`'s digit choice for the 3×3-box rule. -/
def forcedBoxDigit (b : Board) (r c : Fin 9) : Option ℕ :=
  (ascList (b r c).digits).find? fun d => boxCount b r c d == 1

/-- The body of `solve`'s per-cell processing, for a cell already known to
be unassigned (`val = 0`): fail if the candidate set is empty, otherwise
try naked single, hidden single in row, in column, in box, in that order;
the first rule that fires assigns via `set` and processing stops (`continue`
in the source).  Returns `.error b` for the early `return false`, and
`.ok (b', changed)` otherwise. -/
def processCell (b : Board) (r c : Fin 9) : Except Board (Board × Bool) :=
  if (b r c).digits = ∅ then .error b
  else if (b r c).digits.card = 1 then
    .ok (SudokuBoard.set b ((ascList (b r c).digits).headI) r c, true)
  else
    match forcedRowDigit b r c with
    | some d => .ok (SudokuBoard.set b d r c, true)
    | none =>
      match forcedColDigit b r c with
      | some d => .ok (SudokuBoard.set b d r c, true)
      | none =>
        match forcedBoxDigit b r c with
        | some d => .ok (SudokuBoard.set b d r c, true)
        | none => .ok (b, false)

/-- One cell of a pass of `solve`: the accumulator carries the board and
the `has_empty` / `has_changes` flags. -/
def passStep (acc : Board × Bool × Bool) (p : Fin 9 × Fin 9) :
    Except Board (Board × Bool × Bool) :=
  let (b, he, hc) := acc
  if (b p.1 p.2).val = 0 then
    match processCell b p.1 p.2 with
    | .error b' => .error b'
    | .ok (b', ch) => .ok (b', true, hc || ch)
  else .ok (b, he, hc)

/-- One full pass of `solve` over the 81 cells in row-major order, with the
early `return false` modelled by the `Except` monad. -/
def runPass (b : Board) : Except Board (Board × Bool × Bool) :=
  cells.foldlM passStep (b, false, false)

/-- The outer `loop` of `solve`, with fuel: return `true` when a pass saw
no unassigned cell, `false` when a pass saw one but made no assignment (or
hit a cell with empty candidates), otherwise repeat. -/
def solveLoop : ℕ → Board → Option (Bool × Board)
  | 0, _ => none
  | n + 1, b =>
    match runPass b with
    | .error b' => some (false, b')
    | .ok (b', he, hc) =>
      if he then
        if hc then solveLoop n b' else some (false, b')
      else some (true, b')

/-- `SudokuBoard::solve`.  81 assignable cells bound the number of
productive passes, so fuel 82 is sufficient for every board of the program
(proved below). -/
def solve (b : Board) : Option (Bool × Board) := solveLoop 82 b

/-- Number of unassigned cells of the board. -/
def zeroCount (b : Board) : ℕ :=
  cells.countP fun p => decide ((b p.1 p.2).val = 0)

/-- Number of assigned (nonzero-valued) cells of the board. -/
def nonzeroCount (b : Board) : ℕ :=
  cells.countP fun p => decide ((b p.1 p.2).val ≠ 0)

/-- Every cell is assigned. -/
def isFull (b : Board) : Bool :=
  cells.all fun p => decide ((b p.1 p.2).val ≠ 0)

/-- Candidate sets only contain digits 1–9.  Holds for every board the
program constructs (`new_with` starts from `{1,…,9}` and `set` only
removes), and rules out assigning the value 0 from a candidate set. -/
def ValidDigits (b : Board) : Prop :=
  ∀ r c : Fin 9, (b r c).digits ⊆ Finset.Icc 1 9

instance (b : Board) : Decidable (ValidDigits b) := by
  unfold ValidDigits; infer_instance

/-- `SudokuBoard::empty`: every cell unknown with candidates `{1,…,9}`. -/
def empty : Board := fun _ _ => SudokuPos.new_with 0

/-- `SudokuBoard::new_with`: starting from the empty board, `set` each
cell of the given grid in row-major order (pruning peer candidates as it
goes). -/
def new_with (g : Fin 9 → Fin 9 → ℕ) : Board :=
  cells.foldl (fun b p => set b (g p.1 p.2) p.1 p.2) empty

/-- Read a 9×9 grid of numbers out of a list of rows (0 when absent). -/
def mkGrid (l : List (List ℕ)) : Fin 9 → Fin 9 → ℕ := fun r c =>
  (l.getD r []).getD c 0

/-- Convenience constructor for concrete boards in the witnesses below. -/
def mkBoard (l : List (List ℕ)) : Board := new_with (mkGrid l)

end SudokuBoard

open SudokuBoard

/-! ## Basic facts about `set` and `exhausted` -/

/-- `exhausted` answers exactly "some unassigned cell has an empty
candidate set". -/
lemma exhausted_eq_true_iff (b : Board) :
    exhausted b = true ↔ ∃ r c : Fin 9, (b r c).val = 0 ∧ (b r c).digits = ∅ := by
  simp [exhausted, List.any_eq_true, List.mem_finRange]

/-- A small concrete board used in witnesses: `(0,0)` holds 5, all other
cells are free with full candidate sets. -/
def oneFixed : Board := fun r c =>
  if r = 0 ∧ c = 0 then ⟨5, ∅⟩ else ⟨0, Finset.Icc 1 9⟩

/-- C7: `set` is idempotent: writing the same value at the same cell twice
leaves the board exactly as writing it once.  For a nonzero value the
second call re-clears an already empty candidate set and re-erases the
value from peer candidate sets (`Finset.erase` is idempotent); for value 0
it rewrites the same value field. -/
theorem set_idem (b : Board) (v : ℕ) (r c : Fin 9) :
    SudokuBoard.set (SudokuBoard.set b v r c) v r c = SudokuBoard.set b v r c := by
  funext r' c'
  by_cases hv : v = 0
  · simp only [SudokuBoard.set, if_pos hv]
    split_ifs <;> rfl
  · simp only [SudokuBoard.set, if_neg hv]
    split_ifs <;> simp [Finset.erase_idem]

/-- C10: `set` with value 0 only writes the target's value field: the
target's candidate set and every other cell are untouched; consequently,
zeroing a cell whose candidate set is empty (as every assigned cell's is)
leaves an unassigned cell with no candidates, making the board exhausted. -/
theorem set_zero_frame (b : Board) (r c : Fin 9) :
    (SudokuBoard.set b 0 r c r c).val = 0 ∧
    (SudokuBoard.set b 0 r c r c).digits = (b r c).digits ∧
    (∀ r' c' : Fin 9, ¬(r' = r ∧ c' = c) →
      SudokuBoard.set b 0 r c r' c' = b r' c') ∧
    ((b r c).val ≠ 0 → (b r c).digits = ∅ →
      exhausted (SudokuBoard.set b 0 r c) = true) := by
  refine ⟨by simp [SudokuBoard.set], by simp [SudokuBoard.set], ?_, ?_⟩
  · intro r' c' h
    simp [SudokuBoard.set, h]
  · intro _ hd
    exact (exhausted_eq_true_iff _).mpr ⟨r, c, by simp [SudokuBoard.set, hd]⟩

/-- Witness for C10 at a concrete input: un-fixing the assigned cell
`(0,0)` of `oneFixed` makes the board exhausted. -/
theorem set_zero_frame_witness :
    exhausted (SudokuBoard.set oneFixed 0 0 0) = true :=
  (set_zero_frame oneFixed 0 0).2.2.2 (by decide) (by decide)

/-! ## Frame lemmas for `set` -/

lemma set_val (b : Board) (v : ℕ) (r c r' c' : Fin 9) :
    (SudokuBoard.set b v r c r' c').val =
      if r' = r ∧ c' = c then v else (b r' c').val := by
  unfold SudokuBoard.set; split_ifs <;> simp_all

lemma set_digits_subset (b : Board) (v : ℕ) (r c r' c' : Fin 9) :
    (SudokuBoard.set b v r c r' c').digits ⊆ (b r' c').digits := by
  unfold SudokuBoard.set
  split_ifs <;> simp [Finset.erase_subset]

/-- Every coordinate pair occurs in the row-major cell list. -/
lemma mem_cells (p : Fin 9 × Fin 9) : p ∈ cells :=
  List.mem_flatMap.mpr ⟨p.1, List.mem_finRange _,
    List.mem_map.mpr ⟨p.2, List.mem_finRange _, rfl⟩⟩

/-! ## Counting helpers -/

lemma countP_lt {α : Type} (l : List α) (p q : α → Bool)
    (hmono : ∀ a ∈ l, q a = true → p a = true)
    (x : α) (hx : x ∈ l) (hp : p x = true) (hq : q x = false) :
    l.countP q < l.countP p := by
  induction l with
  | nil => cases hx
  | cons y t ih =>
    rcases List.mem_cons.mp hx with rfl | hxt
    · rw [List.countP_cons_of_neg q _ (by simp [hq] : ¬ q x = true),
        List.countP_cons_of_pos p _ hp]
      exact Nat.lt_succ_of_le
        (List.countP_mono_left fun a ha h => hmono a (List.mem_cons_of_mem _ ha) h)
    · by_cases hqy : q y = true
      · rw [List.countP_cons_of_pos q _ hqy,
          List.countP_cons_of_pos p _ (hmono y (List.mem_cons_self _ _) hqy)]
        exact Nat.succ_lt_succ
          (ih (fun a ha h => hmono a (List.mem_cons_of_mem _ ha) h) hxt)
      · rw [List.countP_cons_of_neg q _ hqy]
        calc t.countP q < t.countP p :=
              ih (fun a ha h => hmono a (List.mem_cons_of_mem _ ha) h) hxt
          _ ≤ (y :: t).countP p := by
              rw [List.countP_cons]; exact Nat.le_add_right _ _

/-- Assigning a nonzero value to an unassigned cell strictly decreases the
number of unassigned cells. -/
lemma zeroCount_set_lt (b : Board) (v : ℕ) (r c : Fin 9)
    (h0 : (b r c).val = 0) (hv : v ≠ 0) :
    zeroCount (SudokuBoard.set b v r c) < zeroCount b := by
  apply countP_lt cells _ _ _ (r, c) (mem_cells _)
  · simpa using h0
  · simp only [decide_eq_false_iff_not]
    intro hcon
    rw [set_val] at hcon
    simp at hcon
    exact hv hcon
  · intro a _ ha
    simp only [decide_eq_true_eq] at ha ⊢
    rw [set_val] at ha
    by_cases hac : a.1 = r ∧ a.2 = c
    · rw [if_pos hac] at ha; exact absurd ha hv
    · rwa [if_neg hac] at ha

lemma zeroCount_set_le (b : Board) (v : ℕ) (r c : Fin 9) (hv : v ≠ 0) :
    zeroCount (SudokuBoard.set b v r c) ≤ zeroCount b := by
  apply List.countP_mono_left
  intro a _ ha
  simp only [decide_eq_true_eq] at ha ⊢
  rw [set_val] at ha
  by_cases hac : a.1 = r ∧ a.2 = c
  · rw [if_pos hac] at ha; exact absurd ha hv
  · rwa [if_neg hac] at ha

/-! ## Characterizing one cell of a pass -/

lemma exceptBind_ok {ε α β : Type} (a : α) (f : α → Except ε β) :
    (Except.ok a >>= f) = f a := rfl

lemma exceptBind_error {ε α β : Type} (e : ε) (f : α → Except ε β) :
    ((Except.error e : Except ε α) >>= f) = .error e := rfl

lemma mem_ascList (s : Finset ℕ) (d : ℕ) : d ∈ ascList s ↔ d ∈ s := by
  unfold ascList
  rw [List.mem_filter]
  simp only [List.mem_range, decide_eq_true_eq]
  constructor
  · exact fun h => h.2
  · intro h
    have h2 : id d ≤ s.sup id := Finset.le_sup h
    exact ⟨Nat.lt_succ_of_le h2, h⟩

lemma ascList_nodup (s : Finset ℕ) : (ascList s).Nodup :=
  (List.nodup_range _).filter _

lemma ascList_headI_mem (s : Finset ℕ) (h : s ≠ ∅) : (ascList s).headI ∈ s := by
  obtain ⟨d, hd⟩ := Finset.nonempty_iff_ne_empty.mpr h
  have hmem : d ∈ ascList s := (mem_ascList s d).mpr hd
  cases hl : ascList s with
  | nil => rw [hl] at hmem; cases hmem
  | cons a t =>
    have : a ∈ ascList s := by rw [hl]; exact List.mem_cons_self _ _
    simpa using (mem_ascList s a).mp this

lemma processCell_of_empty (b : Board) (r c : Fin 9)
    (hd : (b r c).digits = ∅) : processCell b r c = .error b := by
  unfold processCell; rw [if_pos hd]

lemma processCell_error (b : Board) (r c : Fin 9) (e : Board)
    (h : processCell b r c = .error e) : e = b ∧ (b r c).digits = ∅ := by
  unfold processCell at h
  by_cases hd : (b r c).digits = ∅
  · rw [if_pos hd] at h; exact ⟨(Except.error.inj h).symm, hd⟩
  · exfalso
    rw [if_neg hd] at h
    by_cases hcard : (b r c).digits.card = 1
    · rw [if_pos hcard] at h; cases h
    · rw [if_neg hcard] at h
      cases hrow : forcedRowDigit b r c with
      | some d => rw [hrow] at h; cases h
      | none =>
        rw [hrow] at h
        cases hcol : forcedColDigit b r c with
        | some d => rw [hcol] at h; cases h
        | none =>
          rw [hcol] at h
          cases hbox : forcedBoxDigit b r c with
          | some d => rw [hbox] at h; cases h
          | none => rw [hbox] at h; cases h

lemma processCell_ok (b : Board) (r c : Fin 9) (b' : Board) (ch : Bool)
    (h : processCell b r c = .ok (b', ch)) :
    (ch = true ∧ ∃ v ∈ (b r c).digits, b' = SudokuBoard.set b v r c) ∨
    (ch = false ∧ b' = b) := by
  unfold processCell at h
  by_cases hd : (b r c).digits = ∅
  · rw [if_pos hd] at h; cases h
  · rw [if_neg hd] at h
    by_cases hcard : (b r c).digits.card = 1
    · rw [if_pos hcard] at h
      injection h with h2
      injection h2 with h3 h4
      exact .inl ⟨h4.symm, _, ascList_headI_mem _ hd, h3.symm⟩
    · rw [if_neg hcard] at h
      cases hrow : forcedRowDigit b r c with
      | some d =>
        rw [hrow] at h
        injection h with h2
        injection h2 with h3 h4
        exact .inl ⟨h4.symm, d,
          (mem_ascList _ _).mp (List.mem_of_find?_eq_some hrow), h3.symm⟩
      | none =>
        rw [hrow] at h
        cases hcol : forcedColDigit b r c with
        | some d =>
          rw [hcol] at h
          injection h with h2
          injection h2 with h3 h4
          exact .inl ⟨h4.symm, d,
            (mem_ascList _ _).mp (List.mem_of_find?_eq_some hcol), h3.symm⟩
        | none =>
          rw [hcol] at h
          cases hbox : forcedBoxDigit b r c with
          | some d =>
            rw [hbox] at h
            injection h with h2
            injection h2 with h3 h4
            exact .inl ⟨h4.symm, d,
              (mem_ascList _ _).mp (List.mem_of_find?_eq_some hbox), h3.symm⟩
          | none =>
            rw [hbox] at h
            injection h with h2
            injection h2 with h3 h4
            exact .inr ⟨h4.symm, h3.symm⟩

lemma passStep_ok (b : Board) (he hc : Bool) (p : Fin 9 × Fin 9)
    (b' : Board) (he' hc' : Bool)
    (h : passStep (b, he, hc) p = .ok (b', he', hc')) :
    ((b p.1 p.2).val ≠ 0 ∧ b' = b ∧ he' = he ∧ hc' = hc) ∨
    ((b p.1 p.2).val = 0 ∧ he' = true ∧
      ((hc' = hc ∧ b' = b) ∨
        (hc' = true ∧ ∃ v ∈ (b p.1 p.2).digits,
          b' = SudokuBoard.set b v p.1 p.2))) := by
  replace h : (if (b p.1 p.2).val = 0 then
      match processCell b p.1 p.2 with
      | Except.error e => Except.error e
      | Except.ok (b1, ch) => Except.ok (b1, true, hc || ch)
    else Except.ok (b, he, hc)) = Except.ok (b', he', hc') := h
  by_cases hval : (b p.1 p.2).val = 0
  · rw [if_pos hval] at h
    cases hpc : processCell b p.1 p.2 with
    | error e => rw [hpc] at h; cases h
    | ok s =>
      obtain ⟨b1, ch⟩ := s
      rw [hpc] at h
      injection h with h2
      injection h2 with h3 h4
      injection h4 with h5 h6
      rcases processCell_ok b p.1 p.2 b1 ch hpc with ⟨hch, v, hv, hb1⟩ | ⟨hch, hb1⟩
      · exact .inr ⟨hval, h5.symm, .inr ⟨by rw [← h6, hch, Bool.or_true],
          v, hv, by rw [← h3, hb1]⟩⟩
      · exact .inr ⟨hval, h5.symm, .inl ⟨by rw [← h6, hch, Bool.or_false],
          by rw [← h3, hb1]⟩⟩
  · rw [if_neg hval] at h
    injection h with h2
    injection h2 with h3 h4
    injection h4 with h5 h6
    exact .inl ⟨hval, h3.symm, h5.symm, h6.symm⟩

/-! ## Invariants of a whole pass -/

lemma ValidDigits_set (b : Board) (v : ℕ) (r c : Fin 9)
    (h : ValidDigits b) : ValidDigits (SudokuBoard.set b v r c) :=
  fun r' c' => (set_digits_subset b v r c r' c').trans (h r' c')

/-- Combined inductive invariant of the cell fold of one pass: candidate
validity is preserved, the unassigned-cell count never grows and strictly
shrinks when `has_changes` flips to true, and if `has_empty` ends false the
pass changed nothing and every visited cell was assigned. -/
lemma passList_props (l : List (Fin 9 × Fin 9)) :
    ∀ (b : Board) (he hc : Bool) (b' : Board) (he' hc' : Bool),
      List.foldlM passStep (b, he, hc) l = .ok (b', he', hc') →
      (ValidDigits b → ValidDigits b') ∧
      (ValidDigits b → zeroCount b' ≤ zeroCount b ∧
        (hc' = true → hc = true ∨ zeroCount b' < zeroCount b)) ∧
      (he' = false → he = false ∧ hc' = hc ∧ b' = b ∧
        ∀ p ∈ l, (b p.1 p.2).val ≠ 0) := by
  induction l with
  | nil =>
    intro b he hc b' he' hc' h
    rw [List.foldlM_nil] at h
    injection h with h2
    injection h2 with h3 h4
    injection h4 with h5 h6
    subst h3; subst h5; subst h6
    exact ⟨fun hv => hv, fun _ => ⟨le_refl _, fun h => .inl h⟩,
      fun hf => ⟨hf, rfl, rfl, by simp⟩⟩
  | cons q t ih =>
    intro b he hc b' he' hc' h
    rw [List.foldlM_cons] at h
    cases hs : passStep (b, he, hc) q with
    | error e => rw [hs, exceptBind_error] at h; cases h
    | ok s =>
      obtain ⟨b1, he1, hc1⟩ := s
      rw [hs, exceptBind_ok] at h
      obtain ⟨ihv, ihz, ihf⟩ := ih b1 he1 hc1 b' he' hc' h
      rcases passStep_ok b he hc q b1 he1 hc1 hs with
        ⟨hval, rfl, rfl, rfl⟩ | ⟨hval, hhe1, hrest⟩
      · refine ⟨ihv, ihz, fun hf => ?_⟩
        obtain ⟨h1, h2, h3, h4⟩ := ihf hf
        exact ⟨h1, h2, h3, fun p hp => by
          rcases List.mem_cons.mp hp with rfl | hpt
          · exact hval
          · exact h4 p hpt⟩
      · rcases hrest with ⟨hhc1, rfl⟩ | ⟨hhc1, v, hv, rfl⟩
        · subst hhc1
          refine ⟨ihv, ihz, fun hf => ?_⟩
          obtain ⟨h1, _, _, _⟩ := ihf hf
          rw [hhe1] at h1; cases h1
        · -- a rule fired at q: the board strictly lost an unassigned cell
          refine ⟨?_, ?_, fun hf => ?_⟩
          · intro hvb
            exact ihv (ValidDigits_set b v q.1 q.2 hvb)
          · intro hvb
            have hv9 : v ≠ 0 := by
              have := hvb q.1 q.2 hv
              have := Finset.mem_Icc.mp this
              omega
            have hlt : zeroCount (SudokuBoard.set b v q.1 q.2) < zeroCount b :=
              zeroCount_set_lt b v q.1 q.2 hval hv9
            have hvb1 : ValidDigits (SudokuBoard.set b v q.1 q.2) :=
              ValidDigits_set b v q.1 q.2 hvb
            obtain ⟨hle, _⟩ := ihz hvb1
            exact ⟨hle.trans hlt.le, fun _ => .inr (hle.trans_lt hlt)⟩
          · obtain ⟨h1, _, _, _⟩ := ihf hf
            rw [hhe1] at h1; cases h1

/-- If some cell of the remaining list is unassigned with an empty
candidate set, the pass aborts with an error (the early `return false`). -/
lemma passList_error_of_dead (l : List (Fin 9 × Fin 9)) :
    ∀ (b : Board) (he hc : Bool),
      (∃ p ∈ l, (b p.1 p.2).val = 0 ∧ (b p.1 p.2).digits = ∅) →
      ∃ e, List.foldlM passStep (b, he, hc) l = .error e := by
  induction l with
  | nil => intro b he hc ⟨p, hp, _⟩; cases hp
  | cons q t ih =>
    intro b he hc ⟨p, hp, hdead⟩
    rcases List.mem_cons.mp hp with rfl | hpt
    · refine ⟨b, ?_⟩
      rw [List.foldlM_cons]
      have hq : passStep (b, he, hc) p = .error b := by
        show (if (b p.1 p.2).val = 0 then
            match processCell b p.1 p.2 with
            | Except.error e => Except.error e
            | Except.ok (b1, ch) => Except.ok (b1, true, hc || ch)
          else Except.ok (b, he, hc)) = Except.error b
        rw [if_pos hdead.1, processCell_of_empty b p.1 p.2 hdead.2]
      rw [hq, exceptBind_error]
    · cases hs : passStep (b, he, hc) q with
      | error e =>
        exact ⟨e, by rw [List.foldlM_cons, hs, exceptBind_error]⟩
      | ok s =>
        obtain ⟨b1, he1, hc1⟩ := s
        have hdead1 : (b1 p.1 p.2).val = 0 ∧ (b1 p.1 p.2).digits = ∅ := by
          rcases passStep_ok b he hc q b1 he1 hc1 hs with
            ⟨_, rfl, _, _⟩ | ⟨hval, _, hrest⟩
          · exact hdead
          · rcases hrest with ⟨_, rfl⟩ | ⟨_, v, hv, rfl⟩
            · exact hdead
            · -- the fired cell q cannot be the dead cell p
              have hpq : ¬(p.1 = q.1 ∧ p.2 = q.2) := by
                rintro ⟨h1, h2⟩
                rw [← h1, ← h2] at hv
                rw [hdead.2] at hv
                cases hv
              constructor
              · rw [set_val, if_neg hpq]; exact hdead.1
              · exact Finset.subset_empty.mp
                  (hdead.2 ▸ set_digits_subset b v q.1 q.2 p.1 p.2)
        obtain ⟨e, hrec⟩ := ih b1 he1 hc1 ⟨p, hpt, hdead1⟩
        exact ⟨e, by rw [List.foldlM_cons, hs, exceptBind_ok, hrec]⟩

/-- One step of the outer loop. -/
lemma solveLoop_succ (n : ℕ) (b : Board) :
    solveLoop (n + 1) b =
      match runPass b with
      | .error b' => some (false, b')
      | .ok (b', he, hc) =>
        if he then
          if hc then solveLoop n b' else some (false, b')
        else some (true, b') := rfl

/-- Whenever the loop returns "satisfied", the returned board is full. -/
lemma solveLoop_true_isFull :
    ∀ (n : ℕ) (b b' : Board), solveLoop n b = some (true, b') →
      isFull b' = true := by
  intro n
  induction n with
  | zero => intro b b' h; cases h
  | succ m ih =>
    intro b b' h
    rw [solveLoop_succ] at h
    cases hp : runPass b with
    | error e =>
      rw [hp] at h
      injection h with h2
      injection h2 with h3 h4
      cases h3
    | ok s =>
      obtain ⟨b1, he, hc⟩ := s
      rw [hp] at h
      cases he with
      | true =>
        cases hc with
        | true => exact ih b1 b' (by simpa using h)
        | false =>
          simp only [if_true, if_false] at h
          injection h with h2
          injection h2 with h3 h4
          cases h3
      | false =>
        simp only [if_false] at h
        injection h with h2
        injection h2 with h3 h4
        subst h4
        obtain ⟨_, _, rfl, hall⟩ := (passList_props cells b false false b1 false hc hp).2.2 rfl
        simp only [isFull, List.all_eq_true, decide_eq_true_eq]
        exact hall

lemma zeroCount_add_nonzeroCount (b : Board) :
    zeroCount b + nonzeroCount b = 81 := by
  have h := List.length_eq_countP_add_countP
    (fun p : Fin 9 × Fin 9 => decide ((b p.1 p.2).val = 0)) cells
  have hlen : cells.length = 81 := rfl
  have hcong : cells.countP
      (fun a : Fin 9 × Fin 9 => ¬ decide ((b a.1 a.2).val = 0)) = nonzeroCount b := by
    apply List.countP_congr
    intro a _
    by_cases hv : (b a.1 a.2).val = 0 <;> simp [hv]
  rw [hlen] at h
  rw [← hcong]
  unfold zeroCount
  omega

lemma zeroCount_le_81 (b : Board) : zeroCount b ≤ 81 := by
  have := zeroCount_add_nonzeroCount b; omega

lemma solveLoop_sufficient :
    ∀ (n : ℕ) (b : Board), ValidDigits b → zeroCount b < n →
      solveLoop n b ≠ none := by
  intro n
  induction n with
  | zero => intro b _ h; exact absurd h (Nat.not_lt_zero _)
  | succ m ih =>
    intro b hv hlt
    rw [solveLoop_succ]
    cases hp : runPass b with
    | error e => simp
    | ok s =>
      obtain ⟨b1, he, hc⟩ := s
      cases he with
      | false => simp
      | true =>
        cases hc with
        | false => simp
        | true =>
          simp only [if_true]
          obtain ⟨hval, hzc, _⟩ := passList_props cells b false false b1 true true hp
          rcases (hzc hv).2 rfl with h | hstrict
          · cases h
          · exact ih b1 (hval hv) (by omega)

/-- C1: the three return conditions of `solve`.  A pass that finds no
unassigned cell makes `solve` return satisfied (and the returned board is
indeed full); a full pass with unassigned cells but no new assignment
returns unsatisfied; a pass hitting an unassigned cell with empty
candidates aborts, returning unsatisfied immediately; and `solve` only
ever returns satisfied with a fully assigned final board. -/
theorem solve_return_conditions (b : Board) :
    (∀ b' hc, runPass b = .ok (b', false, hc) →
      solve b = some (true, b') ∧ isFull b' = true) ∧
    (∀ b', runPass b = .ok (b', true, false) → solve b = some (false, b')) ∧
    (∀ e, runPass b = .error e → solve b = some (false, e)) ∧
    (∀ b', solve b = some (true, b') → isFull b' = true) := by
  have h82 : solve b = solveLoop (81 + 1) b := rfl
  refine ⟨?_, ?_, ?_, ?_⟩
  · intro b' hc h
    constructor
    · rw [h82, solveLoop_succ, h]; rfl
    · obtain ⟨_, _, rfl, hall⟩ :=
        (passList_props cells b false false b' false hc h).2.2 rfl
      simp only [isFull, List.all_eq_true, decide_eq_true_eq]
      exact hall
  · intro b' h
    rw [h82, solveLoop_succ, h]; rfl
  · intro e h
    rw [h82, solveLoop_succ, h]
  · intro b' h
    exact solveLoop_true_isFull 82 b b' h

/-- C9: termination of `solve`.  Any pass that reports a change strictly
increases the number of assigned cells (which can never exceed 81), so the
loop runs out of unassigned cells and `solve` (fuel 82) always returns. -/
theorem solve_terminates (b : Board) (h : ValidDigits b) :
    (∀ b' he hc, runPass b = .ok (b', he, hc) → hc = true →
      nonzeroCount b < nonzeroCount b' ∧ nonzeroCount b' ≤ 81) ∧
    solve b ≠ none := by
  constructor
  · intro b' he hc hp hc'
    subst hc'
    obtain ⟨_, hzc, _⟩ := passList_props cells b false false b' he true hp
    rcases (hzc h).2 rfl with hcon | hstrict
    · cases hcon
    · have h1 := zeroCount_add_nonzeroCount b
      have h2 := zeroCount_add_nonzeroCount b'
      omega
  · exact solveLoop_sufficient 82 b h
      (Nat.lt_succ_of_le (zeroCount_le_81 b))

/-- Witness for C9 at a concrete input: `solve` terminates on the empty
board. -/
theorem solve_terminates_witness : solve SudokuBoard.empty ≠ none :=
  (solve_terminates SudokuBoard.empty (by decide)).2

/-- C5: `exhausted` is true exactly when some unassigned cell has an empty
candidate set, and on any such board `solve` returns unsatisfied (the pass
necessarily aborts at the dead cell, which no rule can ever assign). -/
theorem exhausted_detects_dead (b : Board) :
    (exhausted b = true ↔
      ∃ r c : Fin 9, (b r c).val = 0 ∧ (b r c).digits = ∅) ∧
    (exhausted b = true → ∃ b', solve b = some (false, b')) := by
  refine ⟨exhausted_eq_true_iff b, fun hex => ?_⟩
  obtain ⟨r, c, hd⟩ := (exhausted_eq_true_iff b).mp hex
  obtain ⟨e, he⟩ := passList_error_of_dead cells b false false ⟨(r, c), mem_cells _, hd⟩
  refine ⟨e, ?_⟩
  have h82 : solve b = solveLoop (81 + 1) b := rfl
  rw [h82, solveLoop_succ, show runPass b = .error e from he]

/-- A concrete board whose cell `(0,0)` is unassigned with no candidates. -/
def deadBoard : Board := fun r c =>
  if r = 0 ∧ c = 0 then ⟨0, ∅⟩ else ⟨0, Finset.Icc 1 9⟩

/-- Witness for C5 at a concrete input. -/
theorem exhausted_detects_dead_witness :
    ∃ b', solve deadBoard = some (false, b') :=
  (exhausted_detects_dead deadBoard).2 (by decide)

/-! ## C1 witness -/

/-- The solved grid of the repository's `test_sudoku_1`. -/
def sudoku1Solution : List (List ℕ) :=
  [[7,4,8,6,1,3,9,2,5],
   [3,5,1,9,2,8,7,4,6],
   [9,2,6,7,4,5,8,1,3],
   [2,8,4,3,5,9,6,7,1],
   [5,9,7,1,8,6,4,3,2],
   [6,1,3,4,7,2,5,9,8],
   [4,3,5,2,6,7,1,8,9],
   [1,6,2,8,9,4,3,5,7],
   [8,7,9,5,3,1,2,6,4]]

/-- That grid as a fully assigned board. -/
def solvedBoard : Board := fun r c => ⟨mkGrid sudoku1Solution r c, ∅⟩

/-- Witness for C1 at a concrete input: a pass over a full board finds no
unassigned cell, and `solve` returns satisfied with that very board. -/
theorem solve_return_conditions_witness :
    solve solvedBoard = some (true, solvedBoard) ∧ isFull solvedBoard = true :=
  (solve_return_conditions solvedBoard).1 solvedBoard false rfl

/-! ## C4: `solve` preserves the no-duplicate invariant -/

/-- No two distinct cells of a common row, column or 3×3 box hold an equal
nonzero value. -/
def Consistent (b : Board) : Prop :=
  ∀ r c r' c' : Fin 9, (r, c) ≠ (r', c') → inUnit r c r' c' →
    (b r c).val ≠ 0 → (b r c).val ≠ (b r' c').val

instance (b : Board) : Decidable (Consistent b) := by
  unfold Consistent; infer_instance

/-- Every unassigned cell's candidate set excludes the values of its
assigned peers. -/
def CandsOk (b : Board) : Prop :=
  ∀ r c : Fin 9, (b r c).val = 0 → ∀ r' c' : Fin 9, (r, c) ≠ (r', c') →
    inUnit r c r' c' → (b r' c').val ≠ 0 → (b r' c').val ∉ (b r c).digits

instance (b : Board) : Decidable (CandsOk b) := by
  unfold CandsOk; infer_instance

lemma inUnit_symm {r c r' c' : Fin 9} (h : inUnit r c r' c') :
    inUnit r' c' r c := by
  rcases h with h | h | ⟨h1, h2⟩
  · exact .inl h.symm
  · exact .inr (.inl h.symm)
  · exact .inr (.inr ⟨h1.symm, h2.symm⟩)

/-- Writing 0 into an already unassigned cell is a no-op. -/
lemma set_zero_self_eq (b : Board) (r c : Fin 9) (h0 : (b r c).val = 0) :
    SudokuBoard.set b 0 r c = b := by
  funext r' c'
  unfold SudokuBoard.set
  rw [if_pos rfl]
  split_ifs with h2
  · obtain ⟨rfl, rfl⟩ := h2
    cases hb : b r' c' with
    | mk v d => rw [hb] at h0; simp at h0; subst h0; rfl
  · rfl

/-- A nonzero `set` erases the written value from the candidate set of any
other cell of the unit. -/
lemma set_digits_peer (b : Board) (v : ℕ) (r c r' c' : Fin 9)
    (hv : v ≠ 0) (hne : ¬(r' = r ∧ c' = c)) (hu : inUnit r c r' c') :
    (SudokuBoard.set b v r c r' c').digits = (b r' c').digits.erase v := by
  unfold SudokuBoard.set
  rw [if_neg hv, if_neg hne, if_pos hu]

/-- Core preservation lemma: assigning a candidate digit of an unassigned
cell preserves both invariants. -/
lemma set_preserves_inv (b : Board) (v : ℕ) (r c : Fin 9)
    (h0 : (b r c).val = 0) (hv : v ∈ (b r c).digits)
    (hC : Consistent b) (hK : CandsOk b) :
    Consistent (SudokuBoard.set b v r c) ∧ CandsOk (SudokuBoard.set b v r c) := by
  by_cases hvz : v = 0
  · subst hvz; rw [set_zero_self_eq b r c h0]; exact ⟨hC, hK⟩
  have hval : ∀ x y : Fin 9, (SudokuBoard.set b v r c x y).val =
      if x = r ∧ y = c then v else (b x y).val := fun x y => set_val b v r c x y
  constructor
  · intro x y x' y' hne hu hnz
    by_cases hxy : x = r ∧ y = c
    · obtain ⟨rfl, rfl⟩ := hxy
      rw [hval, if_pos ⟨rfl, rfl⟩]
      have hxy' : ¬(x' = x ∧ y' = y) := by
        intro ⟨h1, h2⟩; exact hne (by rw [h1, h2])
      rw [hval, if_neg hxy']
      by_cases hz' : (b x' y').val = 0
      · rw [hz']; exact hvz
      · intro heq
        exact hK x y h0 x' y' hne hu hz' (heq ▸ hv)
    · rw [hval, if_neg hxy]
      by_cases hxy' : x' = r ∧ y' = c
      · obtain ⟨rfl, rfl⟩ := hxy'
        rw [hval, if_pos ⟨rfl, rfl⟩]
        rw [hval, if_neg hxy] at hnz
        intro heq
        refine hK x' y' h0 x y ?_ (inUnit_symm hu) hnz (heq ▸ hv)
        intro hh
        injection hh with h1 h2
        exact hne (by rw [h1, h2])
      · rw [hval, if_neg hxy']
        rw [hval, if_neg hxy] at hnz
        exact hC x y x' y' hne hu hnz
  · intro x y hx0 x' y' hne hu hnz'
    by_cases hxy : x = r ∧ y = c
    · obtain ⟨rfl, rfl⟩ := hxy
      rw [hval, if_pos ⟨rfl, rfl⟩] at hx0
      exact absurd hx0 hvz
    · rw [hval, if_neg hxy] at hx0
      by_cases hxy' : x' = r ∧ y' = c
      · obtain ⟨rfl, rfl⟩ := hxy'
        rw [hval, if_pos ⟨rfl, rfl⟩]
        rw [set_digits_peer b v x' y' x y hvz hxy (inUnit_symm hu)]
        exact Finset.not_mem_erase v _
      · rw [hval, if_neg hxy']
        rw [hval, if_neg hxy'] at hnz'
        intro hmem
        exact hK x y hx0 x' y' hne hu hnz'
          (set_digits_subset b v r c x y hmem)

lemma passStep_error (b : Board) (he hc : Bool) (q : Fin 9 × Fin 9) (e : Board)
    (h : passStep (b, he, hc) q = .error e) : e = b := by
  replace h : (if (b q.1 q.2).val = 0 then
      match processCell b q.1 q.2 with
      | Except.error e => Except.error e
      | Except.ok (b1, ch) => Except.ok (b1, true, hc || ch)
    else Except.ok (b, he, hc)) = Except.error e := h
  by_cases hval : (b q.1 q.2).val = 0
  · rw [if_pos hval] at h
    cases hpc : processCell b q.1 q.2 with
    | error e0 =>
      rw [hpc] at h
      injection h with h2
      exact h2 ▸ (processCell_error b q.1 q.2 e0 hpc).1
    | ok s => obtain ⟨b1, ch⟩ := s; rw [hpc] at h; cases h
  · rw [if_neg hval] at h; cases h

/-- The invariants hold for every board a pass can return, on either exit
path. -/
lemma passList_inv (l : List (Fin 9 × Fin 9)) :
    ∀ (b : Board) (he hc : Bool), Consistent b → CandsOk b →
      (∀ b' he' hc', List.foldlM passStep (b, he, hc) l = .ok (b', he', hc') →
        Consistent b' ∧ CandsOk b') ∧
      (∀ e, List.foldlM passStep (b, he, hc) l = .error e →
        Consistent e ∧ CandsOk e) := by
  induction l with
  | nil =>
    intro b he hc hC hK
    constructor
    · intro b' he' hc' h
      rw [List.foldlM_nil] at h
      injection h with h2
      injection h2 with h3 h4
      subst h3
      exact ⟨hC, hK⟩
    · intro e h
      rw [List.foldlM_nil] at h
      cases h
  | cons q t ih =>
    intro b he hc hC hK
    have step : ∀ b1 he1 hc1, passStep (b, he, hc) q = .ok (b1, he1, hc1) →
        Consistent b1 ∧ CandsOk b1 := by
      intro b1 he1 hc1 hs
      rcases passStep_ok b he hc q b1 he1 hc1 hs with
        ⟨_, rfl, _, _⟩ | ⟨hval, _, hrest⟩
      · exact ⟨hC, hK⟩
      · rcases hrest with ⟨_, rfl⟩ | ⟨_, v, hv, rfl⟩
        · exact ⟨hC, hK⟩
        · exact set_preserves_inv b v q.1 q.2 hval hv hC hK
    constructor
    · intro b' he' hc' h
      rw [List.foldlM_cons] at h
      cases hs : passStep (b, he, hc) q with
      | error e0 => rw [hs, exceptBind_error] at h; cases h
      | ok s =>
        obtain ⟨b1, he1, hc1⟩ := s
        rw [hs, exceptBind_ok] at h
        obtain ⟨hC1, hK1⟩ := step b1 he1 hc1 hs
        exact (ih b1 he1 hc1 hC1 hK1).1 b' he' hc' h
    · intro e h
      rw [List.foldlM_cons] at h
      cases hs : passStep (b, he, hc) q with
      | error e0 =>
        rw [hs, exceptBind_error] at h
        injection h with h2
        rw [← h2, passStep_error b he hc q e0 hs]
        exact ⟨hC, hK⟩
      | ok s =>
        obtain ⟨b1, he1, hc1⟩ := s
        rw [hs, exceptBind_ok] at h
        obtain ⟨hC1, hK1⟩ := step b1 he1 hc1 hs
        exact (ih b1 he1 hc1 hC1 hK1).2 e h

lemma solveLoop_inv :
    ∀ (n : ℕ) (b : Board) (res : Bool) (b' : Board),
      solveLoop n b = some (res, b') → Consistent b → CandsOk b →
      Consistent b' ∧ CandsOk b' := by
  intro n
  induction n with
  | zero => intro b res b' h; cases h
  | succ m ih =>
    intro b res b' h hC hK
    rw [solveLoop_succ] at h
    cases hp : runPass b with
    | error e =>
      rw [hp] at h
      injection h with h2
      injection h2 with h3 h4
      subst h4
      exact (passList_inv cells b false false hC hK).2 e hp
    | ok s =>
      obtain ⟨b1, he, hc⟩ := s
      rw [hp] at h
      have hb1 := (passList_inv cells b false false hC hK).1 b1 he hc hp
      cases he with
      | true =>
        cases hc with
        | true => exact ih b1 res b' (by simpa using h) hb1.1 hb1.2
        | false =>
          simp only [if_true, if_false] at h
          injection h with h2
          injection h2 with h3 h4
          subst h4
          exact hb1
      | false =>
        simp only [if_false] at h
        injection h with h2
        injection h2 with h3 h4
        subst h4
        exact hb1

/-- C4: starting from a board satisfying the no-duplicate invariant whose
candidate sets exclude the values of assigned peers, every board `solve`
can return still satisfies the invariant (each assignment it performs
draws from the cell's current candidate set and preserves both
properties). -/
theorem solve_preserves_consistency (b : Board)
    (hC : Consistent b) (hK : CandsOk b) :
    ∀ (res : Bool) (b' : Board), solve b = some (res, b') →
      Consistent b' ∧ CandsOk b' :=
  fun res b' h => solveLoop_inv 82 b res b' h hC hK

/-- Witness for C4 at a concrete input. -/
theorem solve_preserves_consistency_witness :
    Consistent deadBoard ∧ CandsOk deadBoard :=
  solve_preserves_consistency deadBoard (by decide) (by decide) false deadBoard rfl

/-! ## C2: the deduction rules fire in their documented order -/

/-- Every assigned cell has an empty candidate set — the `Cell` invariant
of the data model, true of every board the program constructs. -/
def FixedEmpty (b : Board) : Prop :=
  ∀ r c : Fin 9, (b r c).val ≠ 0 → (b r c).digits = ∅

instance (b : Board) : Decidable (FixedEmpty b) := by
  unfold FixedEmpty; infer_instance

/-- Spec-side naked single: the candidate set has exactly one member. -/
def nakedSingleSpec (b : Board) (r c : Fin 9) : Option ℕ :=
  if (b r c).digits.card = 1 then some ((ascList (b r c).digits).headI)
  else none

/-- Spec-side hidden single in the row: a candidate digit of `(r, c)` that
appears as a candidate in none of the other 8 cells of the row (its count
stays at the cell's own contribution of 1). -/
def hiddenRowSpec (b : Board) (r c : Fin 9) : Option ℕ :=
  (ascList (b r c).digits).find? fun d =>
    decide (∀ i : Fin 9, i ≠ c → d ∉ (b r i).digits)

/-- Spec-side hidden single in the column. -/
def hiddenColSpec (b : Board) (r c : Fin 9) : Option ℕ :=
  (ascList (b r c).digits).find? fun d =>
    decide (∀ i : Fin 9, i ≠ r → d ∉ (b i c).digits)

/-- Spec-side hidden single in the 3×3 box: the digit occurs in no *other*
cell of the box (the spec counts all other cells, with no assignment
filter). -/
def hiddenBoxSpec (b : Board) (r c : Fin 9) : Option ℕ :=
  (ascList (b r c).digits).find? fun d =>
    decide (∀ p ∈ boxCells r c, p ≠ (r, c) → d ∉ (b p.1 p.2).digits)

/-- Spec-side cell processing: fail on an empty candidate set, otherwise
try the four rules in order — naked single, hidden single in row, in
column, in box — and assign the first digit found; later rules run only
when every earlier rule found nothing. -/
def processCellSpec (b : Board) (r c : Fin 9) : Except Board (Board × Bool) :=
  if (b r c).digits = ∅ then .error b
  else
    match nakedSingleSpec b r c <|> hiddenRowSpec b r c <|>
        hiddenColSpec b r c <|> hiddenBoxSpec b r c with
    | some d => .ok (SudokuBoard.set b d r c, true)
    | none => .ok (b, false)

lemma find?_congr {α : Type} (l : List α) (p q : α → Bool)
    (h : ∀ a ∈ l, p a = q a) : l.find? p = l.find? q := by
  induction l with
  | nil => rfl
  | cons a t ih =>
    by_cases hpa : p a = true
    · rw [List.find?_cons_of_pos _ hpa,
        List.find?_cons_of_pos _ ((h a (List.mem_cons_self _ _)) ▸ hpa)]
    · rw [List.find?_cons_of_neg _ hpa,
        List.find?_cons_of_neg _ ((h a (List.mem_cons_self _ _)) ▸ hpa)]
      exact ih fun a ha => h a (List.mem_cons_of_mem _ ha)

lemma forcedRowDigit_eq_spec (b : Board) (r c : Fin 9) :
    forcedRowDigit b r c = hiddenRowSpec b r c := by
  apply find?_congr
  intro d _
  have : rowCount b r c d = 1 ↔ ∀ i : Fin 9, i ≠ c → d ∉ (b r i).digits := by
    unfold rowCount
    rw [show ∀ n : ℕ, 1 + n = 1 ↔ n = 0 from fun n => by omega,
      List.countP_eq_zero]
    simp
  rw [Bool.eq_iff_iff]
  simp only [beq_iff_eq, decide_eq_true_eq]
  exact this

lemma forcedColDigit_eq_spec (b : Board) (r c : Fin 9) :
    forcedColDigit b r c = hiddenColSpec b r c := by
  apply find?_congr
  intro d _
  have : colCount b r c d = 1 ↔ ∀ i : Fin 9, i ≠ r → d ∉ (b i c).digits := by
    unfold colCount
    rw [show ∀ n : ℕ, 1 + n = 1 ↔ n = 0 from fun n => by omega,
      List.countP_eq_zero]
    simp
  rw [Bool.eq_iff_iff]
  simp only [beq_iff_eq, decide_eq_true_eq]
  exact this

/-- Under the `Cell` invariant, the assignment filter in the box count is
irrelevant: assigned cells have no candidates to count anyway. -/
lemma forcedBoxDigit_eq_spec (b : Board) (r c : Fin 9) (hfe : FixedEmpty b) :
    forcedBoxDigit b r c = hiddenBoxSpec b r c := by
  apply find?_congr
  intro d _
  have : boxCount b r c d = 1 ↔
      ∀ p ∈ boxCells r c, p ≠ (r, c) → d ∉ (b p.1 p.2).digits := by
    unfold boxCount
    rw [show ∀ n : ℕ, 1 + n = 1 ↔ n = 0 from fun n => by omega,
      List.countP_eq_zero]
    constructor
    · intro hall p hp hne hmem
      by_cases hz : (b p.1 p.2).val = 0
      · have h3 := hall p hp
        simp only [decide_eq_true_eq] at h3
        exact h3 ⟨hne, hz, hmem⟩
      · rw [hfe p.1 p.2 hz] at hmem
        cases hmem
    · intro hall p hp
      simp only [decide_eq_true_eq, not_and]
      intro hne _ hmem
      exact hall p hp hne hmem
  rw [Bool.eq_iff_iff]
  simp only [beq_iff_eq, decide_eq_true_eq]
  exact this

/-- C2: on every board satisfying the `Cell` invariant (assigned cells
have empty candidate sets), the per-cell processing of `solve` is exactly
the spec's rule chain: naked single, then hidden single in row, column and
3×3 box, the first digit found being assigned via `set`, a later rule
running only when all earlier rules found nothing. -/
theorem process_rules_priority (b : Board) (r c : Fin 9)
    (hfe : FixedEmpty b) : processCell b r c = processCellSpec b r c := by
  unfold processCell processCellSpec nakedSingleSpec
  by_cases hd : (b r c).digits = ∅
  · rw [if_pos hd, if_pos hd]
  · rw [if_neg hd, if_neg hd]
    by_cases hcard : (b r c).digits.card = 1
    · rw [if_pos hcard, if_pos hcard]; rfl
    · rw [if_neg hcard, if_neg hcard]
      rw [forcedRowDigit_eq_spec, forcedColDigit_eq_spec,
        forcedBoxDigit_eq_spec b r c hfe]
      cases hiddenRowSpec b r c with
      | some d => rfl
      | none =>
        cases hiddenColSpec b r c with
        | some d => rfl
        | none => cases hiddenBoxSpec b r c <;> rfl

/-- A concrete board on which the hidden-single-in-row rule (and not the
naked-single rule) fires at `(0,0)`. -/
def hiddenRowBoard : Board := fun r c =>
  if r = 0 ∧ c = 0 then ⟨0, {1, 2}⟩ else ⟨0, {2, 3}⟩

/-- Witness for C2 at a concrete input. -/
theorem process_rules_priority_witness :
    FixedEmpty hiddenRowBoard ∧
      processCell hiddenRowBoard 0 0 = processCellSpec hiddenRowBoard 0 0 :=
  ⟨by decide, process_rules_priority hiddenRowBoard 0 0 (by decide)⟩

/-! ## C6: branch selection in `resolve` -/

/-- Row-major position of a cell (`row * 9 + col`). -/
def posOf (p : Fin 9 × Fin 9) : ℕ := (p.1 : ℕ) * 9 + (p.2 : ℕ)

/-- Position of the last guess recorded in the path `q`
(`q.last().cloned().unwrap_or((0,0,0))`, then `free_row * 9 + free_col`). -/
def lastGuessPos (q : List (ℕ × ℕ × ℕ)) : ℕ :=
  match q.getLast? with
  | some (r, c, _) => r * 9 + c
  | none => 0

/-- The branching cell `resolve` picks: scanning the cells in row-major
order, skip positions before the last guess (`cur_pos < free_pos` →
`continue`) and take the first unassigned cell.  (The source starts its
row loop at `free_row`; every skipped row holds only positions below
`free_pos`, so the scan is exactly this search.) -/
def findFree (b : Board) (q : List (ℕ × ℕ × ℕ)) : Option (Fin 9 × Fin 9) :=
  cells.find? fun p =>
    decide (lastGuessPos q ≤ posOf p) && decide ((b p.1 p.2).val = 0)

/-- An admissible iteration order of a `HashSet`: a duplicate-free listing
of exactly its elements.  Rust's `HashSet` promises nothing more. -/
def AdmissibleOrder (order : Finset ℕ → List ℕ) : Prop :=
  ∀ s : Finset ℕ, (order s).Nodup ∧ ∀ d, d ∈ order s ↔ d ∈ s

/-- The branch fan-out of `resolve` at a stuck board: the chosen free cell
and the candidate digits tried there (`for digit in pos.digits.clone()`),
in the hash-set iteration order `order`. -/
def branches (order : Finset ℕ → List ℕ) (b : Board)
    (q : List (ℕ × ℕ × ℕ)) : Option ((Fin 9 × Fin 9) × List ℕ) :=
  (findFree b q).map fun p => (p, order (b p.1 p.2).digits)

/-- Ascending enumeration — what the claim asserts the code uses. -/
def ascOrder : Finset ℕ → List ℕ := fun s => ascList s

/-- Reversed enumeration — an equally admissible hash-set order. -/
def descOrder : Finset ℕ → List ℕ := fun s => (ascList s).reverse

lemma ascOrder_admissible : AdmissibleOrder ascOrder :=
  fun s => ⟨ascList_nodup s, fun d => mem_ascList s d⟩

lemma descOrder_admissible : AdmissibleOrder descOrder :=
  fun s => ⟨List.nodup_reverse.mpr (ascList_nodup s),
    fun d => by simp [descOrder, List.mem_reverse, mem_ascList]⟩

/-- Counterexample to C6 as stated: the candidate digits of the branching
cell are iterated in the unspecified order of the Rust `HashSet`, which
need not be ascending — under the (admissible) reversed iteration order,
the digits of the branching cell of the empty board are tried in
descending order. -/
theorem resolve_guess_order_cex :
    AdmissibleOrder descOrder ∧
    branches descOrder SudokuBoard.empty [] =
      some ((0, 0), [9, 8, 7, 6, 5, 4, 3, 2, 1]) ∧
    ¬ [9, 8, 7, 6, 5, 4, 3, 2, 1].Sorted (· ≤ ·) :=
  ⟨descOrder_admissible, by decide, by decide⟩

/-- The cells list is strictly increasing in row-major position. -/
lemma cells_pairwise : cells.Pairwise fun p q => posOf p < posOf q := by
  decide

lemma find?_first_of_pairwise {α : Type} {R : α → α → Prop} :
    ∀ (l : List α), l.Pairwise R → ∀ (p : α → Bool) (a : α),
      l.find? p = some a → ∀ x ∈ l, p x = true → x = a ∨ R a x := by
  intro l
  induction l with
  | nil => intro _ p a h; cases h
  | cons y t ih =>
    intro hpw p a h x hx hpx
    rcases List.pairwise_cons.mp hpw with ⟨hy, ht⟩
    by_cases hpy : p y = true
    · rw [List.find?_cons_of_pos _ hpy] at h
      injection h with h2
      subst h2
      rcases List.mem_cons.mp hx with rfl | hxt
      · exact .inl rfl
      · exact .inr (hy x hxt)
    · rw [List.find?_cons_of_neg _ hpy] at h
      rcases List.mem_cons.mp hx with rfl | hxt
      · exact absurd hpx hpy
      · exact ih ht p a h x hxt hpx

/-- C6 amended: for every admissible hash-set iteration order, the
branching cell is deterministic — the first unassigned cell in row-major
order at or after the position of the last recorded guess (position 0 for
an empty path) — and the digits tried there are exactly the candidate set
of that cell, each once, but only in the set's unspecified iteration
order. -/
theorem resolve_branch_deterministic (order : Finset ℕ → List ℕ)
    (hord : AdmissibleOrder order) (b : Board) (q : List (ℕ × ℕ × ℕ)) :
    (∀ p l, branches order b q = some (p, l) →
      (b p.1 p.2).val = 0 ∧ lastGuessPos q ≤ posOf p ∧
      (∀ p' : Fin 9 × Fin 9, lastGuessPos q ≤ posOf p' → posOf p' < posOf p →
        (b p'.1 p'.2).val ≠ 0) ∧
      l.Nodup ∧ (∀ d, d ∈ l ↔ d ∈ (b p.1 p.2).digits)) ∧
    (branches order b q = none →
      ∀ p' : Fin 9 × Fin 9, lastGuessPos q ≤ posOf p' →
        (b p'.1 p'.2).val ≠ 0) := by
  constructor
  · intro p l h
    unfold branches at h
    cases hf : findFree b q with
    | none => rw [hf] at h; cases h
    | some p0 =>
      rw [hf] at h
      injection h with h2
      injection h2 with h3 h4
      subst h3
      have hpred := List.find?_some hf
      simp only [Bool.and_eq_true, decide_eq_true_eq] at hpred
      refine ⟨hpred.2, hpred.1, ?_, ?_, ?_⟩
      · intro p' hge hlt hz
        have hmem := mem_cells p'
        have := find?_first_of_pairwise cells cells_pairwise _ p0 hf p' hmem
          (by simp only [Bool.and_eq_true, decide_eq_true_eq]; exact ⟨hge, hz⟩)
        rcases this with rfl | hR
        · exact absurd hlt (lt_irrefl _)
        · exact absurd (hR.trans hlt) (lt_irrefl _)
      · exact h4 ▸ (hord (b p0.1 p0.2).digits).1
      · intro d
        rw [← h4]
        exact (hord (b p0.1 p0.2).digits).2 d
  · intro h p' hge
    unfold branches at h
    cases hf : findFree b q with
    | some p0 => rw [hf] at h; cases h
    | none =>
      intro hz
      have := List.find?_eq_none.mp hf p' (mem_cells p')
      simp only [Bool.and_eq_true, decide_eq_true_eq] at this
      exact this ⟨hge, hz⟩

/-- Witness for the amended C6 at a concrete input: with the ascending
iteration order on the empty board and empty path, the branch cell is
`(0,0)` and the digits tried are exactly `{1,…,9}`, duplicate-free. -/
theorem resolve_branch_deterministic_witness :
    (SudokuBoard.empty 0 0).val = 0 ∧
      [1, 2, 3, 4, 5, 6, 7, 8, 9].Nodup := by
  obtain ⟨h1, _, _, h4, _⟩ :=
    (resolve_branch_deterministic ascOrder ascOrder_admissible
      SudokuBoard.empty []).1 (0, 0) [1, 2, 3, 4, 5, 6, 7, 8, 9] (by decide)
  exact ⟨h1, h4⟩

/-! ## C8: grouping of input digits in `main` -/

/-- `c.to_digit(10)` for an ASCII digit. -/
def charDigit (ch : Char) : ℕ := ch.toNat - 48

/-- The ASCII digits of one input line
(`line.chars().filter(|c| c.is_ascii_digit())`). -/
def digitsOfLine (l : List Char) : List ℕ :=
  (l.filter Char.isDigit).map charDigit

/-- The digit loop of `main` over one line: append each digit to the
current group; when the group reaches 81, emit it, reset the counter and
`break` — the remaining digits `ds` of this line are discarded. -/
def procDigits : List ℕ → List ℕ × List (List ℕ) → List ℕ × List (List ℕ)
  | [], st => st
  | d :: ds, (cur, done) =>
    let cur' := cur ++ [d]
    if cur'.length = 81 then ([], done ++ [cur'])
    else procDigits ds (cur', done)

/-- The line loop of `main`: the partial group persists across lines. -/
def procStream (lines : List (List Char)) : List ℕ × List (List ℕ) :=
  lines.foldl (fun st l => procDigits (digitsOfLine l) st) ([], [])

/-- The boards handed to `resolve`, in order: one per completed group of
81 digits. -/
def boardsTriggered (lines : List (List Char)) : List (List ℕ) :=
  (procStream lines).2

/-- Every ASCII digit of the stream, in order. -/
def allDigits (lines : List (List Char)) : List ℕ :=
  lines.flatMap digitsOfLine

/-- Fuel-indexed grouping into complete chunks of 81. -/
def chunks81Fuel : ℕ → List ℕ → List (List ℕ)
  | 0, _ => []
  | n + 1, l =>
    if 81 ≤ l.length then l.take 81 :: chunks81Fuel n (l.drop 81) else []

/-- The spec's grouping: the digit stream cut into consecutive complete
groups of 81 (a trailing partial group triggers nothing). -/
def chunks81 (l : List ℕ) : List (List ℕ) := chunks81Fuel l.length l

lemma chunks81Fuel_stable :
    ∀ (m : ℕ) (l : List ℕ) (n : ℕ), l.length ≤ m → l.length ≤ n →
      chunks81Fuel m l = chunks81Fuel n l := by
  intro m
  induction m with
  | zero =>
    intro l n hm _
    have : l.length = 0 := Nat.le_zero.mp hm
    have hl : l = [] := List.length_eq_zero.mp this
    subst hl
    cases n with
    | zero => rfl
    | succ k => simp [chunks81Fuel]
  | succ m ih =>
    intro l n hm hn
    cases n with
    | zero =>
      have : l.length = 0 := Nat.le_zero.mp hn
      have hl : l = [] := List.length_eq_zero.mp this
      subst hl
      simp [chunks81Fuel]
    | succ k =>
      simp only [chunks81Fuel]
      by_cases h81 : 81 ≤ l.length
      · rw [if_pos h81, if_pos h81]
        have hd : (l.drop 81).length ≤ m := by
          rw [List.length_drop]; omega
        have hd' : (l.drop 81).length ≤ k := by
          rw [List.length_drop]; omega
        rw [ih (l.drop 81) k hd hd']
      · rw [if_neg h81, if_neg h81]

lemma chunks81_small (l : List ℕ) (h : l.length < 81) : chunks81 l = [] := by
  unfold chunks81
  cases hn : l.length with
  | zero => rfl
  | succ k =>
    simp only [chunks81Fuel, hn]
    rw [if_neg (by omega)]

lemma chunks81_append (l rest : List ℕ) (hl : l.length = 81) :
    chunks81 (l ++ rest) = l :: chunks81 rest := by
  unfold chunks81
  have hlen : (l ++ rest).length = (80 + rest.length) + 1 := by
    rw [List.length_append, hl]; omega
  rw [hlen]
  simp only [chunks81Fuel]
  rw [if_pos (by rw [List.length_append, hl]; omega)]
  congr 1
  · rw [← hl, List.take_left]
  · rw [show (81 : ℕ) = l.length from hl.symm, List.drop_left]
    exact chunks81Fuel_stable _ rest _ (by omega) (le_refl _)

lemma procDigits_no_completion :
    ∀ (ds cur : List ℕ) (done : List (List ℕ)),
      cur.length + ds.length < 81 →
      procDigits ds (cur, done) = (cur ++ ds, done) := by
  intro ds
  induction ds with
  | nil => intro cur done _; simp [procDigits]
  | cons d ds' ih =>
    intro cur done h
    simp only [procDigits, List.length_cons] at h ⊢
    rw [if_neg (by simp; omega)]
    rw [ih (cur ++ [d]) done (by simp; omega)]
    simp

lemma procDigits_completion :
    ∀ (ds cur : List ℕ) (done : List (List ℕ)),
      cur.length < 81 → cur.length + ds.length = 81 →
      procDigits ds (cur, done) = ([], done ++ [cur ++ ds]) := by
  intro ds
  induction ds with
  | nil => intro cur done hc h; simp at h; omega
  | cons d ds' ih =>
    intro cur done hc h
    simp only [procDigits]
    by_cases hfull : (cur ++ [d]).length = 81
    · rw [if_pos hfull]
      have : ds' = [] := by
        simp at hfull h
        exact List.length_eq_zero.mp (by omega)
      subst this
      simp
    · rw [if_neg hfull]
      rw [ih (cur ++ [d]) done (by simp at hfull h ⊢; omega)
        (by simp at h ⊢; omega)]
      simp

/-- The line loop of `main` on streams where every group of 81 completes
exactly at the end of a line. -/
def alignedLoop : ℕ → List (List Char) → Bool
  | _, [] => true
  | cnt, l :: ls =>
    let d := (digitsOfLine l).length
    if cnt + d < 81 then alignedLoop (cnt + d) ls
    else if cnt + d = 81 then alignedLoop 0 ls
    else false

lemma procStream_aligned :
    ∀ (lines : List (List Char)) (cur : List ℕ) (done : List (List ℕ)),
      cur.length < 81 → alignedLoop cur.length lines = true →
      (lines.foldl (fun st l => procDigits (digitsOfLine l) st) (cur, done)).2 =
        done ++ chunks81 (cur ++ lines.flatMap digitsOfLine) := by
  intro lines
  induction lines with
  | nil =>
    intro cur done hlt _
    simp [chunks81_small cur hlt]
  | cons l ls ih =>
    intro cur done hlt hal
    rw [List.foldl_cons]
    simp only [alignedLoop] at hal
    by_cases h1 : cur.length + (digitsOfLine l).length < 81
    · rw [if_pos h1] at hal
      rw [procDigits_no_completion (digitsOfLine l) cur done h1]
      rw [ih (cur ++ digitsOfLine l) done (by simp; omega)
        (by rw [List.length_append]; exact hal)]
      simp [List.flatMap_cons, List.append_assoc]
    · rw [if_neg h1] at hal
      by_cases h2 : cur.length + (digitsOfLine l).length = 81
      · rw [if_pos h2] at hal
        rw [procDigits_completion (digitsOfLine l) cur done hlt h2]
        rw [ih [] (done ++ [cur ++ digitsOfLine l]) (by simp) (by simpa using hal)]
        rw [List.flatMap_cons, ← List.append_assoc,
          chunks81_append (cur ++ digitsOfLine l) _ (by simp; omega)]
        simp
      · rw [if_neg h2] at hal
        cases hal

set_option maxRecDepth 40000 in
/-- Counterexample to C8 as stated: a single line holding 162 digits.
After the first 81 digits complete a group, `main`'s `break` abandons the
rest of the line, so only one board is solved, while grouping *all*
consumed digits of the stream 81 at a time would give two groups — the
81 digits after the break are dropped, not carried into the next group. -/
theorem main_groups_digits_cex :
    boardsTriggered [List.replicate 162 '1'] = [List.replicate 81 1] ∧
    chunks81 (allDigits [List.replicate 162 '1']) =
      [List.replicate 81 1, List.replicate 81 1] := by
  constructor
  · decide
  · decide

/-- C8 amended: digits are consumed and grouped 81 at a time with nothing
dropped **provided** every group completes exactly at a line boundary;
when a group completes mid-line, the remaining digits of that line are
discarded (group assembly restarts on the next line). -/
theorem main_groups_digits_amended (lines : List (List Char))
    (h : alignedLoop 0 lines = true) :
    boardsTriggered lines = chunks81 (allDigits lines) := by
  unfold boardsTriggered procStream allDigits
  rw [procStream_aligned lines [] [] (by simp) (by simpa using h)]
  simp

set_option maxRecDepth 40000 in
/-- Witness for the amended C8 at a concrete aligned stream: one full line
of 81 digits followed by a partial line. -/
theorem main_groups_digits_witness :
    boardsTriggered [List.replicate 81 '2', List.replicate 3 '4'] =
      chunks81 (allDigits [List.replicate 81 '2', List.replicate 3 '4']) :=
  main_groups_digits_amended _ (by decide)

/-! ## C3: the brute-force stack solver -/

/-- The flat digit grid of the brute-force solver (`[[u32; 9]; 9]`). -/
abbrev Grid := Fin 9 → Fin 9 → ℕ

/-- The originally-blank mask (`[[bool; 9]; 9]`). -/
abbrev Mask := Fin 9 → Fin 9 → Bool

/-- Bounds-guarded read `board[row][col]` (the source only reads in
bounds; the guard makes the embedding total). -/
def gget (g : Grid) (row col : ℕ) : ℕ :=
  if h : row < 9 ∧ col < 9 then g ⟨row, h.1⟩ ⟨col, h.2⟩ else 0

/-- Bounds-guarded write `board[row][col] = v`. -/
def gset (g : Grid) (row col v : ℕ) : Grid := fun r' c' =>
  if (r' : ℕ) = row ∧ (c' : ℕ) = col then v else g r' c'

/-- Bounds-guarded read of the blank mask. -/
def mget (m : Mask) (row col : ℕ) : Bool :=
  if h : row < 9 ∧ col < 9 then m ⟨row, h.1⟩ ⟨col, h.2⟩ else false

/-- `next_digit`: the first digit strictly above the cell's current value
(up to 9) that appears nowhere in the cell's row, column or 3×3 box. -/
def next_digit (g : Grid) (row col : ℕ) : Option ℕ :=
  (List.range' (gget g row col + 1) (9 - gget g row col)).find? fun d =>
    decide (∀ i : Fin 9, gget g row (i : ℕ) ≠ d) &&
    decide (∀ i : Fin 9, gget g (i : ℕ) col ≠ d) &&
    decide (∀ a : Fin 3, ∀ b : Fin 3,
      gget g (row / 3 * 3 + (a : ℕ)) (col / 3 * 3 + (b : ℕ)) ≠ d)

/-- The `'back_trace` loop of `brute_force`, with fuel.  The stack is a
list with its head as the top (Rust pushes/pops at the `Vec`'s end).
Returns the final `(result, grid, stack)` triple, `none` on fuel
exhaustion. -/
def bfLoop : ℕ → Grid → Mask → List (ℕ × ℕ) → ℕ → ℕ →
    Option (Bool × Grid × List (ℕ × ℕ))
  | 0, _, _, _, _, _ => none
  | fuel + 1, g, em, stack, row, col =>
    if row < 9 then
      if col < 9 then
        if gget g row col = 0 ∨ mget em row col then
          match next_digit g row col with
          | some d =>
            let g' := gset g row col d
            let stack' := (row, col) :: stack
            if row = 8 ∧ col = 8 ∧ gget g' row col ≠ 0 then
              some (true, g', stack')
            else bfLoop fuel g' em stack' row (col + 1)
          | none =>
            let g' := gset g row col 0
            match stack with
            | (pr, pc) :: rest => bfLoop fuel g' em rest pr pc
            | [] => some (false, g', [])
        else
          if row = 8 ∧ col = 8 ∧ gget g row col ≠ 0 then
            some (true, g, stack)
          else bfLoop fuel g em stack row (col + 1)
      else bfLoop fuel g em stack (row + 1) 0
    else some (false, g, stack)

/-- Fuel that dominates the step count of any well-formed state (proved
sufficient below). -/
def bfFuel : ℕ := 10 ^ 170

/-- `brute_force`: fail on an empty stack, otherwise pop the resume point
and run the backtracking loop from there. -/
def brute_force (g : Grid) (em : Mask) (stack : List (ℕ × ℕ)) :
    Option (Bool × Grid × List (ℕ × ℕ)) :=
  match stack with
  | [] => some (false, g, [])
  | (r, c) :: rest => bfLoop bfFuel g em rest r c

/-- The blank mask `resolve_2` builds: a cell is blank iff the input grid
holds 0 there. -/
def blankMask (g0 : Grid) : Mask := fun r c => decide (g0 r c = 0)

/-- An originally blank cell of the input grid. -/
def emAt (g0 : Grid) (p : Fin 9 × Fin 9) : Prop := g0 p.1 p.2 = 0

instance (g0 : Grid) (p : Fin 9 × Fin 9) : Decidable (emAt g0 p) := by
  unfold emAt; infer_instance

/-- `inUnit` lifted to coordinate pairs. -/
def inUnitP (p q : Fin 9 × Fin 9) : Prop := inUnit p.1 p.2 q.1 q.2

instance (p q : Fin 9 × Fin 9) : Decidable (inUnitP p q) := by
  unfold inUnitP; infer_instance

/-- A solution of the brute-force solver relative to the blanks of `g0`:
it extends the given digits, fills every blank with 1–9, and no blank
shares an equal value with any other cell of its row, column or box
(clashes between two *given* cells are outside the solver's control: it
never checks them). -/
def Sol (g0 : Grid) (c : Grid) : Prop :=
  (∀ p : Fin 9 × Fin 9, ¬ emAt g0 p → c p.1 p.2 = g0 p.1 p.2) ∧
  (∀ p : Fin 9 × Fin 9, emAt g0 p → 1 ≤ c p.1 p.2 ∧ c p.1 p.2 ≤ 9) ∧
  (∀ p q : Fin 9 × Fin 9, p ≠ q → inUnitP p q → (emAt g0 p ∨ emAt g0 q) →
    c p.1 p.2 ≠ c q.1 q.2)

instance (g0 c : Grid) : Decidable (Sol g0 c) := by
  unfold Sol; infer_instance

/-- The all-ones grid: completely assigned, no blanks, and wildly
inconsistent. -/
def allOnes : Grid := fun _ _ => 1

/-- Counterexample to C3 as stated: on the all-ones grid (no blanks, every
row/column/box full of duplicates) with the standard starting stack,
`brute_force` immediately reports success — but this grid has no legal
solution at all, so "success once per distinct complete legal solution"
fails: the code never cross-checks the given digits. -/
theorem brute_force_cex :
    brute_force allOnes (blankMask allOnes) [(0, 0)] =
      some (true, allOnes, []) ∧
    ¬ ∃ c : Grid, Sol allOnes c ∧
      (∀ p q : Fin 9 × Fin 9, p ≠ q → inUnitP p q → c p.1 p.2 ≠ c q.1 q.2) := by
  constructor
  · decide
  · rintro ⟨c, hsol, hleg⟩
    have h00 : c (0, 0).1 (0, 0).2 = 1 := hsol.1 (0, 0) (by decide)
    have h01 : c (0, 1).1 (0, 1).2 = 1 := hsol.1 (0, 1) (by decide)
    exact hleg (0, 0) (0, 1) (by decide) (by decide) (h00.trans h01.symm)

/-! ### A lexicographic order on grids, restricted to the blank cells -/

/-- Equality on the blanks of `g0`. -/
def gridEqB (g0 a b : Grid) : Prop :=
  ∀ p : Fin 9 × Fin 9, emAt g0 p → a p.1 p.2 = b p.1 p.2

/-- `a` is lexicographically below `b` on the blanks of `g0`, blank cells
compared in row-major order. -/
def gridLtB (g0 a b : Grid) : Prop :=
  ∃ p : Fin 9 × Fin 9, emAt g0 p ∧ a p.1 p.2 < b p.1 p.2 ∧
    ∀ q : Fin 9 × Fin 9, emAt g0 q → posOf q < posOf p → a q.1 q.2 = b q.1 q.2

def gridLeB (g0 a b : Grid) : Prop := gridLtB g0 a b ∨ gridEqB g0 a b

lemma posOf_inj {p q : Fin 9 × Fin 9} (h : posOf p = posOf q) : p = q := by
  obtain ⟨⟨pr, hpr⟩, ⟨pc, hpc⟩⟩ := p
  obtain ⟨⟨qr, hqr⟩, ⟨qc, hqc⟩⟩ := q
  unfold posOf at h
  simp only at h
  have hr : pr = qr := by omega
  have hc : pc = qc := by omega
  subst hr; subst hc; rfl

lemma gridLtB_irrefl (g0 a : Grid) : ¬ gridLtB g0 a a := by
  rintro ⟨p, _, hlt, _⟩
  exact lt_irrefl _ hlt

/-- Trichotomy for the blank-lex order. -/
lemma gridB_trichotomy (g0 a b : Grid) :
    gridLtB g0 a b ∨ gridEqB g0 a b ∨ gridLtB g0 b a := by
  by_cases heq : gridEqB g0 a b
  · exact .inr (.inl heq)
  · have hS : (Finset.univ.filter fun p : Fin 9 × Fin 9 =>
        emAt g0 p ∧ a p.1 p.2 ≠ b p.1 p.2).Nonempty := by
      rw [Finset.filter_nonempty_iff]
      by_contra hno
      push_neg at hno
      exact heq fun p hp => hno p (Finset.mem_univ p) hp
    obtain ⟨p, hpmem, hpmin⟩ := Finset.exists_min_image _ posOf hS
    rw [Finset.mem_filter] at hpmem
    obtain ⟨-, hpem, hpne⟩ := hpmem
    have hagree : ∀ q : Fin 9 × Fin 9, emAt g0 q → posOf q < posOf p →
        a q.1 q.2 = b q.1 q.2 := by
      intro q hq hql
      by_contra hqne
      have := hpmin q (Finset.mem_filter.mpr ⟨Finset.mem_univ q, hq, hqne⟩)
      omega
    rcases Nat.lt_or_ge (a p.1 p.2) (b p.1 p.2) with h | h
    · exact .inl ⟨p, hpem, h, hagree⟩
    · have : b p.1 p.2 < a p.1 p.2 := lt_of_le_of_ne h (Ne.symm hpne)
      exact .inr (.inr ⟨p, hpem, this, fun q hq hql => (hagree q hq hql).symm⟩)

lemma gridLtB_asymm (g0 a b : Grid) (h1 : gridLtB g0 a b) :
    ¬ gridLtB g0 b a := by
  rintro ⟨q, hqem, hqlt, hqag⟩
  obtain ⟨p, hpem, hplt, hpag⟩ := h1
  rcases Nat.lt_trichotomy (posOf p) (posOf q) with h | h | h
  · rw [hqag p hpem h] at hplt
    exact lt_irrefl _ hplt
  · rw [posOf_inj h] at hplt
    exact lt_irrefl _ (hplt.trans hqlt)
  · rw [hpag q hqem h] at hqlt
    exact lt_irrefl _ hqlt

lemma gridLtB_of_eq_lt (g0 a b c : Grid) (hab : gridEqB g0 a b)
    (hbc : gridLtB g0 b c) : gridLtB g0 a c := by
  obtain ⟨p, hpem, hplt, hpag⟩ := hbc
  exact ⟨p, hpem, (hab p hpem) ▸ hplt,
    fun q hq hql => (hab q hq).trans (hpag q hq hql)⟩

lemma gridLtB_of_lt_eq (g0 a b c : Grid) (hab : gridLtB g0 a b)
    (hbc : gridEqB g0 b c) : gridLtB g0 a c := by
  obtain ⟨p, hpem, hplt, hpag⟩ := hab
  exact ⟨p, hpem, (hbc p hpem) ▸ hplt,
    fun q hq hql => (hpag q hq hql).trans (hbc q hq)⟩

lemma gridLtB_trans (g0 a b c : Grid) (hab : gridLtB g0 a b)
    (hbc : gridLtB g0 b c) : gridLtB g0 a c := by
  obtain ⟨p, hpem, hplt, hpag⟩ := hab
  obtain ⟨q, hqem, hqlt, hqag⟩ := hbc
  rcases Nat.lt_trichotomy (posOf p) (posOf q) with h | h | h
  · exact ⟨p, hpem, hplt.trans_le ((hqag p hpem h) ▸ le_refl _),
      fun x hx hxl => (hpag x hx hxl).trans (hqag x hx (hxl.trans h))⟩
  · rw [posOf_inj h] at hplt hpag
    exact ⟨q, hqem, hplt.trans hqlt,
      fun x hx hxl => (hpag x hx hxl).trans (hqag x hx hxl)⟩
  · exact ⟨q, hqem, ((hpag q hqem h).symm ▸ hqlt : a q.1 q.2 < c q.1 q.2),
      fun x hx hxl => (hpag x hx (hxl.trans h)).trans (hqag x hx hxl)⟩

lemma gridLeB_trans (g0 a b c : Grid) (hab : gridLeB g0 a b)
    (hbc : gridLeB g0 b c) : gridLeB g0 a c := by
  rcases hab with hab | hab <;> rcases hbc with hbc | hbc
  · exact .inl (gridLtB_trans g0 a b c hab hbc)
  · exact .inl (gridLtB_of_lt_eq g0 a b c hab hbc)
  · exact .inl (gridLtB_of_eq_lt g0 a b c hab hbc)
  · exact .inr fun p hp => (hab p hp).trans (hbc p hp)

lemma gridLtB_of_le_lt (g0 a b c : Grid) (hab : gridLeB g0 a b)
    (hbc : gridLtB g0 b c) : gridLtB g0 a c := by
  rcases hab with hab | hab
  · exact gridLtB_trans g0 a b c hab hbc
  · exact gridLtB_of_eq_lt g0 a b c hab hbc

lemma gridLtB_of_lt_le (g0 a b c : Grid) (hab : gridLtB g0 a b)
    (hbc : gridLeB g0 b c) : gridLtB g0 a c := by
  rcases hbc with hbc | hbc
  · exact gridLtB_trans g0 a b c hab hbc
  · exact gridLtB_of_lt_eq g0 a b c hab hbc

/-- The order only reads blank cells, so either argument may be replaced
by a grid agreeing on the blanks. -/
lemma gridLtB_congr_left (g0 a a' b : Grid)
    (h : ∀ p : Fin 9 × Fin 9, emAt g0 p → a p.1 p.2 = a' p.1 p.2) :
    gridLtB g0 a b ↔ gridLtB g0 a' b := by
  constructor
  · rintro ⟨p, hpem, hplt, hpag⟩
    exact ⟨p, hpem, (h p hpem) ▸ hplt,
      fun q hq hql => (h q hq).symm.trans (hpag q hq hql)⟩
  · rintro ⟨p, hpem, hplt, hpag⟩
    exact ⟨p, hpem, (h p hpem).symm ▸ hplt,
      fun q hq hql => (h q hq).trans (hpag q hq hql)⟩

lemma gridLeB_congr_left (g0 a a' b : Grid)
    (h : ∀ p : Fin 9 × Fin 9, emAt g0 p → a p.1 p.2 = a' p.1 p.2) :
    gridLeB g0 a b ↔ gridLeB g0 a' b := by
  unfold gridLeB
  rw [gridLtB_congr_left g0 a a' b h]
  constructor
  · rintro (hl | he)
    · exact .inl hl
    · exact .inr fun p hp => (h p hp).symm.trans (he p hp)
  · rintro (hl | he)
    · exact .inl hl
    · exact .inr fun p hp => (h p hp).trans (he p hp)

/-- Lexicographic squeeze: if `a ≤ c < b` and `a` and `b` agree on every
blank before position `P`, then `c` agrees with them there too. -/
lemma gridB_squeeze (g0 a b c : Grid) (P : ℕ)
    (hab : ∀ p : Fin 9 × Fin 9, emAt g0 p → posOf p < P →
      a p.1 p.2 = b p.1 p.2)
    (hac : gridLeB g0 a c) (hcb : gridLtB g0 c b) :
    ∀ p : Fin 9 × Fin 9, emAt g0 p → posOf p < P → c p.1 p.2 = a p.1 p.2 := by
  by_contra hno
  push_neg at hno
  have hS : (Finset.univ.filter fun p : Fin 9 × Fin 9 =>
      emAt g0 p ∧ posOf p < P ∧ c p.1 p.2 ≠ a p.1 p.2).Nonempty := by
    rw [Finset.filter_nonempty_iff]
    obtain ⟨p, hp1, hp2, hp3⟩ := hno
    exact ⟨p, Finset.mem_univ p, hp1, hp2, hp3⟩
  obtain ⟨p, hpmem, hpmin⟩ := Finset.exists_min_image _ posOf hS
  rw [Finset.mem_filter] at hpmem
  obtain ⟨-, hpem, hpP, hpne⟩ := hpmem
  have hagree : ∀ q : Fin 9 × Fin 9, emAt g0 q → posOf q < posOf p →
      c q.1 q.2 = a q.1 q.2 := by
    intro q hq hql
    by_contra hqne
    have := hpmin q (Finset.mem_filter.mpr
      ⟨Finset.mem_univ q, hq, hql.trans hpP, hqne⟩)
    omega
  rcases Nat.lt_or_ge (c p.1 p.2) (a p.1 p.2) with hlt | hge
  · -- c < a at the first difference, contradicting a ≤ c
    have hca : gridLtB g0 c a := ⟨p, hpem, hlt, hagree⟩
    rcases hac with hac | hac
    · exact gridLtB_asymm g0 a c hac hca
    · exact gridLtB_irrefl g0 a
        (gridLtB_of_eq_lt g0 a c a hac hca)
  · -- c > b at the first difference, contradicting c < b
    have hlt : b p.1 p.2 < c p.1 p.2 :=
      lt_of_le_of_ne ((hab p hpem hpP) ▸ hge) fun hbc =>
        hpne (hbc ▸ (hab p hpem hpP).symm)
    have hbc' : gridLtB g0 b c :=
      ⟨p, hpem, hlt, fun q hq hql =>
        (hab q hq (hql.trans hpP)).symm.trans (hagree q hq hql).symm⟩
    exact gridLtB_asymm g0 c b hcb hbc'

/-! ### Access helpers for the flat grid -/

lemma gget_eq (g : Grid) (a b : Fin 9) : gget g (a : ℕ) (b : ℕ) = g a b := by
  unfold gget
  rw [dif_pos ⟨a.isLt, b.isLt⟩]

lemma gset_get_self (g : Grid) (a b : Fin 9) (v : ℕ) :
    gset g (a : ℕ) (b : ℕ) v a b = v := by
  unfold gset
  rw [if_pos ⟨rfl, rfl⟩]

lemma gset_get_other (g : Grid) (row col v : ℕ) (a b : Fin 9)
    (h : ¬((a : ℕ) = row ∧ (b : ℕ) = col)) :
    gset g row col v a b = g a b := by
  unfold gset
  rw [if_neg h]

/-- Under the given-cells invariant, the loop's blank test
`board[row][col] == 0 || empty[row][col]` holds exactly on the originally
blank cells. -/
lemma blank_cond (g0 g : Grid) (a b : Fin 9)
    (hoff : ∀ p : Fin 9 × Fin 9, ¬ emAt g0 p → g p.1 p.2 = g0 p.1 p.2) :
    (gget g (a : ℕ) (b : ℕ) = 0 ∨ mget (blankMask g0) (a : ℕ) (b : ℕ) = true) ↔
      emAt g0 (a, b) := by
  unfold mget blankMask
  rw [dif_pos ⟨a.isLt, b.isLt⟩, gget_eq]
  simp only [decide_eq_true_eq]
  constructor
  · rintro (h | h)
    · by_contra hem
      rw [hoff (a, b) hem] at h
      exact hem h
    · exact h
  · exact fun h => .inr h

/-! ### The loop invariant of `brute_force` -/

/-- Well-formedness of a `bfLoop` state reachable from the `resolve_2`
setup: the scan position is at most cell 80; given cells are intact and
all values at most 9; blanks strictly before the scan position are filled
and blanks strictly after are 0 (as is the blank at the position when the
scan sits at a row boundary); the stack lists exactly the filled blanks
before the position, most recent (largest position) first; and no blank's
value clashes with any cell of its unit. -/
structure BFInv (g0 g : Grid) (stack : List (ℕ × ℕ)) (row col : ℕ) : Prop where
  hpos : row * 9 + col ≤ 80
  hcol : col ≤ 9
  hoff : ∀ p : Fin 9 × Fin 9, ¬ emAt g0 p → g p.1 p.2 = g0 p.1 p.2
  hle9 : ∀ p : Fin 9 × Fin 9, g p.1 p.2 ≤ 9
  hbef : ∀ p : Fin 9 × Fin 9, emAt g0 p → posOf p < row * 9 + col → 1 ≤ g p.1 p.2
  haft : ∀ p : Fin 9 × Fin 9, emAt g0 p → row * 9 + col < posOf p → g p.1 p.2 = 0
  hat9 : col = 9 → ∀ p : Fin 9 × Fin 9, emAt g0 p → posOf p = row * 9 + col →
    g p.1 p.2 = 0
  hstk : ∀ e ∈ stack, ∃ p : Fin 9 × Fin 9,
    ((p.1 : ℕ), (p.2 : ℕ)) = e ∧ emAt g0 p ∧ posOf p < row * 9 + col
  hsort : stack.Pairwise fun e f => f.1 * 9 + f.2 < e.1 * 9 + e.2
  hcomp : ∀ p : Fin 9 × Fin 9, emAt g0 p → posOf p < row * 9 + col →
    ((p.1 : ℕ), (p.2 : ℕ)) ∈ stack
  hrel : ∀ p q : Fin 9 × Fin 9, p ≠ q → inUnitP p q → emAt g0 p →
    g p.1 p.2 ≠ 0 → g q.1 q.2 ≠ 0 → g p.1 p.2 ≠ g q.1 q.2

/-! ### Thresholds: what part of the search space is still ahead -/

/-- A retry position: the scan sits on a blank currently holding a
tentative value (it was just popped off the stack); the digits up to that
value are already explored. -/
def isRetry (g0 g : Grid) (row col : ℕ) : Prop :=
  row < 9 ∧ col < 9 ∧ gget g0 row col = 0 ∧ gget g row col ≠ 0

instance (g0 g : Grid) (row col : ℕ) : Decidable (isRetry g0 g row col) := by
  unfold isRetry; infer_instance

/-- Threshold grid of a state: the state's values at positions up to
`pos`, and the constant `tail` beyond. -/
def tauG (g : Grid) (pos tail : ℕ) : Grid := fun r c =>
  if posOf (r, c) ≤ pos then g r c else tail

/-- The solutions still ahead of a state: everything weakly above the
threshold, strictly when the state is a retry (the threshold itself and
everything below it has been explored). -/
def After (g0 g : Grid) (row col : ℕ) (c : Grid) : Prop :=
  if isRetry g0 g row col then gridLtB g0 (tauG g (row * 9 + col) 9) c
  else gridLeB g0 (tauG g (row * 9 + col) 0) c

/-! ### `next_digit`: characterization -/

/-- The admissibility test of `next_digit` for digit `d` at `(row, col)`:
`d` appears nowhere in the row, the column or the box. -/
def okDigit (g : Grid) (row col d : ℕ) : Prop :=
  (∀ i : Fin 9, gget g row (i : ℕ) ≠ d) ∧
  (∀ i : Fin 9, gget g (i : ℕ) col ≠ d) ∧
  (∀ a : Fin 3, ∀ b : Fin 3,
    gget g (row / 3 * 3 + (a : ℕ)) (col / 3 * 3 + (b : ℕ)) ≠ d)

lemma next_digit_pred (g : Grid) (row col d : ℕ) :
    (decide (∀ i : Fin 9, gget g row (i : ℕ) ≠ d) &&
      decide (∀ i : Fin 9, gget g (i : ℕ) col ≠ d) &&
      decide (∀ a : Fin 3, ∀ b : Fin 3,
        gget g (row / 3 * 3 + (a : ℕ)) (col / 3 * 3 + (b : ℕ)) ≠ d)) = true ↔
    okDigit g row col d := by
  simp only [Bool.and_eq_true, decide_eq_true_eq]
  unfold okDigit
  tauto

lemma next_digit_some (g : Grid) (row col d : ℕ) (hv : gget g row col ≤ 9)
    (h : next_digit g row col = some d) :
    gget g row col < d ∧ d ≤ 9 ∧ okDigit g row col d ∧
      ∀ e, gget g row col < e → e < d → ¬ okDigit g row col e := by
  unfold next_digit at h
  have hmem := List.mem_of_find?_eq_some h
  rw [List.mem_range'_1] at hmem
  have hp := List.find?_some h
  have hok := (next_digit_pred g row col d).mp hp
  refine ⟨by omega, by omega, hok, ?_⟩
  intro e he hed hoke
  have hemem : e ∈ List.range' (gget g row col + 1) (9 - gget g row col) := by
    rw [List.mem_range'_1]; omega
  have hpe : (decide (∀ i : Fin 9, gget g row (i : ℕ) ≠ e) &&
      decide (∀ i : Fin 9, gget g (i : ℕ) col ≠ e) &&
      decide (∀ a : Fin 3, ∀ b : Fin 3,
        gget g (row / 3 * 3 + (a : ℕ)) (col / 3 * 3 + (b : ℕ)) ≠ e)) = true :=
    (next_digit_pred g row col e).mpr hoke
  have := find?_first_of_pairwise _ (List.pairwise_lt_range' _ _) _ d h e hemem hpe
  rcases this with rfl | hlt
  · exact lt_irrefl _ hed
  · omega

lemma next_digit_none (g : Grid) (row col : ℕ)
    (h : next_digit g row col = none) :
    ∀ e, gget g row col < e → e ≤ 9 → ¬ okDigit g row col e := by
  intro e he he9 hoke
  unfold next_digit at h
  have hemem : e ∈ List.range' (gget g row col + 1) (9 - gget g row col) := by
    rw [List.mem_range'_1]; omega
  exact absurd ((next_digit_pred g row col e).mpr hoke)
    (by simpa using List.find?_eq_none.mp h e hemem)

/-- `next_digit`'s three scans cover exactly the cells sharing a row,
column or box with the target. -/
lemma okDigit_iff (g : Grid) (p : Fin 9 × Fin 9) (d : ℕ) :
    okDigit g (p.1 : ℕ) (p.2 : ℕ) d ↔
      ∀ q : Fin 9 × Fin 9, inUnitP p q → g q.1 q.2 ≠ d := by
  constructor
  · rintro ⟨hr, hc, hb⟩ q hq
    rcases hq with hq | hq | ⟨hq1, hq2⟩
    · -- same row
      have := hr q.2
      rw [gget_eq g p.1 q.2] at this
      rw [hq]
      exact this
    · -- same column
      have := hc q.1
      rw [gget_eq g q.1 p.2] at this
      rw [hq]
      exact this
    · -- same box
      have ha3 : (q.1 : ℕ) % 3 < 3 := Nat.mod_lt _ (by omega)
      have hb3 : (q.2 : ℕ) % 3 < 3 := Nat.mod_lt _ (by omega)
      have := hb ⟨(q.1 : ℕ) % 3, ha3⟩ ⟨(q.2 : ℕ) % 3, hb3⟩
      have hx : (p.1 : ℕ) / 3 * 3 + (q.1 : ℕ) % 3 = (q.1 : ℕ) := by
        have h1 := (q.1 : ℕ).div_add_mod 3
        omega
      have hy : (p.2 : ℕ) / 3 * 3 + (q.2 : ℕ) % 3 = (q.2 : ℕ) := by
        have h2 := (q.2 : ℕ).div_add_mod 3
        omega
      rw [show ((⟨(q.1 : ℕ) % 3, ha3⟩ : Fin 3) : ℕ) = (q.1 : ℕ) % 3 from rfl,
        show ((⟨(q.2 : ℕ) % 3, hb3⟩ : Fin 3) : ℕ) = (q.2 : ℕ) % 3 from rfl]
        at this
      rw [hx, hy] at this
      rwa [gget_eq] at this
  · intro h
    refine ⟨?_, ?_, ?_⟩
    · intro i
      rw [gget_eq]
      exact h (p.1, i) (.inl rfl)
    · intro i
      rw [gget_eq]
      exact h (i, p.2) (.inr (.inl rfl))
    · intro a b
      have hx : (p.1 : ℕ) / 3 * 3 + (a : ℕ) < 9 := by
        have := p.1.isLt; have := a.isLt; omega
      have hy : (p.2 : ℕ) / 3 * 3 + (b : ℕ) < 9 := by
        have := p.2.isLt; have := b.isLt; omega
      have := h (⟨_, hx⟩, ⟨_, hy⟩) (.inr (.inr ⟨by
          show ((p.1 : ℕ) / 3 * 3 + (a : ℕ)) / 3 = (p.1 : ℕ) / 3
          have := a.isLt; omega, by
          show ((p.2 : ℕ) / 3 * 3 + (b : ℕ)) / 3 = (p.2 : ℕ) / 3
          have := b.isLt; omega⟩))
      rwa [show gget g ((p.1 : ℕ) / 3 * 3 + (a : ℕ)) ((p.2 : ℕ) / 3 * 3 + (b : ℕ))
          = g ⟨_, hx⟩ ⟨_, hy⟩ from gget_eq g ⟨_, hx⟩ ⟨_, hy⟩]

lemma inUnitP_symm {p q : Fin 9 × Fin 9} (h : inUnitP p q) : inUnitP q p :=
  inUnit_symm h

/-- The digit a solution assigns at a blank is admissible in any state
grid whose filled blanks agree with the solution. -/
lemma sol_okDigit (g0 g c : Grid) (hsol : Sol g0 c) (p : Fin 9 × Fin 9)
    (hem : emAt g0 p)
    (hoff : ∀ q : Fin 9 × Fin 9, ¬ emAt g0 q → g q.1 q.2 = g0 q.1 q.2)
    (hagree : ∀ q : Fin 9 × Fin 9, emAt g0 q → q ≠ p → g q.1 q.2 ≠ 0 →
      g q.1 q.2 = c q.1 q.2)
    (hself : g p.1 p.2 ≠ c p.1 p.2) :
    okDigit g (p.1 : ℕ) (p.2 : ℕ) (c p.1 p.2) := by
  rw [okDigit_iff]
  intro q hq
  by_cases hqp : q = p
  · subst hqp; exact hself
  by_cases hqem : emAt g0 q
  · by_cases hqz : g q.1 q.2 = 0
    · rw [hqz]
      have := (hsol.2.1 p hem).1
      omega
    · rw [hagree q hqem hqp hqz]
      exact fun hcc => hsol.2.2 q p hqp (inUnitP_symm hq) (.inl hqem) hcc
  · rw [hoff q hqem, ← hsol.1 q hqem]
    exact fun hcc => hsol.2.2 q p hqp (inUnitP_symm hq) (.inr hem) hcc

/-! ### Preservation of the loop invariant -/

/-- The scan cell as a coordinate pair. -/
def cellAt (row col : ℕ) (hr : row < 9) (hc : col < 9) : Fin 9 × Fin 9 :=
  (⟨row, hr⟩, ⟨col, hc⟩)

lemma posOf_cellAt (row col : ℕ) (hr : row < 9) (hc : col < 9) :
    posOf (cellAt row col hr hc) = row * 9 + col := rfl

lemma eq_cellAt_of_posOf {row col : ℕ} (hr : row < 9) (hc : col < 9)
    {p : Fin 9 × Fin 9} (h : posOf p = row * 9 + col) :
    p = cellAt row col hr hc :=
  posOf_inj (h.trans (posOf_cellAt row col hr hc).symm)

lemma gset_fin (g : Grid) (t : Fin 9 × Fin 9) (v : ℕ) (q : Fin 9 × Fin 9) :
    gset g (t.1 : ℕ) (t.2 : ℕ) v q.1 q.2 = if q = t then v else g q.1 q.2 := by
  by_cases h : q = t
  · subst h
    unfold gset
    rw [if_pos ⟨rfl, rfl⟩, if_pos rfl]
  · unfold gset
    rw [if_neg, if_neg h]
    rintro ⟨h1, h2⟩
    exact h (Prod.ext (Fin.val_injective h1) (Fin.val_injective h2))

lemma pos_lt_80 {row col : ℕ} (hpos : row * 9 + col ≤ 80) (_hr : row < 9)
    (hc : col < 9) (hne : ¬(row = 8 ∧ col = 8)) : row * 9 + col < 80 := by
  rcases Nat.lt_or_ge (row * 9 + col) 80 with h | h
  · exact h
  · exfalso; exact hne ⟨by omega, by omega⟩

/-- Skipping a non-blank cell. -/
lemma BFInv_skip (g0 g : Grid) (stack : List (ℕ × ℕ)) (row col : ℕ)
    (inv : BFInv g0 g stack row col) (hr : row < 9) (hc : col < 9)
    (hnb : ¬ emAt g0 (cellAt row col hr hc)) (hlt : row * 9 + col < 80) :
    BFInv g0 g stack row (col + 1) := by
  have hcell : ∀ p : Fin 9 × Fin 9, emAt g0 p → posOf p ≠ row * 9 + col :=
    fun p hp h => hnb (eq_cellAt_of_posOf hr hc h ▸ hp)
  refine ⟨by omega, by omega, inv.hoff, inv.hle9, ?_, ?_, ?_, ?_, inv.hsort, ?_, inv.hrel⟩
  · intro p hp hl
    rcases Nat.lt_or_ge (posOf p) (row * 9 + col) with h | h
    · exact inv.hbef p hp h
    · exact absurd (by omega : posOf p = row * 9 + col) (hcell p hp)
  · intro p hp hl
    exact inv.haft p hp (by omega)
  · intro h9 p hp hpe
    exact inv.haft p hp (by omega)
  · intro e he
    obtain ⟨p, h1, h2, h3⟩ := inv.hstk e he
    exact ⟨p, h1, h2, by omega⟩
  · intro p hp hl
    rcases Nat.lt_or_ge (posOf p) (row * 9 + col) with h | h
    · exact inv.hcomp p hp h
    · exact absurd (by omega : posOf p = row * 9 + col) (hcell p hp)

/-- Advancing to the next row at a column boundary. -/
lemma BFInv_rowadv (g0 g : Grid) (stack : List (ℕ × ℕ)) (row : ℕ)
    (inv : BFInv g0 g stack row 9) :
    BFInv g0 g stack (row + 1) 0 := by
  have hpe : (row + 1) * 9 + 0 = row * 9 + 9 := by omega
  have hp80 := inv.hpos
  refine ⟨by omega, by omega, inv.hoff, inv.hle9, ?_, ?_, ?_, ?_, inv.hsort, ?_, inv.hrel⟩
  · intro p hp hl; exact inv.hbef p hp (by omega)
  · intro p hp hl; exact inv.haft p hp (by omega)
  · exact fun h0 => absurd h0 (by omega)
  · intro e he
    obtain ⟨p, h1, h2, h3⟩ := inv.hstk e he
    exact ⟨p, h1, h2, by omega⟩
  · intro p hp hl; exact inv.hcomp p hp (by omega)

/-- Placing an admissible digit at the scanned blank cell (the non-final
case: the scan continues at the next column). -/
lemma BFInv_place (g0 g : Grid) (stack : List (ℕ × ℕ)) (row col : ℕ)
    (inv : BFInv g0 g stack row col) (hr : row < 9) (hc : col < 9)
    (hem : emAt g0 (cellAt row col hr hc)) (d : ℕ)
    (hnd : next_digit g row col = some d) (hlt : row * 9 + col < 80) :
    BFInv g0 (gset g row col d) ((row, col) :: stack) row (col + 1) := by
  set t := cellAt row col hr hc with ht
  have htc : ((t.1 : ℕ), (t.2 : ℕ)) = (row, col) := rfl
  have hvle : gget g row col ≤ 9 := by
    rw [show gget g row col = g t.1 t.2 from gget_eq g t.1 t.2]
    exact inv.hle9 t
  obtain ⟨hdlt, hd9, hdok, hdmin⟩ := next_digit_some g row col d hvle hnd
  have hget : ∀ q : Fin 9 × Fin 9, gset g row col d q.1 q.2 =
      if q = t then d else g q.1 q.2 := fun q => gset_fin g t d q
  refine ⟨by omega, by omega, ?_, ?_, ?_, ?_, ?_, ?_, ?_, ?_, ?_⟩
  · intro p hp
    rw [hget p, if_neg (fun h : p = t => hp (by rw [h]; exact hem))]
    exact inv.hoff p hp
  · intro p
    rw [hget p]
    split
    · omega
    · exact inv.hle9 p
  · intro p hp hl
    rw [hget p]
    split
    · omega
    · rename_i hne
      have : posOf p ≠ row * 9 + col := fun h => hne (eq_cellAt_of_posOf hr hc h)
      exact inv.hbef p hp (by omega)
  · intro p hp hl
    rw [hget p]
    rw [if_neg (fun h => by subst h; rw [posOf_cellAt] at hl; omega)]
    exact inv.haft p hp (by omega)
  · intro h9 p hp hpe
    rw [hget p]
    rw [if_neg (fun h => by subst h; rw [posOf_cellAt] at hpe; omega)]
    exact inv.haft p hp (by omega)
  · intro e he
    rcases List.mem_cons.mp he with rfl | he'
    · exact ⟨t, htc, hem, by rw [posOf_cellAt]; omega⟩
    · obtain ⟨p, h1, h2, h3⟩ := inv.hstk e he'
      exact ⟨p, h1, h2, by omega⟩
  · rw [List.pairwise_cons]
    refine ⟨?_, inv.hsort⟩
    intro e he
    obtain ⟨p, h1, h2, h3⟩ := inv.hstk e he
    have : e.1 * 9 + e.2 = posOf p := by rw [← h1]; rfl
    omega
  · intro p hp hl
    rcases Nat.lt_or_ge (posOf p) (row * 9 + col) with h | h
    · exact List.mem_cons_of_mem _ (inv.hcomp p hp h)
    · have hpt : posOf p = row * 9 + col := by omega
      rw [eq_cellAt_of_posOf hr hc hpt]
      exact List.mem_cons_self _ _
  · -- admissibility of d gives the no-clash invariant for the new grid
    have hunit := (okDigit_iff g t d).mp (by
      rw [show ((t.1 : ℕ)) = row from rfl, show ((t.2 : ℕ)) = col from rfl]
      exact hdok)
    intro p q hpq hu hp hpz hqz
    rw [hget p] at hpz ⊢
    rw [hget q] at hqz ⊢
    by_cases hpt : p = t
    · rw [if_pos hpt] at hpz ⊢
      rw [if_neg (fun h : q = t => hpq (hpt.trans h.symm))] at hqz ⊢
      subst hpt
      exact fun h => hunit q hu h.symm
    · rw [if_neg hpt] at hpz ⊢
      by_cases hqt : q = t
      · rw [if_pos hqt] at hqz ⊢
        subst hqt
        exact fun h => hunit p (inUnitP_symm hu) h
      · rw [if_neg hqt] at hqz ⊢
        exact inv.hrel p q hpq hu hp hpz hqz

/-- Clearing the scanned blank and backtracking to the popped stack top. -/
lemma BFInv_pop (g0 g : Grid) (pr pc : ℕ) (rest : List (ℕ × ℕ)) (row col : ℕ)
    (inv : BFInv g0 g ((pr, pc) :: rest) row col) (hr : row < 9) (hc : col < 9)
    (hem : emAt g0 (cellAt row col hr hc)) :
    BFInv g0 (gset g row col 0) rest pr pc := by
  obtain ⟨P, hPc, hPem, hPlt⟩ := inv.hstk (pr, pc) (List.mem_cons_self _ _)
  have hpr : (P.1 : ℕ) = pr := congrArg Prod.fst hPc
  have hpc : (P.2 : ℕ) = pc := congrArg Prod.snd hPc
  have hppos : posOf P = pr * 9 + pc := by unfold posOf; rw [hpr, hpc]
  have hplt' : pr * 9 + pc < row * 9 + col := by rw [← hppos]; exact hPlt
  have hrest : ∀ e ∈ rest, e.1 * 9 + e.2 < pr * 9 + pc :=
    (List.pairwise_cons.mp inv.hsort).1
  have hnob : ∀ q : Fin 9 × Fin 9, emAt g0 q → pr * 9 + pc < posOf q →
      posOf q < row * 9 + col → False := by
    intro q hq h1 h2
    rcases List.mem_cons.mp (inv.hcomp q hq h2) with he | he
    · have h3 : posOf q = pr * 9 + pc := by
        obtain ⟨ha, hb⟩ := Prod.mk.inj he
        unfold posOf
        omega
      omega
    · have h3 : (q.1 : ℕ) * 9 + (q.2 : ℕ) < pr * 9 + pc := hrest _ he
      unfold posOf at h1
      omega
  set t := cellAt row col hr hc with htdef
  have hget : ∀ q, gset g row col 0 q.1 q.2 = if q = t then 0 else g q.1 q.2 :=
    gset_fin g t 0
  have hp80 := inv.hpos
  have hP2 := P.2.isLt
  have htpos : posOf t = row * 9 + col := posOf_cellAt row col hr hc
  refine ⟨by omega, by omega, ?_, ?_, ?_, ?_, ?_, ?_,
    (List.pairwise_cons.mp inv.hsort).2, ?_, ?_⟩
  · intro p hp
    rw [hget p, if_neg (fun h : p = t => hp (by rw [h]; exact hem))]
    exact inv.hoff p hp
  · intro p
    rw [hget p]
    split
    · omega
    · exact inv.hle9 p
  · intro p hp hl
    have hpt : p ≠ t := fun h => by rw [h, htpos] at hl; omega
    rw [hget p, if_neg hpt]
    exact inv.hbef p hp (by omega)
  · intro p hp hl
    rw [hget p]
    by_cases hpt : p = t
    · rw [if_pos hpt]
    · rw [if_neg hpt]
      rcases Nat.lt_trichotomy (posOf p) (row * 9 + col) with h | h | h
      · exact absurd (hnob p hp hl h) (fun f => f)
      · exact absurd (eq_cellAt_of_posOf hr hc h) hpt
      · exact inv.haft p hp h
  · exact fun h9 => absurd h9 (by omega)
  · intro e he
    obtain ⟨q, h1, h2, h3⟩ := inv.hstk e (List.mem_cons_of_mem _ he)
    refine ⟨q, h1, h2, ?_⟩
    have h4 : (q.1 : ℕ) * 9 + (q.2 : ℕ) < pr * 9 + pc := by
      have := hrest e he
      rw [← h1] at this
      exact this
    unfold posOf
    omega
  · intro q hq hl
    rcases List.mem_cons.mp (inv.hcomp q hq (by omega)) with he | he
    · exfalso
      have h3 : posOf q = pr * 9 + pc := by
        obtain ⟨ha, hb⟩ := Prod.mk.inj he
        unfold posOf
        omega
      omega
    · exact he
  · intro p q hpq hu hp hpz hqz
    rw [hget p] at hpz ⊢
    rw [hget q] at hqz ⊢
    by_cases hpt : p = t
    · rw [if_pos hpt] at hpz
      exact absurd rfl hpz
    · rw [if_neg hpt] at hpz ⊢
      by_cases hqt : q = t
      · rw [if_pos hqt] at hqz
        exact absurd rfl hqz
      · rw [if_neg hqt] at hqz ⊢
        exact inv.hrel p q hpq hu hp hpz hqz

/-! ### How each step transforms the remaining search space -/

lemma tauG_at (g : Grid) (pos tail : ℕ) (p : Fin 9 × Fin 9) :
    tauG g pos tail p.1 p.2 = if posOf p ≤ pos then g p.1 p.2 else tail := rfl

lemma emAt_cellAt_iff (g0 : Grid) (row col : ℕ) (hr : row < 9) (hc : col < 9) :
    emAt g0 (cellAt row col hr hc) ↔ gget g0 row col = 0 := by
  unfold emAt cellAt gget
  rw [dif_pos ⟨hr, hc⟩]

lemma gget_cellAt (g : Grid) (row col : ℕ) (hr : row < 9) (hc : col < 9) :
    gget g row col = g (cellAt row col hr hc).1 (cellAt row col hr hc).2 := by
  unfold cellAt gget
  rw [dif_pos ⟨hr, hc⟩]

/-- Skipping a non-blank cell leaves the remaining search space unchanged. -/
lemma After_skip (g0 g : Grid) (stack : List (ℕ × ℕ)) (row col : ℕ)
    (inv : BFInv g0 g stack row col) (hr : row < 9) (hc : col < 9)
    (hnb : ¬ emAt g0 (cellAt row col hr hc)) (c : Grid) :
    After g0 g row (col + 1) c ↔ After g0 g row col c := by
  have hnr1 : ¬ isRetry g0 g row col := by
    rintro ⟨_, _, h0, _⟩
    exact hnb ((emAt_cellAt_iff g0 row col hr hc).mpr h0)
  have hnr2 : ¬ isRetry g0 g row (col + 1) := by
    rintro ⟨_, hc1, h0, h4⟩
    have hcell : emAt g0 (cellAt row (col + 1) hr hc1) :=
      (emAt_cellAt_iff g0 row (col + 1) hr hc1).mpr h0
    have hz : g (cellAt row (col + 1) hr hc1).1 (cellAt row (col + 1) hr hc1).2 = 0 :=
      inv.haft _ hcell (by rw [posOf_cellAt]; omega)
    rw [gget_cellAt g row (col + 1) hr hc1, hz] at h4
    exact h4 rfl
  unfold After
  rw [if_neg hnr1, if_neg hnr2]
  apply gridLeB_congr_left
  intro p hp
  rw [tauG_at, tauG_at]
  by_cases h1 : posOf p ≤ row * 9 + col
  · rw [if_pos (by omega), if_pos h1]
  · rw [if_neg h1]
    by_cases h2 : posOf p ≤ row * 9 + (col + 1)
    · rw [if_pos h2]
      exact inv.haft p hp (by omega)
    · rw [if_neg h2]

/-- Advancing to the next row leaves the remaining search space unchanged. -/
lemma After_rowadv (g0 g : Grid) (stack : List (ℕ × ℕ)) (row : ℕ)
    (inv : BFInv g0 g stack row 9) (c : Grid) :
    After g0 g (row + 1) 0 c ↔ After g0 g row 9 c := by
  have hnr1 : ¬ isRetry g0 g row 9 := by
    rintro ⟨_, h, _⟩; omega
  have hnr2 : ¬ isRetry g0 g (row + 1) 0 := by
    rintro ⟨hr9, hc9, h0, h4⟩
    have hcell : emAt g0 (cellAt (row + 1) 0 hr9 hc9) :=
      (emAt_cellAt_iff g0 (row + 1) 0 hr9 hc9).mpr h0
    have hz : g (cellAt (row + 1) 0 hr9 hc9).1 (cellAt (row + 1) 0 hr9 hc9).2 = 0 :=
      inv.hat9 rfl _ hcell (by rw [posOf_cellAt]; omega)
    rw [gget_cellAt g (row + 1) 0 hr9 hc9, hz] at h4
    exact h4 rfl
  unfold After
  rw [if_neg hnr1, if_neg hnr2]
  apply gridLeB_congr_left
  intro p hp
  rw [tauG_at, tauG_at]
  by_cases h1 : posOf p ≤ row * 9 + 9
  · rw [if_pos (by omega), if_pos h1]
  · rw [if_neg (by omega), if_neg h1]

lemma leB_ltB_absurd (g0 a b : Grid) (h1 : gridLeB g0 a b)
    (h2 : gridLtB g0 b a) : False := by
  rcases h1 with h1 | h1
  · exact gridLtB_asymm g0 a b h1 h2
  · exact gridLtB_irrefl g0 a (gridLtB_of_eq_lt g0 a b a h1 h2)

/-- Placing `next_digit`'s digit at the scanned blank leaves the remaining
search space unchanged on solutions: the new threshold moves exactly past
the digits already ruled out by `next_digit`'s minimality. -/
lemma After_place (g0 g : Grid) (stack : List (ℕ × ℕ)) (row col : ℕ)
    (inv : BFInv g0 g stack row col) (hr : row < 9) (hc : col < 9)
    (hem : emAt g0 (cellAt row col hr hc)) (d : ℕ)
    (hnd : next_digit g row col = some d)
    (c : Grid) (hsol : Sol g0 c) :
    After g0 (gset g row col d) row (col + 1) c ↔ After g0 g row col c := by
  set t := cellAt row col hr hc with htdef
  have htpos : posOf t = row * 9 + col := posOf_cellAt row col hr hc
  have hvt : gget g row col = g t.1 t.2 := gget_cellAt g row col hr hc
  have hvle : gget g row col ≤ 9 := by rw [hvt]; exact inv.hle9 t
  obtain ⟨hdlt, hd9, hdok, hdmin⟩ := next_digit_some g row col d hvle hnd
  have hget : ∀ q : Fin 9 × Fin 9, gset g row col d q.1 q.2 =
      if q = t then d else g q.1 q.2 := gset_fin g t d
  -- the new state is never a retry position
  have hnr2 : ¬ isRetry g0 (gset g row col d) row (col + 1) := by
    rintro ⟨_, hc1, h0, h4⟩
    have hcell : emAt g0 (cellAt row (col + 1) hr hc1) :=
      (emAt_cellAt_iff g0 row (col + 1) hr hc1).mpr h0
    have hne : cellAt row (col + 1) hr hc1 ≠ t := by
      intro h
      have h5 := congrArg posOf h
      rw [posOf_cellAt, htpos] at h5
      omega
    have hz : g (cellAt row (col + 1) hr hc1).1 (cellAt row (col + 1) hr hc1).2 = 0 :=
      inv.haft _ hcell (by rw [posOf_cellAt]; omega)
    rw [gget_cellAt (gset g row col d) row (col + 1) hr hc1,
      hget (cellAt row (col + 1) hr hc1), if_neg hne, hz] at h4
    exact h4 rfl
  -- value of the new threshold at each blank
  have hτ' : ∀ q : Fin 9 × Fin 9, emAt g0 q →
      tauG (gset g row col d) (row * 9 + (col + 1)) 0 q.1 q.2 =
        if posOf q < row * 9 + col then g q.1 q.2
        else if q = t then d else 0 := by
    intro q hq
    rw [tauG_at]
    by_cases h1 : posOf q < row * 9 + col
    · rw [if_pos h1, if_pos (show posOf q ≤ row * 9 + (col + 1) by omega),
        hget q, if_neg (fun h : q = t => by rw [h, htpos] at h1; omega)]
    · rw [if_neg h1]
      by_cases h2 : q = t
      · rw [if_pos (show posOf q ≤ row * 9 + (col + 1) by
          rw [h2, htpos]; omega), hget q, if_pos h2, if_pos h2]
      · have h3 : row * 9 + col < posOf q := by
          rcases Nat.lt_or_ge (row * 9 + col) (posOf q) with h | h
          · exact h
          · exact absurd (eq_cellAt_of_posOf hr hc
              (by omega)) h2
        by_cases h4 : posOf q ≤ row * 9 + (col + 1)
        · rw [if_pos h4, hget q, if_neg h2, if_neg h2]
          exact inv.haft q hq h3
        · rw [if_neg h4, if_neg h2]
  -- value of either old threshold at each cell
  have hτold : ∀ tl : ℕ, ∀ q : Fin 9 × Fin 9,
      tauG g (row * 9 + col) tl q.1 q.2 =
        if posOf q < row * 9 + col then g q.1 q.2
        else if q = t then g t.1 t.2 else tl := by
    intro tl q
    rw [tauG_at]
    by_cases h1 : posOf q < row * 9 + col
    · rw [if_pos (Nat.le_of_lt h1), if_pos h1]
    · rw [if_neg h1]
      by_cases h2 : q = t
      · rw [if_pos (show posOf q ≤ row * 9 + col by rw [h2, htpos]),
          if_pos h2, h2]
      · rw [if_neg (show ¬ posOf q ≤ row * 9 + col from fun h =>
          h2 (eq_cellAt_of_posOf hr hc (by omega))), if_neg h2]
  have hτ't : tauG (gset g row col d) (row * 9 + (col + 1)) 0 t.1 t.2 = d := by
    rw [hτ' t hem, if_neg (show ¬ posOf t < row * 9 + col by
      rw [htpos]; omega), if_pos rfl]
  have hτoldt : ∀ tl : ℕ, tauG g (row * 9 + col) tl t.1 t.2 = g t.1 t.2 := by
    intro tl
    rw [hτold tl t, if_neg (show ¬ posOf t < row * 9 + col by
      rw [htpos]; omega), if_pos rfl]
  -- either old threshold lies strictly below the new one
  have hltF : ∀ tl : ℕ, gridLtB g0 (tauG g (row * 9 + col) tl)
      (tauG (gset g row col d) (row * 9 + (col + 1)) 0) := by
    intro tl
    refine ⟨t, hem, ?_, ?_⟩
    · rw [hτoldt tl, hτ't]
      omega
    · intro x hx hxl
      rw [htpos] at hxl
      rw [hτold tl x, if_pos hxl, hτ' x hx, if_pos hxl]
  unfold After
  rw [if_neg hnr2]
  by_cases hv : g t.1 t.2 = 0
  · -- the scanned blank was fresh: the old bound was weak
    have hnr1 : ¬ isRetry g0 g row col := by
      rintro ⟨_, _, _, h4⟩
      rw [hvt] at h4
      exact h4 hv
    rw [if_neg hnr1]
    constructor
    · intro h
      exact .inl (gridLtB_of_lt_le g0 _ _ c (hltF 0) h)
    · intro hold
      rcases gridB_trichotomy g0
        (tauG (gset g row col d) (row * 9 + (col + 1)) 0) c with h | h | h
      · exact .inl h
      · exact .inr h
      · exfalso
        obtain ⟨q0, hq0em, hq0lt, hq0ag⟩ := h
        rcases Nat.lt_trichotomy (posOf q0) (row * 9 + col) with hp | hp | hp
        · -- first difference strictly before the scan: contradicts the old bound
          rw [hτ' q0 hq0em, if_pos hp] at hq0lt
          have hclt : gridLtB g0 c (tauG g (row * 9 + col) 0) := by
            refine ⟨q0, hq0em, ?_, ?_⟩
            · rw [hτold 0 q0, if_pos hp]
              exact hq0lt
            · intro x hx hxl
              have h5 := hq0ag x hx hxl
              rw [hτ' x hx, if_pos (by omega)] at h5
              rw [hτold 0 x, if_pos (by omega)]
              exact h5
          exact leB_ltB_absurd g0 _ c hold hclt
        · -- first difference at the scanned cell: below-d digits are inadmissible
          have hq0t : q0 = t := posOf_inj (hp.trans htpos.symm)
          rw [hq0t] at hq0lt hq0ag
          rw [hτ't] at hq0lt
          have hpre : ∀ x : Fin 9 × Fin 9, emAt g0 x →
              posOf x < row * 9 + col → c x.1 x.2 = g x.1 x.2 := by
            intro x hx hxl
            have h5 := hq0ag x hx (by rw [htpos]; exact hxl)
            rw [hτ' x hx, if_pos hxl] at h5
            exact h5
          have hagree2 : ∀ q : Fin 9 × Fin 9, emAt g0 q → q ≠ t →
              g q.1 q.2 ≠ 0 → g q.1 q.2 = c q.1 q.2 := by
            intro q hq hqt hqz
            have hql : posOf q < row * 9 + col := by
              rcases Nat.lt_trichotomy (posOf q) (row * 9 + col) with h | h | h
              · exact h
              · exact absurd (eq_cellAt_of_posOf hr hc h) hqt
              · exact absurd (inv.haft q hq h) hqz
            exact (hpre q hq hql).symm
          have hself : g t.1 t.2 ≠ c t.1 t.2 := by
            have h1 := (hsol.2.1 t hem).1
            omega
          have hok := sol_okDigit g0 g c hsol t hem inv.hoff hagree2 hself
          rw [show ((t.1 : ℕ)) = row from rfl,
            show ((t.2 : ℕ)) = col from rfl] at hok
          exact hdmin (c t.1 t.2) (by rw [hvt, hv]; exact (hsol.2.1 t hem).1)
            hq0lt hok
        · -- first difference beyond the scan: the new threshold is 0 there
          have hq0t : q0 ≠ t := fun hh => by rw [hh, htpos] at hp; omega
          rw [hτ' q0 hq0em, if_neg (by omega), if_neg hq0t] at hq0lt
          omega
  · -- the scanned blank held a tentative value: the old bound was strict
    have hr1 : isRetry g0 g row col := by
      refine ⟨hr, hc, (emAt_cellAt_iff g0 row col hr hc).mp hem, ?_⟩
      rw [hvt]
      exact hv
    rw [if_pos hr1]
    constructor
    · intro h
      exact gridLtB_of_lt_le g0 _ _ c (hltF 9) h
    · intro hold
      rcases gridB_trichotomy g0
        (tauG (gset g row col d) (row * 9 + (col + 1)) 0) c with h | h | h
      · exact .inl h
      · exact .inr h
      · exfalso
        obtain ⟨q0, hq0em, hq0lt, hq0ag⟩ := h
        rcases Nat.lt_trichotomy (posOf q0) (row * 9 + col) with hp | hp | hp
        · rw [hτ' q0 hq0em, if_pos hp] at hq0lt
          have hclt : gridLtB g0 c (tauG g (row * 9 + col) 9) := by
            refine ⟨q0, hq0em, ?_, ?_⟩
            · rw [hτold 9 q0, if_pos hp]
              exact hq0lt
            · intro x hx hxl
              have h5 := hq0ag x hx hxl
              rw [hτ' x hx, if_pos (by omega)] at h5
              rw [hτold 9 x, if_pos (by omega)]
              exact h5
          exact leB_ltB_absurd g0 _ c (.inl hold) hclt
        · have hq0t : q0 = t := posOf_inj (hp.trans htpos.symm)
          rw [hq0t] at hq0lt hq0ag
          rw [hτ't] at hq0lt
          have hpre : ∀ x : Fin 9 × Fin 9, emAt g0 x →
              posOf x < row * 9 + col → c x.1 x.2 = g x.1 x.2 := by
            intro x hx hxl
            have h5 := hq0ag x hx (by rw [htpos]; exact hxl)
            rw [hτ' x hx, if_pos hxl] at h5
            exact h5
          have hvlt : g t.1 t.2 < c t.1 t.2 := by
            obtain ⟨q1, hq1em, hq1lt, hq1ag⟩ := hold
            rcases Nat.lt_trichotomy (posOf q1) (row * 9 + col) with h | h | h
            · rw [hτold 9 q1, if_pos h] at hq1lt
              have h6 := hpre q1 hq1em h
              omega
            · have hq1t : q1 = t := posOf_inj (h.trans htpos.symm)
              rw [hq1t, hτoldt 9] at hq1lt
              exact hq1lt
            · have hq1t : q1 ≠ t := fun hh => by rw [hh, htpos] at h; omega
              rw [hτold 9 q1, if_neg (by omega), if_neg hq1t] at hq1lt
              have h6 := (hsol.2.1 q1 hq1em).2
              omega
          have hagree2 : ∀ q : Fin 9 × Fin 9, emAt g0 q → q ≠ t →
              g q.1 q.2 ≠ 0 → g q.1 q.2 = c q.1 q.2 := by
            intro q hq hqt hqz
            have hql : posOf q < row * 9 + col := by
              rcases Nat.lt_trichotomy (posOf q) (row * 9 + col) with h | h | h
              · exact h
              · exact absurd (eq_cellAt_of_posOf hr hc h) hqt
              · exact absurd (inv.haft q hq h) hqz
            exact (hpre q hq hql).symm
          have hself : g t.1 t.2 ≠ c t.1 t.2 := Nat.ne_of_lt hvlt
          have hok := sol_okDigit g0 g c hsol t hem inv.hoff hagree2 hself
          rw [show ((t.1 : ℕ)) = row from rfl,
            show ((t.2 : ℕ)) = col from rfl] at hok
          exact hdmin (c t.1 t.2) (by rw [hvt]; exact hvlt) hq0lt hok
        · have hq0t : q0 ≠ t := fun hh => by rw [hh, htpos] at hp; omega
          rw [hτ' q0 hq0em, if_neg (by omega), if_neg hq0t] at hq0lt
          omega

/-- Clearing the scanned blank (no digit fits) and backtracking to the
stack top leaves the remaining search space unchanged on solutions: the
strict bound at the reopened cell covers exactly the prefixes ruled out by
`next_digit`'s failure. -/
lemma After_pop (g0 g : Grid) (pr pc : ℕ) (rest : List (ℕ × ℕ)) (row col : ℕ)
    (inv : BFInv g0 g ((pr, pc) :: rest) row col) (hr : row < 9) (hc : col < 9)
    (hem : emAt g0 (cellAt row col hr hc))
    (hnd : next_digit g row col = none)
    (c : Grid) (hsol : Sol g0 c) :
    After g0 (gset g row col 0) pr pc c ↔ After g0 g row col c := by
  obtain ⟨P, hPc, hPem, hPlt⟩ := inv.hstk (pr, pc) (List.mem_cons_self _ _)
  have hpr : (P.1 : ℕ) = pr := congrArg Prod.fst hPc
  have hpc : (P.2 : ℕ) = pc := congrArg Prod.snd hPc
  have hppos : posOf P = pr * 9 + pc := by unfold posOf; rw [hpr, hpc]
  have hplt' : pr * 9 + pc < row * 9 + col := by rw [← hppos]; exact hPlt
  have hrest : ∀ e ∈ rest, e.1 * 9 + e.2 < pr * 9 + pc :=
    (List.pairwise_cons.mp inv.hsort).1
  have hnob : ∀ q : Fin 9 × Fin 9, emAt g0 q → pr * 9 + pc < posOf q →
      posOf q < row * 9 + col → False := by
    intro q hq h1 h2
    rcases List.mem_cons.mp (inv.hcomp q hq h2) with he | he
    · have h3 : posOf q = pr * 9 + pc := by
        obtain ⟨ha, hb⟩ := Prod.mk.inj he
        unfold posOf
        omega
      omega
    · have h3 : (q.1 : ℕ) * 9 + (q.2 : ℕ) < pr * 9 + pc := hrest _ he
      unfold posOf at h1
      omega
  set t := cellAt row col hr hc with htdef
  have htpos : posOf t = row * 9 + col := posOf_cellAt row col hr hc
  have hvt : gget g row col = g t.1 t.2 := gget_cellAt g row col hr hc
  have hnd9 := next_digit_none g row col hnd
  have hget : ∀ q : Fin 9 × Fin 9, gset g row col 0 q.1 q.2 =
      if q = t then 0 else g q.1 q.2 := gset_fin g t 0
  have hpr9 : pr < 9 := by have := P.1.isLt; omega
  have hpc9 : pc < 9 := by have := P.2.isLt; omega
  have hQ : P = cellAt pr pc hpr9 hpc9 := eq_cellAt_of_posOf hpr9 hpc9 hppos
  have hgP : 1 ≤ g P.1 P.2 := inv.hbef P hPem hPlt
  -- the reopened cell makes the new state a retry position
  have hr2 : isRetry g0 (gset g row col 0) pr pc := by
    refine ⟨hpr9, hpc9, ?_, ?_⟩
    · rw [gget_cellAt g0 pr pc hpr9 hpc9, ← hQ]
      exact hPem
    · rw [gget_cellAt (gset g row col 0) pr pc hpr9 hpc9,
        hget (cellAt pr pc hpr9 hpc9),
        if_neg (show cellAt pr pc hpr9 hpc9 ≠ t from fun h => by
          have h5 := congrArg posOf h
          rw [posOf_cellAt, htpos] at h5
          omega), ← hQ]
      omega
  -- value of the new threshold at each cell
  have hτN : ∀ q : Fin 9 × Fin 9,
      tauG (gset g row col 0) (pr * 9 + pc) 9 q.1 q.2 =
        if posOf q ≤ pr * 9 + pc then g q.1 q.2 else 9 := by
    intro q
    rw [tauG_at]
    by_cases h1 : posOf q ≤ pr * 9 + pc
    · rw [if_pos h1, if_pos h1, hget q,
        if_neg (fun hh : q = t => by rw [hh, htpos] at h1; omega)]
    · rw [if_neg h1, if_neg h1]
  -- value of either old threshold at each cell
  have hτold : ∀ tl : ℕ, ∀ q : Fin 9 × Fin 9,
      tauG g (row * 9 + col) tl q.1 q.2 =
        if posOf q < row * 9 + col then g q.1 q.2
        else if q = t then g t.1 t.2 else tl := by
    intro tl q
    rw [tauG_at]
    by_cases h1 : posOf q < row * 9 + col
    · rw [if_pos (Nat.le_of_lt h1), if_pos h1]
    · rw [if_neg h1]
      by_cases h2 : q = t
      · rw [if_pos (show posOf q ≤ row * 9 + col by rw [h2, htpos]),
          if_pos h2, h2]
      · rw [if_neg (show ¬ posOf q ≤ row * 9 + col from fun h =>
          h2 (eq_cellAt_of_posOf hr hc (by omega))), if_neg h2]
  have hτoldt : ∀ tl : ℕ, tauG g (row * 9 + col) tl t.1 t.2 = g t.1 t.2 := by
    intro tl
    rw [hτold tl t, if_neg (show ¬ posOf t < row * 9 + col by
      rw [htpos]; omega), if_pos rfl]
  unfold After
  rw [if_pos hr2]
  by_cases hv : g t.1 t.2 = 0
  · -- the abandoned blank was fresh: the old weak bound sits strictly
    -- below the new strict bound
    have hnr1 : ¬ isRetry g0 g row col := by
      rintro ⟨_, _, _, h4⟩
      rw [hvt] at h4
      exact h4 hv
    rw [if_neg hnr1]
    have hltFN : gridLtB g0 (tauG g (row * 9 + col) 0)
        (tauG (gset g row col 0) (pr * 9 + pc) 9) := by
      refine ⟨t, hem, ?_, ?_⟩
      · rw [hτoldt 0, hτN t,
          if_neg (show ¬ posOf t ≤ pr * 9 + pc by rw [htpos]; omega), hv]
        omega
      · intro x hx hxl
        rw [htpos] at hxl
        have hxle : posOf x ≤ pr * 9 + pc := by
          by_contra hgt
          exact hnob x hx (by omega) hxl
        rw [hτold 0 x, if_pos hxl, hτN x, if_pos hxle]
    constructor
    · intro h
      exact .inl (gridLtB_trans g0 _ _ c hltFN h)
    · intro hold
      rcases gridB_trichotomy g0
        (tauG (gset g row col 0) (pr * 9 + pc) 9) c with h | h | h
      · exact h
      · exfalso
        have hpre : ∀ x : Fin 9 × Fin 9, emAt g0 x →
            posOf x < row * 9 + col → c x.1 x.2 = g x.1 x.2 := by
          intro x hx hxl
          have hxle : posOf x ≤ pr * 9 + pc := by
            by_contra hgt
            exact hnob x hx (by omega) hxl
          have h5 := (h x hx).symm
          rw [hτN x, if_pos hxle] at h5
          exact h5
        have hagree2 : ∀ q : Fin 9 × Fin 9, emAt g0 q → q ≠ t →
            g q.1 q.2 ≠ 0 → g q.1 q.2 = c q.1 q.2 := by
          intro q hq hqt hqz
          have hql : posOf q < row * 9 + col := by
            rcases Nat.lt_trichotomy (posOf q) (row * 9 + col) with h6 | h6 | h6
            · exact h6
            · exact absurd (eq_cellAt_of_posOf hr hc h6) hqt
            · exact absurd (inv.haft q hq h6) hqz
          exact (hpre q hq hql).symm
        have hself : g t.1 t.2 ≠ c t.1 t.2 := by
          have h1 := (hsol.2.1 t hem).1
          omega
        have hok := sol_okDigit g0 g c hsol t hem inv.hoff hagree2 hself
        rw [show ((t.1 : ℕ)) = row from rfl,
          show ((t.2 : ℕ)) = col from rfl] at hok
        exact hnd9 (c t.1 t.2) (by rw [hvt, hv]; exact (hsol.2.1 t hem).1)
          ((hsol.2.1 t hem).2) hok
      · exfalso
        obtain ⟨q0, hq0em, hq0lt, hq0ag⟩ := h
        by_cases hp : posOf q0 ≤ pr * 9 + pc
        · -- first difference at or before the reopened cell:
          -- contradicts the old bound
          rw [hτN q0, if_pos hp] at hq0lt
          have hclt : gridLtB g0 c (tauG g (row * 9 + col) 0) := by
            refine ⟨q0, hq0em, ?_, ?_⟩
            · rw [hτold 0 q0, if_pos (by omega)]
              exact hq0lt
            · intro x hx hxl
              have h5 := hq0ag x hx hxl
              rw [hτN x, if_pos (by omega)] at h5
              rw [hτold 0 x, if_pos (by omega)]
              exact h5
          exact leB_ltB_absurd g0 _ c hold hclt
        · -- first difference beyond: the whole prefix agrees, so the
          -- solution's digit at the blank contradicts next_digit's failure
          have hpre : ∀ x : Fin 9 × Fin 9, emAt g0 x →
              posOf x < row * 9 + col → c x.1 x.2 = g x.1 x.2 := by
            intro x hx hxl
            have hxle : posOf x ≤ pr * 9 + pc := by
              by_contra hgt
              exact hnob x hx (by omega) hxl
            have h5 := hq0ag x hx (by omega)
            rw [hτN x, if_pos hxle] at h5
            exact h5
          have hagree2 : ∀ q : Fin 9 × Fin 9, emAt g0 q → q ≠ t →
              g q.1 q.2 ≠ 0 → g q.1 q.2 = c q.1 q.2 := by
            intro q hq hqt hqz
            have hql : posOf q < row * 9 + col := by
              rcases Nat.lt_trichotomy (posOf q) (row * 9 + col) with h6 | h6 | h6
              · exact h6
              · exact absurd (eq_cellAt_of_posOf hr hc h6) hqt
              · exact absurd (inv.haft q hq h6) hqz
            exact (hpre q hq hql).symm
          have hself : g t.1 t.2 ≠ c t.1 t.2 := by
            have h1 := (hsol.2.1 t hem).1
            omega
          have hok := sol_okDigit g0 g c hsol t hem inv.hoff hagree2 hself
          rw [show ((t.1 : ℕ)) = row from rfl,
            show ((t.2 : ℕ)) = col from rfl] at hok
          exact hnd9 (c t.1 t.2) (by rw [hvt, hv]; exact (hsol.2.1 t hem).1)
            ((hsol.2.1 t hem).2) hok
  · -- the abandoned blank held a tentative value: the old strict bound
    -- sits weakly below the new strict bound
    have hr1 : isRetry g0 g row col :=
      ⟨hr, hc, (emAt_cellAt_iff g0 row col hr hc).mp hem, by rw [hvt]; exact hv⟩
    rw [if_pos hr1]
    have hleRN : gridLeB g0 (tauG g (row * 9 + col) 9)
        (tauG (gset g row col 0) (pr * 9 + pc) 9) := by
      by_cases hv9 : g t.1 t.2 = 9
      · refine .inr ?_
        intro x hx
        rw [hτold 9 x, hτN x]
        rcases Nat.lt_trichotomy (posOf x) (row * 9 + col) with h | h | h
        · have hxle : posOf x ≤ pr * 9 + pc := by
            by_contra hgt
            exact hnob x hx (by omega) h
          rw [if_pos h, if_pos hxle]
        · have hxt : x = t := posOf_inj (h.trans htpos.symm)
          rw [if_neg (by omega), if_pos hxt,
            if_neg (show ¬ posOf x ≤ pr * 9 + pc by omega), hv9]
        · have hxt : x ≠ t := fun hh => by rw [hh, htpos] at h; omega
          rw [if_neg (by omega), if_neg hxt,
            if_neg (show ¬ posOf x ≤ pr * 9 + pc by omega)]
      · refine .inl ⟨t, hem, ?_, ?_⟩
        · rw [hτoldt 9, hτN t,
            if_neg (show ¬ posOf t ≤ pr * 9 + pc by rw [htpos]; omega)]
          have := inv.hle9 t
          omega
        · intro x hx hxl
          rw [htpos] at hxl
          have hxle : posOf x ≤ pr * 9 + pc := by
            by_contra hgt
            exact hnob x hx (by omega) hxl
          rw [hτold 9 x, if_pos hxl, hτN x, if_pos hxle]
    constructor
    · intro h
      exact gridLtB_of_le_lt g0 _ _ c hleRN h
    · intro hold
      rcases gridB_trichotomy g0
        (tauG (gset g row col 0) (pr * 9 + pc) 9) c with h | h | h
      · exact h
      · exfalso
        have hpre : ∀ x : Fin 9 × Fin 9, emAt g0 x →
            posOf x < row * 9 + col → c x.1 x.2 = g x.1 x.2 := by
          intro x hx hxl
          have hxle : posOf x ≤ pr * 9 + pc := by
            by_contra hgt
            exact hnob x hx (by omega) hxl
          have h5 := (h x hx).symm
          rw [hτN x, if_pos hxle] at h5
          exact h5
        have hvlt : g t.1 t.2 < c t.1 t.2 := by
          obtain ⟨q1, hq1em, hq1lt, hq1ag⟩ := hold
          rcases Nat.lt_trichotomy (posOf q1) (row * 9 + col) with h6 | h6 | h6
          · rw [hτold 9 q1, if_pos h6] at hq1lt
            have h7 := hpre q1 hq1em h6
            omega
          · have hq1t : q1 = t := posOf_inj (h6.trans htpos.symm)
            rw [hq1t, hτoldt 9] at hq1lt
            exact hq1lt
          · have hq1t : q1 ≠ t := fun hh => by rw [hh, htpos] at h6; omega
            rw [hτold 9 q1, if_neg (by omega), if_neg hq1t] at hq1lt
            have h7 := (hsol.2.1 q1 hq1em).2
            omega
        have hagree2 : ∀ q : Fin 9 × Fin 9, emAt g0 q → q ≠ t →
            g q.1 q.2 ≠ 0 → g q.1 q.2 = c q.1 q.2 := by
          intro q hq hqt hqz
          have hql : posOf q < row * 9 + col := by
            rcases Nat.lt_trichotomy (posOf q) (row * 9 + col) with h6 | h6 | h6
            · exact h6
            · exact absurd (eq_cellAt_of_posOf hr hc h6) hqt
            · exact absurd (inv.haft q hq h6) hqz
          exact (hpre q hq hql).symm
        have hself : g t.1 t.2 ≠ c t.1 t.2 := Nat.ne_of_lt hvlt
        have hok := sol_okDigit g0 g c hsol t hem inv.hoff hagree2 hself
        rw [show ((t.1 : ℕ)) = row from rfl,
          show ((t.2 : ℕ)) = col from rfl] at hok
        exact hnd9 (c t.1 t.2) (by rw [hvt]; exact hvlt)
          ((hsol.2.1 t hem).2) hok
      · exfalso
        obtain ⟨q0, hq0em, hq0lt, hq0ag⟩ := h
        by_cases hp : posOf q0 ≤ pr * 9 + pc
        · rw [hτN q0, if_pos hp] at hq0lt
          have hclt : gridLtB g0 c (tauG g (row * 9 + col) 9) := by
            refine ⟨q0, hq0em, ?_, ?_⟩
            · rw [hτold 9 q0, if_pos (by omega)]
              exact hq0lt
            · intro x hx hxl
              have h5 := hq0ag x hx hxl
              rw [hτN x, if_pos (by omega)] at h5
              rw [hτold 9 x, if_pos (by omega)]
              exact h5
          exact leB_ltB_absurd g0 _ c (.inl hold) hclt
        · have hpre : ∀ x : Fin 9 × Fin 9, emAt g0 x →
              posOf x < row * 9 + col → c x.1 x.2 = g x.1 x.2 := by
            intro x hx hxl
            have hxle : posOf x ≤ pr * 9 + pc := by
              by_contra hgt
              exact hnob x hx (by omega) hxl
            have h5 := hq0ag x hx (by omega)
            rw [hτN x, if_pos hxle] at h5
            exact h5
          have hvlt : g t.1 t.2 < c t.1 t.2 := by
            obtain ⟨q1, hq1em, hq1lt, hq1ag⟩ := hold
            rcases Nat.lt_trichotomy (posOf q1) (row * 9 + col) with h6 | h6 | h6
            · rw [hτold 9 q1, if_pos h6] at hq1lt
              have h7 := hpre q1 hq1em h6
              omega
            · have hq1t : q1 = t := posOf_inj (h6.trans htpos.symm)
              rw [hq1t, hτoldt 9] at hq1lt
              exact hq1lt
            · have hq1t : q1 ≠ t := fun hh => by rw [hh, htpos] at h6; omega
              rw [hτold 9 q1, if_neg (by omega), if_neg hq1t] at hq1lt
              have h7 := (hsol.2.1 q1 hq1em).2
              omega
          have hagree2 : ∀ q : Fin 9 × Fin 9, emAt g0 q → q ≠ t →
              g q.1 q.2 ≠ 0 → g q.1 q.2 = c q.1 q.2 := by
            intro q hq hqt hqz
            have hql : posOf q < row * 9 + col := by
              rcases Nat.lt_trichotomy (posOf q) (row * 9 + col) with h6 | h6 | h6
              · exact h6
              · exact absurd (eq_cellAt_of_posOf hr hc h6) hqt
              · exact absurd (inv.haft q hq h6) hqz
            exact (hpre q hq hql).symm
          have hself : g t.1 t.2 ≠ c t.1 t.2 := Nat.ne_of_lt hvlt
          have hok := sol_okDigit g0 g c hsol t hem inv.hoff hagree2 hself
          rw [show ((t.1 : ℕ)) = row from rfl,
            show ((t.2 : ℕ)) = col from rfl] at hok
          exact hnd9 (c t.1 t.2) (by rw [hvt]; exact hvlt)
            ((hsol.2.1 t hem).2) hok

/-! ### Configurations between calls to `brute_force` -/

lemma posOf_le_80 (p : Fin 9 × Fin 9) : posOf p ≤ 80 := by
  unfold posOf
  have := p.1.isLt
  have := p.2.isLt
  omega

/-- A stack/grid configuration handed to `brute_force`: either empty, or
its top names a scan position whose popped state is well-formed. -/
def Ready (g0 g : Grid) (stack : List (ℕ × ℕ)) : Prop :=
  match stack with
  | [] => True
  | e :: rest => BFInv g0 g rest e.1 e.2

/-- The search space a `brute_force` call on this configuration still has
in front of it: empty for an empty stack, otherwise the space of the
popped scan state. -/
def AfterCall (g0 g : Grid) (stack : List (ℕ × ℕ)) (c : Grid) : Prop :=
  match stack with
  | [] => False
  | e :: _ => After g0 g e.1 e.2 c

/-- What a finished `bfLoop` run from a scan state means: on success the
returned grid is a solution, the returned configuration is again ready,
the state's search space splits into that solution plus the returned
configuration's space, and that residual space lies strictly above the
solution; on failure the state's search space held no solution and the
returned stack is empty. -/
def SpecRes (g0 g : Grid) (row col : ℕ)
    (res : Bool × Grid × List (ℕ × ℕ)) : Prop :=
  (res.1 = true → Sol g0 res.2.1 ∧ Ready g0 res.2.1 res.2.2 ∧
    (∀ c : Grid, Sol g0 c → (After g0 g row col c ↔
      (gridEqB g0 res.2.1 c ∨ AfterCall g0 res.2.1 res.2.2 c))) ∧
    (∀ c : Grid, Sol g0 c → AfterCall g0 res.2.1 res.2.2 c →
      gridLtB g0 res.2.1 c)) ∧
  (res.1 = false → res.2.2 = [] ∧
    ∀ c : Grid, Sol g0 c → ¬ After g0 g row col c)

lemma SpecRes_transport (g0 g g2 : Grid) (row col row2 col2 : ℕ)
    (res : Bool × Grid × List (ℕ × ℕ))
    (hiff : ∀ c : Grid, Sol g0 c →
      (After g0 g2 row2 col2 c ↔ After g0 g row col c))
    (h : SpecRes g0 g2 row2 col2 res) : SpecRes g0 g row col res := by
  obtain ⟨hs, hf⟩ := h
  constructor
  · intro ht
    obtain ⟨h1, h2, h3, h4⟩ := hs ht
    exact ⟨h1, h2, fun c hc => ((hiff c hc).symm.trans (h3 c hc)), h4⟩
  · intro hf'
    obtain ⟨h1, h2⟩ := hf hf'
    exact ⟨h1, fun c hc ha => h2 c hc ((hiff c hc).mpr ha)⟩

/-- After placing the scanned digit, standing on the same cell (the
post-success resume state) is again well-formed. -/
lemma BFInv_stand (g0 g : Grid) (stack : List (ℕ × ℕ)) (row col : ℕ)
    (inv : BFInv g0 g stack row col) (hr : row < 9) (hc : col < 9)
    (hem : emAt g0 (cellAt row col hr hc)) (d : ℕ)
    (hnd : next_digit g row col = some d) :
    BFInv g0 (gset g row col d) stack row col := by
  set t := cellAt row col hr hc with htdef
  have htpos : posOf t = row * 9 + col := posOf_cellAt row col hr hc
  have hvle : gget g row col ≤ 9 := by
    rw [gget_cellAt g row col hr hc]
    exact inv.hle9 t
  obtain ⟨hdlt, hd9, hdok, hdmin⟩ := next_digit_some g row col d hvle hnd
  have hget : ∀ q : Fin 9 × Fin 9, gset g row col d q.1 q.2 =
      if q = t then d else g q.1 q.2 := gset_fin g t d
  refine ⟨inv.hpos, inv.hcol, ?_, ?_, ?_, ?_, ?_, inv.hstk, inv.hsort,
    inv.hcomp, ?_⟩
  · intro p hp
    rw [hget p, if_neg (fun h : p = t => hp (by rw [h]; exact hem))]
    exact inv.hoff p hp
  · intro p
    rw [hget p]
    split
    · omega
    · exact inv.hle9 p
  · intro p hp hl
    have hpt : p ≠ t := fun h => by rw [h, htpos] at hl; omega
    rw [hget p, if_neg hpt]
    exact inv.hbef p hp hl
  · intro p hp hl
    have hpt : p ≠ t := fun h => by rw [h, htpos] at hl; omega
    rw [hget p, if_neg hpt]
    exact inv.haft p hp hl
  · intro h9
    exact absurd h9 (by omega)
  · have hunit := (okDigit_iff g t d).mp (by
      rw [show ((t.1 : ℕ)) = row from rfl, show ((t.2 : ℕ)) = col from rfl]
      exact hdok)
    intro p q hpq hu hp hpz hqz
    rw [hget p] at hpz ⊢
    rw [hget q] at hqz ⊢
    by_cases hpt : p = t
    · rw [if_pos hpt] at hpz ⊢
      rw [if_neg (fun h : q = t => hpq (hpt.trans h.symm))] at hqz ⊢
      subst hpt
      exact fun h => hunit q hu h.symm
    · rw [if_neg hpt] at hpz ⊢
      by_cases hqt : q = t
      · rw [if_pos hqt] at hqz ⊢
        subst hqt
        exact fun h => hunit p (inUnitP_symm hu) h
      · rw [if_neg hqt] at hqz ⊢
        exact inv.hrel p q hpq hu hp hpz hqz

/-- When the scan sits at cell 80 on a non-blank cell, popping the stack
top (without touching the grid) gives a well-formed state: no blank lies
strictly beyond the top's position. -/
lemma BFInv_standPop (g0 g : Grid) (pr pc : ℕ) (rest : List (ℕ × ℕ))
    (inv : BFInv g0 g ((pr, pc) :: rest) 8 8)
    (hnb : ¬ emAt g0 (cellAt 8 8 (by omega) (by omega))) :
    BFInv g0 g rest pr pc := by
  obtain ⟨P, hPc, hPem, hPlt⟩ := inv.hstk (pr, pc) (List.mem_cons_self _ _)
  have hpr : (P.1 : ℕ) = pr := congrArg Prod.fst hPc
  have hpc : (P.2 : ℕ) = pc := congrArg Prod.snd hPc
  have hppos : posOf P = pr * 9 + pc := by unfold posOf; rw [hpr, hpc]
  have hplt' : pr * 9 + pc < 8 * 9 + 8 := by rw [← hppos]; exact hPlt
  have hrest : ∀ e ∈ rest, e.1 * 9 + e.2 < pr * 9 + pc :=
    (List.pairwise_cons.mp inv.hsort).1
  have hnob : ∀ q : Fin 9 × Fin 9, emAt g0 q → pr * 9 + pc < posOf q →
      posOf q < 8 * 9 + 8 → False := by
    intro q hq h1 h2
    rcases List.mem_cons.mp (inv.hcomp q hq h2) with he | he
    · have h3 : posOf q = pr * 9 + pc := by
        obtain ⟨ha, hb⟩ := Prod.mk.inj he
        unfold posOf
        omega
      omega
    · have h3 : (q.1 : ℕ) * 9 + (q.2 : ℕ) < pr * 9 + pc := hrest _ he
      unfold posOf at h1
      omega
  have hpr9 : pr < 9 := by have := P.1.isLt; omega
  have hpc9 : pc < 9 := by have := P.2.isLt; omega
  refine ⟨by omega, by omega, inv.hoff, inv.hle9, ?_, ?_, ?_, ?_,
    (List.pairwise_cons.mp inv.hsort).2, ?_, inv.hrel⟩
  · intro p hp hl
    exact inv.hbef p hp (by omega)
  · intro p hp hl
    rcases Nat.lt_trichotomy (posOf p) (8 * 9 + 8) with h | h | h
    · exact absurd (hnob p hp hl h) (fun f => f)
    · exact absurd (eq_cellAt_of_posOf (by omega) (by omega) h ▸ hp)
        hnb
    · exact absurd (posOf_le_80 p) (by omega)
  · exact fun h9 => absurd h9 (by omega)
  · intro e he
    obtain ⟨q, h1, h2, h3⟩ := inv.hstk e (List.mem_cons_of_mem _ he)
    refine ⟨q, h1, h2, ?_⟩
    have h4 : (q.1 : ℕ) * 9 + (q.2 : ℕ) < pr * 9 + pc := by
      have := hrest e he
      rw [← h1] at this
      exact this
    unfold posOf
    omega
  · intro q hq hl
    rcases List.mem_cons.mp (inv.hcomp q hq (by omega)) with he | he
    · exfalso
      have h3 : posOf q = pr * 9 + pc := by
        obtain ⟨ha, hb⟩ := Prod.mk.inj he
        unfold posOf
        omega
      omega
    · exact he

/-- A scanned blank that no digit fits, with an empty stack: the state's
entire search space holds no solution. -/
lemma After_deadend (g0 g : Grid) (row col : ℕ)
    (inv : BFInv g0 g [] row col) (hr : row < 9) (hc : col < 9)
    (hem : emAt g0 (cellAt row col hr hc))
    (hnd : next_digit g row col = none)
    (c : Grid) (hsol : Sol g0 c) : ¬ After g0 g row col c := by
  set t := cellAt row col hr hc with htdef
  have htpos : posOf t = row * 9 + col := posOf_cellAt row col hr hc
  have hvt : gget g row col = g t.1 t.2 := gget_cellAt g row col hr hc
  have hnd9 := next_digit_none g row col hnd
  have hpre : ∀ x : Fin 9 × Fin 9, emAt g0 x → posOf x < row * 9 + col →
      c x.1 x.2 = g x.1 x.2 := by
    intro x hx hxl
    exact absurd (inv.hcomp x hx hxl) (List.not_mem_nil _)
  have hagree2 : ∀ q : Fin 9 × Fin 9, emAt g0 q → q ≠ t →
      g q.1 q.2 ≠ 0 → g q.1 q.2 = c q.1 q.2 := by
    intro q hq hqt hqz
    have hql : posOf q < row * 9 + col := by
      rcases Nat.lt_trichotomy (posOf q) (row * 9 + col) with h6 | h6 | h6
      · exact h6
      · exact absurd (eq_cellAt_of_posOf hr hc h6) hqt
      · exact absurd (inv.haft q hq h6) hqz
    exact (hpre q hq hql).symm
  intro hold
  unfold After at hold
  by_cases hv : g t.1 t.2 = 0
  · have hself : g t.1 t.2 ≠ c t.1 t.2 := by
      have h1 := (hsol.2.1 t hem).1
      omega
    have hok := sol_okDigit g0 g c hsol t hem inv.hoff hagree2 hself
    rw [show ((t.1 : ℕ)) = row from rfl,
      show ((t.2 : ℕ)) = col from rfl] at hok
    exact hnd9 (c t.1 t.2) (by rw [hvt, hv]; exact (hsol.2.1 t hem).1)
      ((hsol.2.1 t hem).2) hok
  · have hr1 : isRetry g0 g row col :=
      ⟨hr, hc, (emAt_cellAt_iff g0 row col hr hc).mp hem, by rw [hvt]; exact hv⟩
    rw [if_pos hr1] at hold
    obtain ⟨q1, hq1em, hq1lt, hq1ag⟩ := hold
    have hvlt : g t.1 t.2 < c t.1 t.2 := by
      rcases Nat.lt_trichotomy (posOf q1) (row * 9 + col) with h6 | h6 | h6
      · rw [tauG_at, if_pos (Nat.le_of_lt h6)] at hq1lt
        have h7 := hpre q1 hq1em h6
        omega
      · have hq1t : q1 = t := posOf_inj (h6.trans htpos.symm)
        rw [hq1t, tauG_at,
          if_pos (show posOf t ≤ row * 9 + col by rw [htpos])] at hq1lt
        exact hq1lt
      · rw [tauG_at, if_neg (by omega)] at hq1lt
        have h7 := (hsol.2.1 q1 hq1em).2
        omega
    have hself : g t.1 t.2 ≠ c t.1 t.2 := Nat.ne_of_lt hvlt
    have hok := sol_okDigit g0 g c hsol t hem inv.hoff hagree2 hself
    rw [show ((t.1 : ℕ)) = row from rfl,
      show ((t.2 : ℕ)) = col from rfl] at hok
    exact hnd9 (c t.1 t.2) (by rw [hvt]; exact hvlt)
      ((hsol.2.1 t hem).2) hok

/-- A completely nonzero grid extending the givens, blank-bounded and
clash-free from the blanks' side, is a relative solution. -/
lemma sol_of_full (g0 g2 : Grid)
    (hoff : ∀ p : Fin 9 × Fin 9, ¬ emAt g0 p → g2 p.1 p.2 = g0 p.1 p.2)
    (hle9 : ∀ p : Fin 9 × Fin 9, g2 p.1 p.2 ≤ 9)
    (hfill : ∀ p : Fin 9 × Fin 9, emAt g0 p → 1 ≤ g2 p.1 p.2)
    (hrel : ∀ p q : Fin 9 × Fin 9, p ≠ q → inUnitP p q → emAt g0 p →
      g2 p.1 p.2 ≠ 0 → g2 q.1 q.2 ≠ 0 → g2 p.1 p.2 ≠ g2 q.1 q.2) :
    Sol g0 g2 := by
  have hnz : ∀ p : Fin 9 × Fin 9, g2 p.1 p.2 ≠ 0 := by
    intro p
    by_cases hp : emAt g0 p
    · have := hfill p hp
      omega
    · rw [hoff p hp]
      exact hp
  refine ⟨hoff, fun p hp => ⟨hfill p hp, hle9 p⟩, ?_⟩
  intro p q hpq hu hem
  rcases hem with hem | hem
  · exact hrel p q hpq hu hem (hnz p) (hnz q)
  · exact fun h =>
      hrel q p (Ne.symm hpq) (inUnitP_symm hu) hem (hnz q) (hnz p) h.symm

/-- Success by placing a digit at cell 80: the grid with that digit is a
solution, the stack gains `(8,8)` so the next call resumes standing on it,
and the state's space splits as that solution plus everything strictly
above it. -/
lemma success_place (g0 g : Grid) (stack : List (ℕ × ℕ))
    (inv : BFInv g0 g stack 8 8) (hr : (8 : ℕ) < 9) (hc : (8 : ℕ) < 9)
    (hem : emAt g0 (cellAt 8 8 hr hc)) (d : ℕ)
    (hnd : next_digit g 8 8 = some d) :
    SpecRes g0 g 8 8 (true, gset g 8 8 d, (8, 8) :: stack) := by
  set t := cellAt 8 8 hr hc with htdef
  have htpos : posOf t = 8 * 9 + 8 := posOf_cellAt 8 8 hr hc
  have hvle : gget g 8 8 ≤ 9 := by
    rw [gget_cellAt g 8 8 hr hc]
    exact inv.hle9 t
  obtain ⟨hdlt, hd9, hdok, hdmin⟩ := next_digit_some g 8 8 d hvle hnd
  have hget : ∀ q : Fin 9 × Fin 9, gset g 8 8 d q.1 q.2 =
      if q = t then d else g q.1 q.2 := gset_fin g t d
  have hinv2 : BFInv g0 (gset g 8 8 d) stack 8 8 :=
    BFInv_stand g0 g stack 8 8 inv hr hc hem d hnd
  have hfill : ∀ p : Fin 9 × Fin 9, emAt g0 p → 1 ≤ gset g 8 8 d p.1 p.2 := by
    intro p hp
    rw [hget p]
    by_cases hpt : p = t
    · rw [if_pos hpt]
      omega
    · rw [if_neg hpt]
      have hlt : posOf p < 8 * 9 + 8 := by
        have := posOf_le_80 p
        rcases Nat.lt_or_ge (posOf p) (8 * 9 + 8) with h | h
        · exact h
        · have hpe : posOf p = 8 * 9 + 8 := by omega
          exact absurd (eq_cellAt_of_posOf hr hc hpe) hpt
      exact inv.hbef p hp hlt
  have hsol2 : Sol g0 (gset g 8 8 d) :=
    sol_of_full g0 _ hinv2.hoff hinv2.hle9 hfill hinv2.hrel
  have hretry2 : isRetry g0 (gset g 8 8 d) 8 8 := by
    refine ⟨hr, hc, (emAt_cellAt_iff g0 8 8 hr hc).mp hem, ?_⟩
    rw [gget_cellAt (gset g 8 8 d) 8 8 hr hc, hget (cellAt 8 8 hr hc),
      if_pos htdef.symm]
    omega
  have hc91 : ∀ x : Fin 9 × Fin 9, emAt g0 x →
      tauG (gset g 8 8 d) (8 * 9 + (8 + 1)) 0 x.1 x.2 =
        gset g 8 8 d x.1 x.2 := by
    intro x hx
    rw [tauG_at, if_pos (by have := posOf_le_80 x; omega)]
  have hc92 : ∀ x : Fin 9 × Fin 9, emAt g0 x →
      tauG (gset g 8 8 d) (8 * 9 + 8) 9 x.1 x.2 = gset g 8 8 d x.1 x.2 := by
    intro x hx
    rw [tauG_at, if_pos (by have := posOf_le_80 x; omega)]
  have hnr9 : ¬ isRetry g0 (gset g 8 8 d) 8 (8 + 1) := by
    rintro ⟨_, h9, _⟩
    omega
  constructor
  · intro _
    refine ⟨hsol2, hinv2, ?_, ?_⟩
    · intro c hsol
      show After g0 g 8 8 c ↔
        (gridEqB g0 (gset g 8 8 d) c ∨ After g0 (gset g 8 8 d) 8 8 c)
      rw [← After_place g0 g stack 8 8 inv hr hc hem d hnd c hsol]
      unfold After
      rw [if_neg hnr9, if_pos hretry2,
        gridLeB_congr_left g0 _ (gset g 8 8 d) c hc91,
        gridLtB_congr_left g0 _ (gset g 8 8 d) c hc92]
      unfold gridLeB
      constructor
      · rintro (h | h)
        · exact .inr h
        · exact .inl h
      · rintro (h | h)
        · exact .inr h
        · exact .inl h
    · intro c hsol hac
      have hac' : After g0 (gset g 8 8 d) 8 8 c := hac
      unfold After at hac'
      rw [if_pos hretry2,
        gridLtB_congr_left g0 _ (gset g 8 8 d) c hc92] at hac'
      exact hac'
  · intro hfalse
    exact Bool.noConfusion hfalse

/-- Success at a given cell 80: the current grid is already a solution,
the stack is unchanged so the next call pops the last placed blank, and
the state's space splits as this solution plus everything strictly above
it. -/
lemma success_skip (g0 g : Grid) (stack : List (ℕ × ℕ))
    (inv : BFInv g0 g stack 8 8) (hr : (8 : ℕ) < 9) (hc : (8 : ℕ) < 9)
    (hnb : ¬ emAt g0 (cellAt 8 8 hr hc)) :
    SpecRes g0 g 8 8 (true, g, stack) := by
  have hnr1 : ¬ isRetry g0 g 8 8 := by
    rintro ⟨_, _, h0, _⟩
    exact hnb ((emAt_cellAt_iff g0 8 8 hr hc).mpr h0)
  have hτg : ∀ x : Fin 9 × Fin 9, emAt g0 x →
      tauG g (8 * 9 + 8) 0 x.1 x.2 = g x.1 x.2 := by
    intro x hx
    rw [tauG_at, if_pos (by have := posOf_le_80 x; omega)]
  have hfill : ∀ p : Fin 9 × Fin 9, emAt g0 p → 1 ≤ g p.1 p.2 := by
    intro p hp
    have hlt : posOf p < 8 * 9 + 8 := by
      have := posOf_le_80 p
      rcases Nat.lt_or_ge (posOf p) (8 * 9 + 8) with h | h
      · exact h
      · have hpe : posOf p = 8 * 9 + 8 := by omega
        exact absurd (eq_cellAt_of_posOf hr hc hpe ▸ hp) hnb
    exact inv.hbef p hp hlt
  have hsol1 : Sol g0 g := sol_of_full g0 g inv.hoff inv.hle9 hfill inv.hrel
  have hAfter : ∀ c : Grid, After g0 g 8 8 c ↔ gridLeB g0 g c := by
    intro c
    unfold After
    rw [if_neg hnr1, gridLeB_congr_left g0 _ g c hτg]
  cases stack with
  | nil =>
    have hnoblank : ∀ p : Fin 9 × Fin 9, ¬ emAt g0 p := by
      intro p hp
      have h80 := posOf_le_80 p
      rcases Nat.lt_or_ge (posOf p) (8 * 9 + 8) with h | h
      · exact absurd (inv.hcomp p hp h) (List.not_mem_nil _)
      · have hpe : posOf p = 8 * 9 + 8 := by omega
        exact hnb (eq_cellAt_of_posOf hr hc hpe ▸ hp)
    constructor
    · intro _
      refine ⟨hsol1, trivial, ?_, ?_⟩
      · intro c hsol
        show After g0 g 8 8 c ↔ (gridEqB g0 g c ∨ False)
        rw [hAfter c]
        constructor
        · intro h
          exact .inl fun p hp => absurd hp (hnoblank p)
        · intro h
          exact .inr fun p hp => absurd hp (hnoblank p)
      · intro c hsol hac
        exact absurd (hac : False) (fun f => f)
    · intro hfalse
      exact Bool.noConfusion hfalse
  | cons e rest =>
    obtain ⟨pr, pc⟩ := e
    have hinv2 : BFInv g0 g rest pr pc :=
      BFInv_standPop g0 g pr pc rest inv hnb
    obtain ⟨P, hPc, hPem, hPlt⟩ := inv.hstk (pr, pc) (List.mem_cons_self _ _)
    have hpr : (P.1 : ℕ) = pr := congrArg Prod.fst hPc
    have hpc' : (P.2 : ℕ) = pc := congrArg Prod.snd hPc
    have hppos : posOf P = pr * 9 + pc := by unfold posOf; rw [hpr, hpc']
    have hpr9 : pr < 9 := by have := P.1.isLt; omega
    have hpc9 : pc < 9 := by have := P.2.isLt; omega
    have hQ : P = cellAt pr pc hpr9 hpc9 := eq_cellAt_of_posOf hpr9 hpc9 hppos
    have hnoafter : ∀ x : Fin 9 × Fin 9, emAt g0 x →
        posOf x ≤ pr * 9 + pc := by
      intro x hx
      by_contra hgt
      have h1 : 1 ≤ g x.1 x.2 := hfill x hx
      have h2 : g x.1 x.2 = 0 := hinv2.haft x hx (by omega)
      omega
    have hretry2 : isRetry g0 g pr pc := by
      refine ⟨hpr9, hpc9, ?_, ?_⟩
      · rw [gget_cellAt g0 pr pc hpr9 hpc9, ← hQ]
        exact hPem
      · rw [gget_cellAt g pr pc hpr9 hpc9, ← hQ]
        have := inv.hbef P hPem hPlt
        omega
    have hτ2 : ∀ x : Fin 9 × Fin 9, emAt g0 x →
        tauG g (pr * 9 + pc) 9 x.1 x.2 = g x.1 x.2 := by
      intro x hx
      rw [tauG_at, if_pos (hnoafter x hx)]
    have hAfter2 : ∀ c : Grid, After g0 g pr pc c ↔ gridLtB g0 g c := by
      intro c
      unfold After
      rw [if_pos hretry2, gridLtB_congr_left g0 _ g c hτ2]
    constructor
    · intro _
      refine ⟨hsol1, hinv2, ?_, ?_⟩
      · intro c hsol
        show After g0 g 8 8 c ↔ (gridEqB g0 g c ∨ After g0 g pr pc c)
        rw [hAfter c, hAfter2 c]
        unfold gridLeB
        constructor
        · rintro (h | h)
          · exact .inr h
          · exact .inl h
        · rintro (h | h)
          · exact .inr h
          · exact .inl h
      · intro c hsol hac
        have hac' : After g0 g pr pc c := hac
        rw [hAfter2 c] at hac'
        exact hac'
    · intro hfalse
      exact Bool.noConfusion hfalse

/-! ### The entry state set up by `resolve_2` -/

/-- The initial scan state: untouched grid, empty stack, position (0,0). -/
lemma BFInv_init (g0 : Grid) (h9 : ∀ p : Fin 9 × Fin 9, g0 p.1 p.2 ≤ 9) :
    BFInv g0 g0 [] 0 0 := by
  refine ⟨by omega, by omega, fun p _ => rfl, h9, ?_, ?_, ?_, ?_,
    List.Pairwise.nil, ?_, ?_⟩
  · intro p hp hl
    exact absurd hl (by omega)
  · intro p hp hl
    exact hp
  · intro h0
    exact absurd h0 (by omega)
  · intro e he
    exact absurd he (List.not_mem_nil _)
  · intro p hp hl
    exact absurd hl (by omega)
  · intro p q hpq hu hp hpz hqz
    exact absurd hp hpz

/-- The initial state's search space contains every solution. -/
lemma After_init (g0 : Grid) (c : Grid) (hsol : Sol g0 c) :
    After g0 g0 0 0 c := by
  have hnr : ¬ isRetry g0 g0 0 0 := by
    rintro ⟨h1, h2, h3, h4⟩
    exact h4 h3
  unfold After
  rw [if_neg hnr]
  have hτ0 : ∀ x : Fin 9 × Fin 9, emAt g0 x →
      tauG g0 (0 * 9 + 0) 0 x.1 x.2 = 0 := by
    intro x hx
    rw [tauG_at]
    split
    · exact hx
    · rfl
  by_cases hex : ∃ q : Fin 9 × Fin 9, emAt g0 q
  · obtain ⟨q, hq⟩ := hex
    have hS : (Finset.univ.filter fun p : Fin 9 × Fin 9 =>
        emAt g0 p).Nonempty :=
      ⟨q, Finset.mem_filter.mpr ⟨Finset.mem_univ q, hq⟩⟩
    obtain ⟨m, hmmem, hmmin⟩ := Finset.exists_min_image _ posOf hS
    rw [Finset.mem_filter] at hmmem
    refine .inl ⟨m, hmmem.2, ?_, ?_⟩
    · rw [hτ0 m hmmem.2]
      have := (hsol.2.1 m hmmem.2).1
      omega
    · intro x hx hxl
      have := hmmin x (Finset.mem_filter.mpr ⟨Finset.mem_univ x, hx⟩)
      omega
  · refine .inr ?_
    intro p hp
    exact absurd ⟨p, hp⟩ hex

/-! ### A termination measure for the backtracking loop -/

/-- The blank cells of the input grid, as a finite set. -/
def blanks (g0 : Grid) : Finset (Fin 9 × Fin 9) :=
  Finset.univ.filter fun p => emAt g0 p

/-- Progress value of a scan state: the blank values weighted by
base-100 positional weights (earlier blanks heavier), plus a bonus at a
retry position (its digits up to the held value are already explored).
Every recursive step of `bfLoop` strictly increases it or keeps it equal
while the scan coordinate advances. -/
def TVal (g0 g : Grid) (row col : ℕ) : ℕ :=
  Finset.sum (blanks g0) (fun p => 2 * g p.1 p.2 * 100 ^ (80 - posOf p)) +
    (if isRetry g0 g row col then 100 ^ (80 - (row * 9 + col)) else 0)

def bigW : ℕ := 1600 * 100 ^ 80

/-- The decreasing measure: progress still missing, dominating the scan
coordinate's bounded wobble. -/
def bfMeasure (g0 g : Grid) (row col : ℕ) : ℕ :=
  (bigW - TVal g0 g row col) * 200 +
    (2 * (81 - (row * 9 + col)) + (if col = 9 then 1 else 0))

lemma TVal_le_bigW (g0 g : Grid) (row col : ℕ)
    (hle9 : ∀ p : Fin 9 × Fin 9, g p.1 p.2 ≤ 9) :
    TVal g0 g row col ≤ bigW := by
  unfold TVal bigW
  have hsum : Finset.sum (blanks g0)
      (fun p => 2 * g p.1 p.2 * 100 ^ (80 - posOf p)) ≤
      (blanks g0).card • (18 * 100 ^ 80) := by
    apply Finset.sum_le_card_nsmul
    intro p hp
    have h1 : (100:ℕ) ^ (80 - posOf p) ≤ 100 ^ 80 :=
      Nat.pow_le_pow_right (by omega) (by omega)
    have h2 : 2 * g p.1 p.2 ≤ 18 := by have := hle9 p; omega
    calc 2 * g p.1 p.2 * 100 ^ (80 - posOf p)
        ≤ 18 * 100 ^ (80 - posOf p) := Nat.mul_le_mul_right _ h2
      _ ≤ 18 * 100 ^ 80 := Nat.mul_le_mul_left _ h1
  have hcard : (blanks g0).card ≤ 81 := by
    have h1 : (blanks g0).card ≤ (Finset.univ : Finset (Fin 9 × Fin 9)).card :=
      Finset.card_filter_le _ _
    simpa using h1
  rw [smul_eq_mul] at hsum
  have hsum2 : Finset.sum (blanks g0)
      (fun p => 2 * g p.1 p.2 * 100 ^ (80 - posOf p)) ≤ 81 * (18 * 100 ^ 80) :=
    hsum.trans (Nat.mul_le_mul_right _ hcard)
  have hbonus : (if isRetry g0 g row col then
      (100:ℕ) ^ (80 - (row * 9 + col)) else 0) ≤ 100 ^ 80 := by
    split
    · exact Nat.pow_le_pow_right (by omega) (by omega)
    · exact Nat.zero_le _
  omega

/-- Exchanging the value of one blank cell inside the weighted sum. -/
lemma TVal_sum_exchange (g0 g gs : Grid) (t : Fin 9 × Fin 9)
    (htem : emAt g0 t) (d : ℕ)
    (hgs : ∀ q : Fin 9 × Fin 9, gs q.1 q.2 =
      if q = t then d else g q.1 q.2) :
    Finset.sum (blanks g0) (fun p => 2 * gs p.1 p.2 * 100 ^ (80 - posOf p))
      + 2 * g t.1 t.2 * 100 ^ (80 - posOf t)
    = Finset.sum (blanks g0) (fun p => 2 * g p.1 p.2 * 100 ^ (80 - posOf p))
      + 2 * d * 100 ^ (80 - posOf t) := by
  have htmem : t ∈ blanks g0 :=
    Finset.mem_filter.mpr ⟨Finset.mem_univ t, htem⟩
  rw [← Finset.sum_erase_add (blanks g0) _ htmem,
    ← Finset.sum_erase_add (blanks g0)
      (fun p => 2 * g p.1 p.2 * 100 ^ (80 - posOf p)) htmem]
  have hcong : Finset.sum ((blanks g0).erase t)
      (fun p => 2 * gs p.1 p.2 * 100 ^ (80 - posOf p)) =
      Finset.sum ((blanks g0).erase t)
      (fun p => 2 * g p.1 p.2 * 100 ^ (80 - posOf p)) := by
    apply Finset.sum_congr rfl
    intro p hp
    rw [hgs p, if_neg (Finset.ne_of_mem_erase hp)]
  rw [hcong, hgs t, if_pos rfl]
  ring

lemma bfMeasure_skip (g0 g : Grid) (stack : List (ℕ × ℕ)) (row col : ℕ)
    (inv : BFInv g0 g stack row col) (hr : row < 9) (hc : col < 9)
    (hnb : ¬ emAt g0 (cellAt row col hr hc)) (hlt : row * 9 + col < 80) :
    bfMeasure g0 g row (col + 1) < bfMeasure g0 g row col := by
  have hnr1 : ¬ isRetry g0 g row col := by
    rintro ⟨_, _, h0, _⟩
    exact hnb ((emAt_cellAt_iff g0 row col hr hc).mpr h0)
  have hnr2 : ¬ isRetry g0 g row (col + 1) := by
    rintro ⟨_, hc1, h0, h4⟩
    have hcell : emAt g0 (cellAt row (col + 1) hr hc1) :=
      (emAt_cellAt_iff g0 row (col + 1) hr hc1).mpr h0
    have hz : g (cellAt row (col + 1) hr hc1).1 (cellAt row (col + 1) hr hc1).2 = 0 :=
      inv.haft _ hcell (by rw [posOf_cellAt]; omega)
    rw [gget_cellAt g row (col + 1) hr hc1, hz] at h4
    exact h4 rfl
  unfold bfMeasure TVal
  rw [if_neg hnr1, if_neg hnr2, if_neg (show ¬ col = 9 by omega)]
  by_cases hc2 : col + 1 = 9
  · rw [if_pos hc2]
    omega
  · rw [if_neg hc2]
    omega

lemma bfMeasure_rowadv (g0 g : Grid) (stack : List (ℕ × ℕ)) (row : ℕ)
    (inv : BFInv g0 g stack row 9) :
    bfMeasure g0 g (row + 1) 0 < bfMeasure g0 g row 9 := by
  have hnr1 : ¬ isRetry g0 g row 9 := by
    rintro ⟨_, h, _⟩
    omega
  have hnr2 : ¬ isRetry g0 g (row + 1) 0 := by
    rintro ⟨hr9, hc9, h0, h4⟩
    have hcell : emAt g0 (cellAt (row + 1) 0 hr9 hc9) :=
      (emAt_cellAt_iff g0 (row + 1) 0 hr9 hc9).mpr h0
    have hz : g (cellAt (row + 1) 0 hr9 hc9).1 (cellAt (row + 1) 0 hr9 hc9).2 = 0 :=
      inv.hat9 rfl _ hcell (by rw [posOf_cellAt]; omega)
    rw [gget_cellAt g (row + 1) 0 hr9 hc9, hz] at h4
    exact h4 rfl
  have hp80 := inv.hpos
  unfold bfMeasure TVal
  rw [if_neg hnr1, if_neg hnr2, if_pos (rfl : (9:ℕ) = 9),
    if_neg (show ¬ (0:ℕ) = 9 by omega)]
  omega

lemma bfMeasure_place (g0 g : Grid) (stack : List (ℕ × ℕ)) (row col : ℕ)
    (inv : BFInv g0 g stack row col) (hr : row < 9) (hc : col < 9)
    (hem : emAt g0 (cellAt row col hr hc)) (d : ℕ)
    (hnd : next_digit g row col = some d) (hlt : row * 9 + col < 80) :
    bfMeasure g0 (gset g row col d) row (col + 1) < bfMeasure g0 g row col := by
  set t := cellAt row col hr hc with htdef
  have htpos : posOf t = row * 9 + col := posOf_cellAt row col hr hc
  have hvt : gget g row col = g t.1 t.2 := gget_cellAt g row col hr hc
  have hvle : gget g row col ≤ 9 := by rw [hvt]; exact inv.hle9 t
  obtain ⟨hdlt, hd9, -, -⟩ := next_digit_some g row col d hvle hnd
  have hget : ∀ q : Fin 9 × Fin 9, gset g row col d q.1 q.2 =
      if q = t then d else g q.1 q.2 := gset_fin g t d
  have hnr2 : ¬ isRetry g0 (gset g row col d) row (col + 1) := by
    rintro ⟨_, hc1, h0, h4⟩
    have hcell : emAt g0 (cellAt row (col + 1) hr hc1) :=
      (emAt_cellAt_iff g0 row (col + 1) hr hc1).mpr h0
    have hne : cellAt row (col + 1) hr hc1 ≠ t := by
      intro h
      have h5 := congrArg posOf h
      rw [posOf_cellAt, htpos] at h5
      omega
    have hz : g (cellAt row (col + 1) hr hc1).1 (cellAt row (col + 1) hr hc1).2 = 0 :=
      inv.haft _ hcell (by rw [posOf_cellAt]; omega)
    rw [gget_cellAt (gset g row col d) row (col + 1) hr hc1,
      hget (cellAt row (col + 1) hr hc1), if_neg hne, hz] at h4
    exact h4 rfl
  have hinv2 : BFInv g0 (gset g row col d) ((row, col) :: stack) row (col + 1) :=
    BFInv_place g0 g stack row col inv hr hc hem d hnd hlt
  have hT2 : TVal g0 (gset g row col d) row (col + 1) ≤ bigW :=
    TVal_le_bigW g0 _ row (col + 1) hinv2.hle9
  have hT1 : TVal g0 g row col ≤ bigW := TVal_le_bigW g0 g row col inv.hle9
  have hexch := TVal_sum_exchange g0 g (gset g row col d) t hem d hget
  have hTlt : TVal g0 g row col + 1 ≤
      TVal g0 (gset g row col d) row (col + 1) := by
    unfold TVal
    rw [if_neg hnr2]
    have hbonus : (if isRetry g0 g row col then
        (100:ℕ) ^ (80 - (row * 9 + col)) else 0) ≤ 100 ^ (80 - posOf t) := by
      rw [htpos]
      split
      · exact Nat.le_refl _
      · exact Nat.zero_le _
    have hY : 2 * g t.1 t.2 * 100 ^ (80 - posOf t)
        + 2 * 100 ^ (80 - posOf t) ≤ 2 * d * 100 ^ (80 - posOf t) := by
      have h1 : 2 * g t.1 t.2 + 2 ≤ 2 * d := by omega
      calc 2 * g t.1 t.2 * 100 ^ (80 - posOf t) + 2 * 100 ^ (80 - posOf t)
          = (2 * g t.1 t.2 + 2) * 100 ^ (80 - posOf t) := by ring
        _ ≤ 2 * d * 100 ^ (80 - posOf t) := Nat.mul_le_mul_right _ h1
    have hW1 : 1 ≤ (100:ℕ) ^ (80 - posOf t) := Nat.one_le_pow _ 100 (by omega)
    omega
  unfold bfMeasure
  rw [if_neg (show ¬ col = 9 by omega)]
  by_cases hc2 : col + 1 = 9
  · rw [if_pos hc2]
    omega
  · rw [if_neg hc2]
    omega

lemma bfMeasure_pop (g0 g : Grid) (pr pc : ℕ) (rest : List (ℕ × ℕ))
    (row col : ℕ) (inv : BFInv g0 g ((pr, pc) :: rest) row col)
    (hr : row < 9) (hc : col < 9)
    (hem : emAt g0 (cellAt row col hr hc))
    (_hnd : next_digit g row col = none) :
    bfMeasure g0 (gset g row col 0) pr pc < bfMeasure g0 g row col := by
  obtain ⟨P, hPc, hPem, hPlt⟩ := inv.hstk (pr, pc) (List.mem_cons_self _ _)
  have hpr : (P.1 : ℕ) = pr := congrArg Prod.fst hPc
  have hpc' : (P.2 : ℕ) = pc := congrArg Prod.snd hPc
  have hppos : posOf P = pr * 9 + pc := by unfold posOf; rw [hpr, hpc']
  have hplt' : pr * 9 + pc < row * 9 + col := by rw [← hppos]; exact hPlt
  have hpr9 : pr < 9 := by have := P.1.isLt; omega
  have hpc9 : pc < 9 := by have := P.2.isLt; omega
  have hQ : P = cellAt pr pc hpr9 hpc9 := eq_cellAt_of_posOf hpr9 hpc9 hppos
  set t := cellAt row col hr hc with htdef
  have htpos : posOf t = row * 9 + col := posOf_cellAt row col hr hc
  have hget : ∀ q : Fin 9 × Fin 9, gset g row col 0 q.1 q.2 =
      if q = t then 0 else g q.1 q.2 := gset_fin g t 0
  have hinv2 : BFInv g0 (gset g row col 0) rest pr pc :=
    BFInv_pop g0 g pr pc rest row col inv hr hc hem
  have hr2 : isRetry g0 (gset g row col 0) pr pc := by
    refine ⟨hpr9, hpc9, ?_, ?_⟩
    · rw [gget_cellAt g0 pr pc hpr9 hpc9, ← hQ]
      exact hPem
    · rw [gget_cellAt (gset g row col 0) pr pc hpr9 hpc9,
        hget (cellAt pr pc hpr9 hpc9),
        if_neg (show cellAt pr pc hpr9 hpc9 ≠ t from fun h => by
          have h5 := congrArg posOf h
          rw [posOf_cellAt, htpos] at h5
          omega), ← hQ]
      have := inv.hbef P hPem hPlt
      omega
  have hT2 : TVal g0 (gset g row col 0) pr pc ≤ bigW :=
    TVal_le_bigW g0 _ pr pc hinv2.hle9
  have hT1 : TVal g0 g row col ≤ bigW := TVal_le_bigW g0 g row col inv.hle9
  have hexch := TVal_sum_exchange g0 g (gset g row col 0) t hem 0 hget
  have hTlt : TVal g0 g row col + 1 ≤ TVal g0 (gset g row col 0) pr pc := by
    unfold TVal
    rw [if_pos hr2]
    have hbonus : (if isRetry g0 g row col then
        (100:ℕ) ^ (80 - (row * 9 + col)) else 0) ≤ 100 ^ (80 - posOf t) := by
      rw [htpos]
      split
      · exact Nat.le_refl _
      · exact Nat.zero_le _
    have hX : 2 * g t.1 t.2 * 100 ^ (80 - posOf t)
        ≤ 18 * 100 ^ (80 - posOf t) :=
      Nat.mul_le_mul_right _ (by have := inv.hle9 t; omega)
    have hWp : 100 * 100 ^ (80 - posOf t) ≤ (100:ℕ) ^ (80 - (pr * 9 + pc)) := by
      rw [htpos]
      have hpos80 := inv.hpos
      have h1 : 80 - (row * 9 + col) + 1 ≤ 80 - (pr * 9 + pc) := by omega
      calc (100:ℕ) * 100 ^ (80 - (row * 9 + col))
          = 100 ^ (80 - (row * 9 + col) + 1) := by rw [Nat.pow_succ]; ring
        _ ≤ 100 ^ (80 - (pr * 9 + pc)) :=
          Nat.pow_le_pow_right (by omega) h1
    have hW1 : 1 ≤ (100:ℕ) ^ (80 - posOf t) := Nat.one_le_pow _ 100 (by omega)
    omega
  unfold bfMeasure
  rw [if_neg (show ¬ col = 9 by omega), if_neg (show ¬ pc = 9 by omega)]
  omega

lemma bfMeasure_lt_bfFuel (g0 g : Grid) (row col : ℕ) :
    bfMeasure g0 g row col < bfFuel := by
  unfold bfMeasure
  have h1 : bigW - TVal g0 g row col ≤ bigW := Nat.sub_le _ _
  have h2 : 2 * (81 - (row * 9 + col)) + (if col = 9 then 1 else 0) ≤ 163 := by
    split <;> omega
  have h3 : bigW * 200 + 163 < bfFuel := by
    unfold bigW bfFuel
    decide
  have h4 := Nat.mul_le_mul_right 200 h1
  omega

/-! ### Soundness and termination of the backtracking loop -/

lemma bfLoop_succ (fuel : ℕ) (g : Grid) (em : Mask) (stack : List (ℕ × ℕ))
    (row col : ℕ) :
    bfLoop (fuel + 1) g em stack row col =
      if row < 9 then
        if col < 9 then
          if gget g row col = 0 ∨ mget em row col then
            match next_digit g row col with
            | some d =>
              let g' := gset g row col d
              let stack' := (row, col) :: stack
              if row = 8 ∧ col = 8 ∧ gget g' row col ≠ 0 then
                some (true, g', stack')
              else bfLoop fuel g' em stack' row (col + 1)
            | none =>
              let g' := gset g row col 0
              match stack with
              | (pr, pc) :: rest => bfLoop fuel g' em rest pr pc
              | [] => some (false, g', [])
          else
            if row = 8 ∧ col = 8 ∧ gget g row col ≠ 0 then
              some (true, g, stack)
            else bfLoop fuel g em stack row (col + 1)
        else bfLoop fuel g em stack (row + 1) 0
      else some (false, g, stack) := rfl

/-- With enough fuel, `bfLoop` from any well-formed scan state returns,
and its result enumerates the state's search space as specified. -/
lemma bfLoop_sound (g0 : Grid) : ∀ fuel (g : Grid) (stack : List (ℕ × ℕ))
    (row col : ℕ), BFInv g0 g stack row col →
    bfMeasure g0 g row col < fuel →
    ∃ res : Bool × Grid × List (ℕ × ℕ),
      bfLoop fuel g (blankMask g0) stack row col = some res ∧
      SpecRes g0 g row col res := by
  intro fuel
  induction fuel with
  | zero =>
    intro g stack row col inv hfuel
    exact absurd hfuel (by omega)
  | succ fuel ih =>
    intro g stack row col inv hfuel
    have hr : row < 9 := by have := inv.hpos; omega
    by_cases hc : col < 9
    · by_cases hem : emAt g0 (cellAt row col hr hc)
      · have hcond : gget g row col = 0 ∨ mget (blankMask g0) row col = true :=
          (blank_cond g0 g ⟨row, hr⟩ ⟨col, hc⟩ inv.hoff).mpr hem
        cases hnd : next_digit g row col with
        | some d =>
          have hvle : gget g row col ≤ 9 := by
            rw [gget_cellAt g row col hr hc]
            exact inv.hle9 _
          obtain ⟨hdlt, hd9, -, -⟩ := next_digit_some g row col d hvle hnd
          have hgd : gget (gset g row col d) row col = d := by
            rw [gget_cellAt (gset g row col d) row col hr hc]
            unfold gset
            rw [if_pos ⟨rfl, rfl⟩]
          have hstep : bfLoop (fuel + 1) g (blankMask g0) stack row col =
              if row = 8 ∧ col = 8 ∧ gget (gset g row col d) row col ≠ 0 then
                some (true, gset g row col d, (row, col) :: stack)
              else bfLoop fuel (gset g row col d) (blankMask g0)
                ((row, col) :: stack) row (col + 1) := by
            rw [bfLoop_succ, if_pos hr, if_pos hc, if_pos hcond, hnd]
          by_cases h88 : row = 8 ∧ col = 8
          · rw [if_pos ⟨h88.1, h88.2, by rw [hgd]; omega⟩] at hstep
            obtain ⟨h8r, h8c⟩ := h88
            subst h8r
            subst h8c
            exact ⟨_, hstep, success_place g0 g stack inv hr hc hem d hnd⟩
          · rw [if_neg (fun h => h88 ⟨h.1, h.2.1⟩)] at hstep
            have hlt : row * 9 + col < 80 := pos_lt_80 inv.hpos hr hc h88
            have hinv2 := BFInv_place g0 g stack row col inv hr hc hem d hnd hlt
            have hdec := bfMeasure_place g0 g stack row col inv hr hc hem d hnd hlt
            obtain ⟨res, heq, hspec⟩ := ih (gset g row col d)
              ((row, col) :: stack) row (col + 1) hinv2 (by omega)
            exact ⟨res, hstep.trans heq,
              SpecRes_transport g0 g (gset g row col d) row col row (col + 1)
                res (fun c hc' =>
                  After_place g0 g stack row col inv hr hc hem d hnd c hc')
                hspec⟩
        | none =>
          cases stack with
          | nil =>
            have hstep : bfLoop (fuel + 1) g (blankMask g0) [] row col =
                some (false, gset g row col 0, []) := by
              rw [bfLoop_succ, if_pos hr, if_pos hc, if_pos hcond, hnd]
            refine ⟨_, hstep, ?_, ?_⟩
            · intro ht
              exact Bool.noConfusion ht
            · intro _
              exact ⟨rfl, fun c hc' =>
                After_deadend g0 g row col inv hr hc hem hnd c hc'⟩
          | cons e rest =>
            obtain ⟨pr, pc⟩ := e
            have hstep : bfLoop (fuel + 1) g (blankMask g0)
                ((pr, pc) :: rest) row col =
                bfLoop fuel (gset g row col 0) (blankMask g0) rest pr pc := by
              rw [bfLoop_succ, if_pos hr, if_pos hc, if_pos hcond, hnd]
            have hinv2 := BFInv_pop g0 g pr pc rest row col inv hr hc hem
            have hdec := bfMeasure_pop g0 g pr pc rest row col inv hr hc hem hnd
            obtain ⟨res, heq, hspec⟩ := ih (gset g row col 0) rest pr pc
              hinv2 (by omega)
            exact ⟨res, hstep.trans heq,
              SpecRes_transport g0 g (gset g row col 0) row col pr pc res
                (fun c hc' =>
                  After_pop g0 g pr pc rest row col inv hr hc hem hnd c hc')
                hspec⟩
      · have hcond : ¬ (gget g row col = 0 ∨
            mget (blankMask g0) row col = true) := fun h =>
          hem ((blank_cond g0 g ⟨row, hr⟩ ⟨col, hc⟩ inv.hoff).mp h)
        have hgnz : gget g row col ≠ 0 := by
          rw [gget_cellAt g row col hr hc, inv.hoff _ hem]
          exact hem
        have hstep : bfLoop (fuel + 1) g (blankMask g0) stack row col =
            if row = 8 ∧ col = 8 ∧ gget g row col ≠ 0 then
              some (true, g, stack)
            else bfLoop fuel g (blankMask g0) stack row (col + 1) := by
          rw [bfLoop_succ, if_pos hr, if_pos hc, if_neg hcond]
        by_cases h88 : row = 8 ∧ col = 8
        · rw [if_pos ⟨h88.1, h88.2, hgnz⟩] at hstep
          obtain ⟨h8r, h8c⟩ := h88
          subst h8r
          subst h8c
          exact ⟨_, hstep, success_skip g0 g stack inv hr hc hem⟩
        · rw [if_neg (fun h => h88 ⟨h.1, h.2.1⟩)] at hstep
          have hlt : row * 9 + col < 80 := pos_lt_80 inv.hpos hr hc h88
          have hinv2 := BFInv_skip g0 g stack row col inv hr hc hem hlt
          have hdec := bfMeasure_skip g0 g stack row col inv hr hc hem hlt
          obtain ⟨res, heq, hspec⟩ := ih g stack row (col + 1) hinv2 (by omega)
          exact ⟨res, hstep.trans heq,
            SpecRes_transport g0 g g row col row (col + 1) res
              (fun c hc' => After_skip g0 g stack row col inv hr hc hem c)
              hspec⟩
    · have hc9 : col = 9 := by have := inv.hcol; omega
      subst hc9
      have hstep : bfLoop (fuel + 1) g (blankMask g0) stack row 9 =
          bfLoop fuel g (blankMask g0) stack (row + 1) 0 := by
        rw [bfLoop_succ, if_pos hr, if_neg hc]
      have hinv2 := BFInv_rowadv g0 g stack row inv
      have hdec := bfMeasure_rowadv g0 g stack row inv
      obtain ⟨res, heq, hspec⟩ := ih g stack (row + 1) 0 hinv2 (by omega)
      exact ⟨res, hstep.trans heq,
        SpecRes_transport g0 g g row 9 (row + 1) 0 res
          (fun c hc' => After_rowadv g0 g stack row inv c) hspec⟩

/-- C3: amended. Every `brute_force` call on a ready configuration
returns. The standard entry configuration (untouched grid, stack
`[(0,0)]`) is ready and its search space holds every blank-relative
solution of the grid. A successful call returns a blank-relative solution
taken from the configuration's space, hands back a ready configuration
(the stack primed so the next call resumes standing on the last placed
cell), and splits the space into exactly that solution plus the new
configuration's space, which lies strictly above it in blank-major
lexicographic order — so repeated invocation returns each blank-relative
solution exactly once, in increasing order, and then fails. A failing
call returns an empty stack and certifies its space held no solution.
The original claim's "complete legal solution" is amended to
blank-relative solution: the solver never cross-checks two given cells
(see the counterexample on the all-ones grid). -/
theorem brute_force_enumerates :
    (∀ g0 : Grid, (∀ p : Fin 9 × Fin 9, g0 p.1 p.2 ≤ 9) →
      Ready g0 g0 [(0, 0)] ∧
      (∀ c : Grid, Sol g0 c → AfterCall g0 g0 [(0, 0)] c)) ∧
    (∀ (g0 g : Grid) (stack : List (ℕ × ℕ)), Ready g0 g stack →
      ∃ res : Bool × Grid × List (ℕ × ℕ),
        brute_force g (blankMask g0) stack = some res ∧
        (res.1 = true → Sol g0 res.2.1 ∧ Ready g0 res.2.1 res.2.2 ∧
          AfterCall g0 g stack res.2.1 ∧
          (∀ c : Grid, Sol g0 c → (AfterCall g0 g stack c ↔
            (gridEqB g0 res.2.1 c ∨ AfterCall g0 res.2.1 res.2.2 c))) ∧
          (∀ c : Grid, Sol g0 c → AfterCall g0 res.2.1 res.2.2 c →
            gridLtB g0 res.2.1 c)) ∧
        (res.1 = false → res.2.2 = [] ∧
          ∀ c : Grid, Sol g0 c → ¬ AfterCall g0 g stack c)) := by
  constructor
  · intro g0 h9
    refine ⟨BFInv_init g0 h9, ?_⟩
    intro c hsol
    exact After_init g0 c hsol
  · intro g0 g stack hready
    cases stack with
    | nil =>
      refine ⟨(false, g, []), rfl, ?_, ?_⟩
      · intro ht
        exact Bool.noConfusion ht
      · intro _
        exact ⟨rfl, fun c hc hac => hac⟩
    | cons e rest =>
      obtain ⟨r, c0⟩ := e
      have hinv : BFInv g0 g rest r c0 := hready
      obtain ⟨res, heq, hspec⟩ :=
        bfLoop_sound g0 bfFuel g rest r c0 hinv (bfMeasure_lt_bfFuel g0 g r c0)
      refine ⟨res, heq, ?_, ?_⟩
      · intro ht
        obtain ⟨h1, h2, h3, h4⟩ := hspec.1 ht
        refine ⟨h1, h2, ?_, ?_, h4⟩
        · exact (h3 res.2.1 h1).mpr (.inl fun p hp => rfl)
        · intro c hc
          exact h3 c hc
      · intro hf
        obtain ⟨h1, h2⟩ := hspec.2 hf
        exact ⟨h1, fun c hc hac => h2 c hc hac⟩

theorem brute_force_enumerates_witness :
    (∀ p : Fin 9 × Fin 9, allOnes p.1 p.2 ≤ 9) ∧
    Ready allOnes allOnes [(0, 0)] ∧
    (∃ res : Bool × Grid × List (ℕ × ℕ),
      brute_force allOnes (blankMask allOnes) [(0, 0)] = some res ∧
      (res.1 = true → Sol allOnes res.2.1 ∧ Ready allOnes res.2.1 res.2.2 ∧
        AfterCall allOnes allOnes [(0, 0)] res.2.1 ∧
        (∀ c : Grid, Sol allOnes c → (AfterCall allOnes allOnes [(0, 0)] c ↔
          (gridEqB allOnes res.2.1 c ∨ AfterCall allOnes res.2.1 res.2.2 c))) ∧
        (∀ c : Grid, Sol allOnes c → AfterCall allOnes res.2.1 res.2.2 c →
          gridLtB allOnes res.2.1 c)) ∧
      (res.1 = false → res.2.2 = [] ∧
        ∀ c : Grid, Sol allOnes c → ¬ AfterCall allOnes allOnes [(0, 0)] c)) := by
  have h9 : ∀ p : Fin 9 × Fin 9, allOnes p.1 p.2 ≤ 9 := by decide
  have hready : Ready allOnes allOnes [(0, 0)] :=
    (brute_force_enumerates.1 allOnes h9).1
  exact ⟨h9, hready, brute_force_enumerates.2 allOnes allOnes [(0, 0)] hready⟩

end Superdo
